import Mathlib

/-!
# Traveling-salesman swarm optimiser: a shallow embedding of `main.cpp`

The program keeps a swarm of particles, each holding a tour (a permutation of
the city indices), and a process-wide best tour.  This file embeds the
program's functions as Lean functions and proves properties of them.

Modelling conventions
* `float` costs live in an arbitrary linearly ordered additive monoid `α`;
  the square root is a parameter `sqrtF : Int → α` applied to the (exact,
  integer) squared distance.  Instantiating `α := ℝ` and
  `sqrtF := fun z => Real.sqrt z` gives the cost "over the reals".
* `vector<int>` is `List Nat`; an access outside the vector (undefined
  behaviour in C++) makes the embedded function return `none`.
* The generator `rng` is an explicit stream of natural numbers.  Every
  variate (`rng()`, a uniform real, a normal deviate) consumes one element.
* `std::shuffle` is the forward Fisher–Yates loop: for `i = 1 .. n-1` swap
  element `i` with element `draw % (i+1)`.
* `std::sort` is an insertion sort on `a.cost ≤ b.cost`; only "sorted
  permutation of the input" is used in proofs, never the order of ties.
-/

namespace TSPSwarm

/-! ## Constants -/

def NUM_CITIES : Nat := 20
def NUM_PARTICLES : Nat := 500
def MAX_ITERATIONS : Nat := 2000
def INITIAL_INERTIA_WEIGHT : ℚ := 9 / 10
def FINAL_INERTIA_WEIGHT : ℚ := 4 / 10
def COGNITIVE_COMPONENT : ℚ := 149445 / 100000
def SOCIAL_COMPONENT : ℚ := 149445 / 100000
def MUTATION_RATE : ℚ := 1 / 10
def GAUSSIAN_STDDEV : ℚ := 1 / 10
def PRUNE_PERCENTAGE : Nat := 10

/-- The value of `numeric_limits<float>::max()`: `(2 - 2^-23) * 2^127`, an
integer. -/
def FLT_MAX : Nat := 2 ^ 128 - 2 ^ 104

/-! ## Data model -/

/-- A city: integer coordinates. -/
structure City where
  x : Int
  y : Int
deriving DecidableEq, Repr

/-- A particle: current tour, best tour seen, and their costs. -/
structure Particle (α : Type) where
  position : List Nat
  best_position : List Nat
  best_cost : α
  cost : α
deriving DecidableEq, Repr

/-- The random generator: an infinite stream of raw draws and the number of
draws consumed so far. -/
structure Rng where
  stream : Nat → Nat
  pos : Nat

/-- The mutable globals of the program (the cities are passed separately,
they are read-only after `generateCities`). -/
structure State (α : Type) where
  swarm : List (Particle α)
  global_best_position : List Nat
  global_best_cost : α
  rng : Rng

/-! ## The random source -/

/-- The next raw element of the stream. -/
def Rng.peek (g : Rng) : Nat := g.stream g.pos

/-- The generator after one draw. -/
def Rng.advance : Rng → Rng
  | ⟨stream, pos⟩ => ⟨stream, pos + 1⟩

/-- One call `rng()`: a 32-bit value. -/
def Rng.draw (g : Rng) : Nat × Rng := (g.peek % 2 ^ 32, g.advance)

/-- One call `uniform_real_distribution<>(0, 1)(rng)`: a value in `[0, 1)`. -/
def Rng.uniform01 (g : Rng) : ℚ × Rng := (((g.peek % 2 ^ 32 : Nat) : ℚ) / 2 ^ 32, g.advance)

/-- One call `fabs(gauss_dist(rng))`: a non-negative magnitude, any multiple
of `GAUSSIAN_STDDEV / 2^16`. -/
def Rng.gaussAbs (g : Rng) : ℚ × Rng :=
  (GAUSSIAN_STDDEV * ((g.peek : Nat) : ℚ) / 2 ^ 16, g.advance)

/-! ## Vector primitives -/

/-- The call `swap(v[i], v[j])`; `none` when an index is outside `v`. -/
def swapAt (v : List Nat) (i j : Nat) : Option (List Nat) := do
  let a ← v[i]?
  let b ← v[j]?
  pure ((v.set i b).set j a)

/-- The loop of `std::shuffle`: `k` remaining positions, starting at `i`. -/
def shuffleLoop : Nat → Nat → List Nat → Rng → Option (List Nat × Rng)
  | 0, _, v, g => some (v, g)
  | k + 1, i, v, g => do
    let (r, g1) := g.draw
    let v1 ← swapAt v i (r % (i + 1))
    shuffleLoop k (i + 1) v1 g1

/-- The call `shuffle(v.begin(), v.end(), rng)`. -/
def shuffle (v : List Nat) (g : Rng) : Option (List Nat × Rng) :=
  shuffleLoop (v.length - 1) 1 v g

/-! ## `generateCities` -/

/-- The loop of `generateCities` over the `cities` vector. -/
def generateCities : List City → Rng → List City × Rng
  | [], g => ([], g)
  | _ :: rest, g =>
    let (rx, g1) := g.draw
    let (ry, g2) := g1.draw
    let (cs, g3) := generateCities rest g2
    ({ x := (rx % 100 : Nat), y := (ry % 100 : Nat) } :: cs, g3)

/-! ## `calculateCost` -/

section Cost

variable {α : Type} [AddMonoid α]

/-- The length of the edge between cities `a` and `b`:
`sqrt(dx * dx + dy * dy)`. -/
def edgeCost (sqrtF : Int → α) (cities : List City) (a b : Nat) : Option α := do
  let ca ← cities[a]?
  let cb ← cities[b]?
  let dx := ca.x - cb.x
  let dy := ca.y - cb.y
  pure (sqrtF (dx * dx + dy * dy))

/-- The `for` loop of `calculateCost`: `i` from `0` to `route.size() - 2`,
adding the edge `route[i]`, `route[i+1]` to `total_cost`. -/
def costLoop (sqrtF : Int → α) (cities : List City) : List Nat → α → Option α
  | cityA :: cityB :: rest, total_cost => do
    let d ← edgeCost sqrtF cities cityA cityB
    costLoop sqrtF cities (cityB :: rest) (total_cost + d)
  | _, total_cost => some total_cost

/-- The function `calculateCost(route)`.  An empty route reads `route[0]`
outside the vector, hence `none`. -/
def calculateCost (sqrtF : Int → α) (cities : List City) (route : List Nat) : Option α := do
  let total_cost ← costLoop sqrtF cities route 0
  let startCity ← route.head?
  let endCity ← route.getLast?
  let d ← edgeCost sqrtF cities startCity endCity
  pure (total_cost + d)

end Cost

/-! ## The swarm operations -/

section Swarm

variable {α : Type} [LinearOrder α] [AddMonoid α]

/-- The state at program start: `swarm(NUM_PARTICLES)` value-initialised,
an empty global best tour, and `global_best_cost` set to the sentinel
`numeric_limits<float>::max()` (the parameter `fltMax`). -/
def initialState (fltMax : α) (g : Rng) : State α :=
  { swarm := List.replicate NUM_PARTICLES
      { position := [], best_position := [], best_cost := 0, cost := 0 }
    global_best_position := []
    global_best_cost := fltMax
    rng := g }

/-- The loop of `initializeParticles` over the swarm, threading the global
best and the generator. -/
def initLoop (sqrtF : Int → α) (cities : List City) :
    List (Particle α) → List Nat → α → Rng →
      Option (List (Particle α) × List Nat × α × Rng)
  | [], gbp, gbc, g => some ([], gbp, gbc, g)
  | _ :: rest, gbp, gbc, g => do
    let (position, g1) ← shuffle (List.range NUM_CITIES) g
    let cost ← calculateCost sqrtF cities position
    let particle : Particle α :=
      { position := position, best_position := position, best_cost := cost, cost := cost }
    let (gbp1, gbc1) := if cost < gbc then (position, cost) else (gbp, gbc)
    let (ps, r) ← initLoop sqrtF cities rest gbp1 gbc1 g1
    some (particle :: ps, r)

/-- The function `initializeParticles()`. -/
def initializeParticles (sqrtF : Int → α) (cities : List City) (s : State α) :
    Option (State α) := do
  let (swarm, gbp, gbc, g) ←
    initLoop sqrtF cities s.swarm s.global_best_position s.global_best_cost s.rng
  some { swarm := swarm, global_best_position := gbp, global_best_cost := gbc, rng := g }

/-- The Gaussian loop of `applyMutationAndGaussian`: `k` remaining
iterations, index `i`.  The uniform variate is drawn before the normal one. -/
def gaussLoop : Nat → Nat → List Nat → Rng → Option (List Nat × Rng)
  | 0, _, position, g => some (position, g)
  | k + 1, i, position, g =>
    let (u, g1) := g.uniform01
    let (a, g2) := g1.gaussAbs
    if u < a then do
      let (r, g3) := g2.draw
      let position1 ← swapAt position i (r % NUM_CITIES)
      gaussLoop k (i + 1) position1 g3
    else gaussLoop k (i + 1) position g2

/-- The function `applyMutationAndGaussian(position)`. -/
def applyMutationAndGaussian (position : List Nat) (g : Rng) : Option (List Nat × Rng) :=
  let (u, g1) := g.uniform01
  if u < MUTATION_RATE then do
    let (r1, g2) := g1.draw
    let (r2, g3) := g2.draw
    let position1 ← swapAt position (r1 % NUM_CITIES) (r2 % NUM_CITIES)
    gaussLoop NUM_CITIES 0 position1 g3
  else gaussLoop NUM_CITIES 0 position g1

/-- The assignment loop `position[j] = j` of `pruneParticles`. -/
def identityLoop : Nat → Nat → List Nat → Option (List Nat)
  | 0, _, position => some position
  | k + 1, j, position =>
    if j < position.length then identityLoop k (j + 1) (position.set j j) else none

/-- The comparator of the `sort` call in `pruneParticles`, as the order
`a` may stand before `b`: not `b.cost < a.cost`. -/
def costLE (a b : Particle α) : Prop := a.cost ≤ b.cost

instance : DecidableRel (costLE : Particle α → Particle α → Prop) :=
  fun a b => inferInstanceAs (Decidable (a.cost ≤ b.cost))

instance : IsTotal (Particle α) costLE := ⟨fun a b => le_total a.cost b.cost⟩

instance : IsTrans (Particle α) costLE := ⟨fun _ _ _ h1 h2 => le_trans h1 h2⟩

/-- The reseeding loop of `pruneParticles`: `k` remaining iterations,
counter `i`; slot `NUM_PARTICLES - 1 - i` is overwritten. -/
def reseedLoop (sqrtF : Int → α) (cities : List City) :
    Nat → Nat → List (Particle α) → Rng → Option (List (Particle α) × Rng)
  | 0, _, swarm, g => some (swarm, g)
  | k + 1, i, swarm, g => do
    let slot := NUM_PARTICLES - 1 - i
    let p ← swarm[slot]?
    let position0 ← identityLoop NUM_CITIES 0 p.position
    let (position1, g1) ← shuffle position0 g
    let cost ← calculateCost sqrtF cities position1
    reseedLoop sqrtF cities k (i + 1)
      (swarm.set slot
        { position := position1, best_position := position1, best_cost := cost, cost := cost })
      g1

/-- The function `pruneParticles()`. -/
def pruneParticles (sqrtF : Int → α) (cities : List City) (s : State α) :
    Option (State α) := do
  let sorted := s.swarm.insertionSort costLE
  let prune_count := NUM_PARTICLES * PRUNE_PERCENTAGE / 100
  let (swarm, g) ← reseedLoop sqrtF cities prune_count 0 sorted s.rng
  some { s with swarm := swarm, rng := g }

/-- The swap loop of `updateParticles` for one particle: `k` remaining
iterations, index `i`. -/
def swapLoop (best_position global_best_position : List Nat) :
    Nat → Nat → List Nat → Rng → Option (List Nat × Rng)
  | 0, _, position, g => some (position, g)
  | k + 1, i, position, g => do
    let (u1, g1) := g.uniform01
    let position1 ←
      if u1 < COGNITIVE_COMPONENT then do
        let b ← best_position[i]?
        swapAt position i b
      else some position
    let (u2, g2) := g1.uniform01
    let position2 ←
      if u2 < SOCIAL_COMPONENT then do
        let b ← global_best_position[i]?
        swapAt position1 i b
      else some position1
    swapLoop best_position global_best_position k (i + 1) position2 g2

/-- The body of the `for (auto& particle : swarm)` loop of `updateParticles`. -/
def updateParticle (sqrtF : Int → α) (cities : List City) (particle : Particle α)
    (gbp : List Nat) (gbc : α) (g : Rng) : Option (Particle α × List Nat × α × Rng) := do
  let (position0, g1) ← shuffle particle.position g
  let (position1, g2) ← swapLoop particle.best_position gbp NUM_CITIES 0 position0 g1
  let (position2, g3) ← applyMutationAndGaussian position1 g2
  let cost ← calculateCost sqrtF cities position2
  let particle1 : Particle α :=
    if cost < particle.best_cost then
      { position := position2, best_position := position2, best_cost := cost, cost := cost }
    else
      { position := position2, best_position := particle.best_position,
        best_cost := particle.best_cost, cost := cost }
  let (gbp1, gbc1) := if cost < gbc then (position2, cost) else (gbp, gbc)
  some (particle1, gbp1, gbc1, g3)

/-- The `for (auto& particle : swarm)` loop of `updateParticles`. -/
def updateLoop (sqrtF : Int → α) (cities : List City) :
    List (Particle α) → List Nat → α → Rng →
      Option (List (Particle α) × List Nat × α × Rng)
  | [], gbp, gbc, g => some ([], gbp, gbc, g)
  | particle :: rest, gbp, gbc, g => do
    let (particle1, gbp1, gbc1, g1) ← updateParticle sqrtF cities particle gbp gbc g
    let (ps, r) ← updateLoop sqrtF cities rest gbp1 gbc1 g1
    some (particle1 :: ps, r)

/-- The inertia weight computed at the head of `updateParticles`. -/
def inertiaWeight (iteration : Nat) : ℚ :=
  INITIAL_INERTIA_WEIGHT -
    ((INITIAL_INERTIA_WEIGHT - FINAL_INERTIA_WEIGHT) * iteration / MAX_ITERATIONS)

/-- The particle loop of `updateParticles`, on the whole state. -/
def updatePhase (sqrtF : Int → α) (cities : List City) (s : State α) : Option (State α) := do
  let (swarm, gbp, gbc, g) ←
    updateLoop sqrtF cities s.swarm s.global_best_position s.global_best_cost s.rng
  some { swarm := swarm, global_best_position := gbp, global_best_cost := gbc, rng := g }

/-- The function `updateParticles(iteration)`. -/
def updateParticles (sqrtF : Int → α) (cities : List City) (iteration : Nat) (s : State α) :
    Option (State α) :=
  let _inertia_weight := inertiaWeight iteration
  do
    let s1 ← updatePhase sqrtF cities s
    pruneParticles sqrtF cities s1

/-- The `for` loop of `main`: `k` remaining iterations, counter `iteration`. -/
def mainLoop (sqrtF : Int → α) (cities : List City) : Nat → Nat → State α → Option (State α)
  | 0, _, s => some s
  | k + 1, iteration, s => do
    let s1 ← updateParticles sqrtF cities iteration s
    mainLoop sqrtF cities k (iteration + 1) s1

/-- The function `main()` up to the call of `printBestRoute`: the cities and
the final state. -/
def main (sqrtF : Int → α) (fltMax : α) (g : Rng) : Option (List City × State α) := do
  let (cities, g1) := generateCities (List.replicate NUM_CITIES { x := 0, y := 0 }) g
  let s0 ← initializeParticles sqrtF cities (initialState fltMax g1)
  let s ← mainLoop sqrtF cities MAX_ITERATIONS 0 s0
  some (cities, s)

end Swarm

/-! # Example data -/

/-- Newton's iteration for the integer square root, `fuel` steps at most. -/
def isqrtIter : Nat → Nat → Nat → Nat
  | 0, _, guess => guess
  | fuel + 1, n, guess =>
    let next := (guess + n / guess) / 2
    if next < guess then isqrtIter fuel n next else guess

/-- The integer square root, exact on perfect squares: a computable square
root to run the program on cities whose distances are whole numbers. -/
def isqrt (z : Int) : Nat :=
  if z.toNat ≤ 1 then z.toNat else isqrtIter 64 z.toNat (z.toNat / 2)

/-- Twenty cities on a line, city `i` at `(i, 0)`: the distance between
cities `i` and `j` is `|i - j|`, and the shortest tours have length 38. -/
def lineCities : List City :=
  (List.range NUM_CITIES).map fun i => { x := (i : Int), y := 0 }

/-- A tour of the line cities of length 40: the identity with cities 1 and 2
exchanged. -/
def detourTour : List Nat :=
  [0, 2, 1, 3, 4, 5, 6, 7, 8, 9, 10, 11, 12, 13, 14, 15, 16, 17, 18, 19]

/-- A particle that sits on `detourTour`, its personal best. -/
def detourParticle : Particle Nat :=
  { position := detourTour, best_position := detourTour, best_cost := 40, cost := 40 }

/-- A swarm of `NUM_PARTICLES` particles on `detourTour`, which is also the
global best. -/
def detourState (g : Rng) : State Nat :=
  { swarm := List.replicate NUM_PARTICLES detourParticle
    global_best_position := detourTour
    global_best_cost := 40
    rng := g }

/-- A particle on a shortest tour of the line cities, length 38. -/
def shortParticle : Particle Nat :=
  { position := [19, 0, 1, 2, 3, 4, 5, 6, 7, 8, 9, 10, 11, 12, 13, 14, 15, 16, 17, 18]
    best_position := [19, 0, 1, 2, 3, 4, 5, 6, 7, 8, 9, 10, 11, 12, 13, 14, 15, 16, 17, 18]
    best_cost := 38
    cost := 38 }

/-- A particle on a tour of the line cities of length 72. -/
def longParticle : Particle Nat :=
  { position := [0, 19, 1, 2, 3, 4, 5, 6, 7, 8, 9, 10, 11, 12, 13, 14, 15, 16, 17, 18]
    best_position := [0, 19, 1, 2, 3, 4, 5, 6, 7, 8, 9, 10, 11, 12, 13, 14, 15, 16, 17, 18]
    best_cost := 72
    cost := 72 }

/-- The generator whose raw draws are `a` while `initializeParticles` runs (it
draws `NUM_CITIES - 1` times for each of the `NUM_PARTICLES` shuffles) and `b`
ever after. -/
def stepRng (a b : Nat) : Rng :=
  { stream := fun n => if n < (NUM_CITIES - 1) * NUM_PARTICLES then a else b, pos := 0 }

/-- The generator whose every raw draw is `c`. -/
def constRng (c : Nat) : Rng := { stream := fun _ => c, pos := 0 }

/-! # Specification vocabulary -/

/-- A tour: a vector of length `NUM_CITIES` that holds every index
`0 .. NUM_CITIES - 1` exactly once. -/
def IsTour (v : List Nat) : Prop :=
  v.length = NUM_CITIES ∧ ∀ i, i < NUM_CITIES → v.count i = 1

instance (v : List Nat) : Decidable (IsTour v) := by
  unfold IsTour; infer_instance

/-- The coordinates that `generateCities` produces: both in `[0, 100)`. -/
def InGrid (c : City) : Prop := 0 ≤ c.x ∧ c.x < 100 ∧ 0 ≤ c.y ∧ c.y < 100

instance (c : City) : Decidable (InGrid c) := by
  unfold InGrid; infer_instance

/-- The generator `g` yields the raw value `c` at every draw from now on. -/
def Rng.Const (g : Rng) (c : Nat) : Prop := ∀ k, g.stream (g.pos + k) = c

/-- Two generators agree: from where each stands, they yield the same raw
values, whatever they yielded before. -/
def Rng.Agree (g h : Rng) : Prop := ∀ k, g.stream (g.pos + k) = h.stream (h.pos + k)

/-- The swap pass of `updateParticles` with its two guards taken as true: for
each of `k` indices from `i` on, the swap with the slot named by the personal
best, then the swap with the slot named by the global best.  It reads the three
tours and no random draw. -/
def swapPass (best_position global_best_position : List Nat) :
    Nat → Nat → List Nat → Option (List Nat)
  | 0, _, position => some position
  | k + 1, i, position => do
    let b ← best_position[i]?
    let position1 ← swapAt position i b
    let c ← global_best_position[i]?
    let position2 ← swapAt position1 i c
    swapPass best_position global_best_position k (i + 1) position2

/-- A particle with its two costs read in another cost type. -/
def Particle.map {α β : Type} (f : α → β) (p : Particle α) : Particle β :=
  { position := p.position, best_position := p.best_position,
    best_cost := f p.best_cost, cost := f p.cost }

section CostVocabulary

variable {α : Type} [AddMonoid α]

/-- The edge length between cities `a` and `b`, total (a missing city reads
as the origin); used to state what `calculateCost` returns. -/
def edgeLen (sqrtF : Int → α) (cities : List City) (a b : Nat) : α :=
  let ca := cities.getD a { x := 0, y := 0 }
  let cb := cities.getD b { x := 0, y := 0 }
  sqrtF ((ca.x - cb.x) * (ca.x - cb.x) + (ca.y - cb.y) * (ca.y - cb.y))

/-- The sum of the edges between consecutive entries of a route, without the
closing edge. -/
def pathCost (sqrtF : Int → α) (cities : List City) : List Nat → α
  | a :: b :: rest => edgeLen sqrtF cities a b + pathCost sqrtF cities (b :: rest)
  | _ => 0

/-- The Euclidean distance between two cities, through the square-root
parameter: `sqrt((a.x - b.x)^2 + (a.y - b.y)^2)`. -/
def euclid (sqrtF : Int → α) (a b : City) : α :=
  sqrtF ((a.x - b.x) ^ 2 + (a.y - b.y) ^ 2)

end CostVocabulary

section TourLengthVocabulary

variable {α : Type} [AddCommMonoid α]

/-- The length of the closed tour in the words of the specification: the sum
over `i` in `0 .. n-1` of the distance between city `route[i]` and city
`route[(i+1) mod n]`. -/
def tourLength (sqrtF : Int → α) (cities : List City) (route : List Nat) : α :=
  ∑ i in Finset.range route.length,
    euclid sqrtF (cities.getD (route.getD i 0) { x := 0, y := 0 })
      (cities.getD (route.getD ((i + 1) % route.length) 0) { x := 0, y := 0 })

end TourLengthVocabulary

section SwarmVocabulary

variable {α : Type} [LinearOrder α] [AddMonoid α]

/-- What one pass of the body of the `updateParticles` loop does to a
particle `p`, giving `q`: the new position is a tour whose cost is stored,
and the personal best is replaced exactly when the new cost is strictly
lower. -/
def ParticleStep (sqrtF : Int → α) (cities : List City) (p q : Particle α) : Prop :=
  IsTour q.position ∧ calculateCost sqrtF cities q.position = some q.cost ∧
    ((q.cost < p.best_cost ∧ q.best_cost = q.cost ∧ q.best_position = q.position) ∨
      (¬ q.cost < p.best_cost ∧ q.best_cost = p.best_cost ∧
        q.best_position = p.best_position))

/-- A freshly seeded particle: a tour, its cost, and a personal best equal
to the current state. -/
def IsFresh (sqrtF : Int → α) (cities : List City) (q : Particle α) : Prop :=
  IsTour q.position ∧ calculateCost sqrtF cities q.position = some q.cost ∧
    q.best_position = q.position ∧ q.best_cost = q.cost

/-- The invariant of the program state between calls: the swarm has
`NUM_PARTICLES` particles, and every stored tour is a tour. -/
structure Inv (s : State α) : Prop where
  swarm_len : s.swarm.length = NUM_PARTICLES
  position_tour : ∀ p ∈ s.swarm, IsTour p.position
  best_tour : ∀ p ∈ s.swarm, IsTour p.best_position
  global_tour : IsTour s.global_best_position

/-- The global best `(gbp1, gbc1)` that a pass over the particles `qs` leaves,
starting from `(gbp, gbc)`, when each particle in turn overwrites the global
best if its cost is strictly lower: either nothing undercut the old best, or
the new best is the first particle of `qs` that attains the lowest cost. -/
def BestAfter (gbp : List Nat) (gbc : α) (qs : List (Particle α)) (gbp1 : List Nat)
    (gbc1 : α) : Prop :=
  (gbp1 = gbp ∧ gbc1 = gbc ∧ ∀ q ∈ qs, gbc ≤ q.cost) ∨
    (gbc1 < gbc ∧ ∃ pre q post, qs = pre ++ q :: post ∧ q.position = gbp1 ∧ q.cost = gbc1 ∧
      (∀ r ∈ pre, gbc1 < r.cost) ∧ (∀ r ∈ post, gbc1 ≤ r.cost))

/-- A particle seeded from scratch with the generator `g`: the identity tour,
shuffled, with its cost, and a personal best equal to it. -/
def freshParticle (sqrtF : Int → α) (cities : List City) (g : Rng) :
    Option (Particle α × Rng) := do
  let (position, g1) ← shuffle (List.range NUM_CITIES) g
  let cost ← calculateCost sqrtF cities position
  some ({ position := position, best_position := position, best_cost := cost, cost := cost }, g1)

/-- The `k` particles seeded one after the other from `g`, listed in slot
order: the particle seeded first stands last. -/
def freshTail (sqrtF : Int → α) (cities : List City) :
    Nat → Rng → Option (List (Particle α) × Rng)
  | 0, g => some ([], g)
  | k + 1, g => do
    let (p, g1) ← freshParticle sqrtF cities g
    let (ps, g2) ← freshTail sqrtF cities k g1
    some (ps ++ [p], g2)

/-- The value `m` is strictly greater than the cost of every tour: what the
sentinel `numeric_limits<float>::max()` is to the tours of the program. -/
def AboveAllCosts (sqrtF : Int → α) (cities : List City) (m : α) : Prop :=
  ∀ route c, IsTour route → calculateCost sqrtF cities route = some c → c < m

/-- The state after `initializeParticles` and the first `j` iterations of the
loop of `main`, for a given city set. -/
def runIterations (sqrtF : Int → α) (cities : List City) (fltMax : α) (g : Rng) (j : Nat) :
    Option (State α) := do
  let s0 ← initializeParticles sqrtF cities (initialState fltMax g)
  mainLoop sqrtF cities j 0 s0

/-- The global best is a consistent pair: the stored tour is a tour and the
stored cost is the cost of that tour. -/
def GlobalConsistent (sqrtF : Int → α) (cities : List City) (s : State α) : Prop :=
  IsTour s.global_best_position ∧
    calculateCost sqrtF cities s.global_best_position = some s.global_best_cost

/-- The particle is consistent: `cost` is the cost of `position`, `best_cost`
is the cost of `best_position`, the best cost is at most the current cost, and
the best position is a tour. -/
def Consistent (sqrtF : Int → α) (cities : List City) (p : Particle α) : Prop :=
  calculateCost sqrtF cities p.position = some p.cost ∧
    calculateCost sqrtF cities p.best_position = some p.best_cost ∧
    p.best_cost ≤ p.cost ∧ IsTour p.best_position

/-- Two states agree: same swarm, same global best, and generators that
agree. -/
def State.Agree (s t : State α) : Prop :=
  s.swarm = t.swarm ∧ s.global_best_position = t.global_best_position ∧
    s.global_best_cost = t.global_best_cost ∧ s.rng.Agree t.rng

end SwarmVocabulary

/-! # Lemmas -/

/-! ## Tours -/

theorem isTour_iff_perm (v : List Nat) : IsTour v ↔ v.Perm (List.range NUM_CITIES) := by
  constructor
  · rintro ⟨hlen, hcount⟩
    have hnd : (List.range NUM_CITIES).Nodup := List.nodup_range _
    have hsub : (List.range NUM_CITIES).Subperm v := by
      rw [List.subperm_ext_iff]
      intro x hx
      rw [List.mem_range] at hx
      rw [hcount x hx, List.count_eq_one_of_mem hnd (List.mem_range.2 hx)]
    exact (hsub.perm_of_length_le (by simp [hlen])).symm
  · intro h
    refine ⟨by simpa using h.length_eq, fun i hi => ?_⟩
    rw [h.count_eq]
    exact List.count_eq_one_of_mem (List.nodup_range _) (List.mem_range.2 hi)

theorem IsTour.length_eq {v : List Nat} (h : IsTour v) : v.length = NUM_CITIES := h.1

theorem IsTour.of_perm {v w : List Nat} (h : IsTour v) (hp : w.Perm v) : IsTour w :=
  (isTour_iff_perm w).2 (hp.trans ((isTour_iff_perm v).1 h))

theorem IsTour.lt_of_mem {v : List Nat} (h : IsTour v) {x : Nat} (hx : x ∈ v) :
    x < NUM_CITIES :=
  List.mem_range.1 (((isTour_iff_perm v).1 h).mem_iff.1 hx)

theorem IsTour.getElem?_lt {v : List Nat} (h : IsTour v) {i : Nat} (hi : i < NUM_CITIES) :
    ∃ b, v[i]? = some b ∧ b < NUM_CITIES := by
  have hlt : i < v.length := by rw [h.length_eq]; exact hi
  exact ⟨v[i], List.getElem?_eq_getElem hlt, h.lt_of_mem (List.getElem_mem hlt)⟩

theorem isTour_range : IsTour (List.range NUM_CITIES) :=
  (isTour_iff_perm _).2 (List.Perm.refl _)

/-! ## Swaps and shuffles -/

theorem swapAt_eq {v : List Nat} {i j : Nat} (hi : i < v.length) (hj : j < v.length) :
    swapAt v i j = some ((v.set i v[j]).set j v[i]) := by
  simp [swapAt, List.getElem?_eq_getElem hi, List.getElem?_eq_getElem hj]

theorem swapAt_bounds {v v1 : List Nat} {i j : Nat} (h : swapAt v i j = some v1) :
    i < v.length ∧ j < v.length := by
  unfold swapAt at h
  by_cases hi : i < v.length
  · by_cases hj : j < v.length
    · exact ⟨hi, hj⟩
    · simp [List.getElem?_eq_none (Nat.le_of_not_lt hj)] at h
  · simp [List.getElem?_eq_none (Nat.le_of_not_lt hi)] at h

theorem set_set_perm_self (v : List Nat) {i j : Nat} (hi : i < v.length) (hj : j < v.length) :
    ((v.set i v[j]).set j v[i]).Perm v := by
  rw [List.perm_iff_count]
  intro x
  have hj1 : j < (v.set i v[j]).length := by simpa using hj
  rw [List.count_set _ _ _ _ hj1, List.count_set _ _ _ _ hi]
  have h1 : 0 < v.count v[i] := List.count_pos_iff.2 (List.getElem_mem hi)
  have h2 : 0 < v.count v[j] := List.count_pos_iff.2 (List.getElem_mem hj)
  by_cases hij : i = j
  · subst hij
    simp only [List.getElem_set_self]
    by_cases hx : v[i] = x
    · subst hx; simp
    · simp [hx]
  · rw [List.getElem_set_ne hij]
    by_cases hxi : v[i] = x <;> by_cases hxj : v[j] = x
    · simp [hxi, hxj]; subst hxi; omega
    · simp [hxi, hxj]; subst hxi; omega
    · simp [hxi, hxj]
    · simp [hxi, hxj]

theorem swapAt_perm {v v1 : List Nat} {i j : Nat} (h : swapAt v i j = some v1) : v1.Perm v := by
  obtain ⟨hi, hj⟩ := swapAt_bounds h
  rw [swapAt_eq hi hj] at h
  cases h
  exact set_set_perm_self v hi hj

theorem swapAt_spec (v : List Nat) {i j : Nat} (hi : i < v.length) (hj : j < v.length) :
    ∃ v1, swapAt v i j = some v1 ∧ v1.Perm v :=
  ⟨_, swapAt_eq hi hj, set_set_perm_self v hi hj⟩

theorem shuffleLoop_spec (k : Nat) : ∀ (i : Nat) (v : List Nat) (g : Rng),
    (k = 0 ∨ i + k ≤ v.length) →
      ∃ v1 g1, shuffleLoop k i v g = some (v1, g1) ∧ v1.Perm v := by
  induction k with
  | zero => intro i v g _; exact ⟨v, g, rfl, List.Perm.refl _⟩
  | succ k ih =>
    intro i v g h
    have hik : i + (k + 1) ≤ v.length := by omega
    have hj : g.draw.1 % (i + 1) < v.length :=
      lt_of_lt_of_le (Nat.mod_lt _ (Nat.succ_pos i)) (by omega)
    obtain ⟨v1, hv1, hp1⟩ := swapAt_spec v (show i < v.length by omega) hj
    obtain ⟨v2, g2, hv2, hp2⟩ := ih (i + 1) v1 g.draw.2 (Or.inr (by rw [hp1.length_eq]; omega))
    refine ⟨v2, g2, ?_, hp2.trans hp1⟩
    simp only [shuffleLoop, hv1, Option.bind_eq_bind, Option.some_bind, hv2]

theorem shuffle_spec (v : List Nat) (g : Rng) :
    ∃ v1 g1, shuffle v g = some (v1, g1) ∧ v1.Perm v := by
  apply shuffleLoop_spec
  omega

theorem shuffle_isTour {v : List Nat} (hv : IsTour v) (g : Rng) :
    ∃ v1 g1, shuffle v g = some (v1, g1) ∧ IsTour v1 := by
  obtain ⟨v1, g1, h, hp⟩ := shuffle_spec v g
  exact ⟨v1, g1, h, hv.of_perm hp⟩

theorem gaussLoop_spec (k : Nat) : ∀ (i : Nat) (position : List Nat) (g : Rng),
    position.length = NUM_CITIES → i + k ≤ NUM_CITIES →
      ∃ v1 g1, gaussLoop k i position g = some (v1, g1) ∧ v1.Perm position := by
  induction k with
  | zero => intro i v g _ _; exact ⟨v, g, rfl, List.Perm.refl _⟩
  | succ k ih =>
    intro i v g hlen hik
    unfold gaussLoop
    simp only
    split
    · have hj : g.uniform01.2.gaussAbs.2.draw.1 % NUM_CITIES < v.length := by
        rw [hlen]; exact Nat.mod_lt _ (by decide)
      obtain ⟨v1, hv1, hp1⟩ := swapAt_spec v (show i < v.length by omega) hj
      obtain ⟨v2, g2, hv2, hp2⟩ :=
        ih (i + 1) v1 g.uniform01.2.gaussAbs.2.draw.2 (by rw [hp1.length_eq]; exact hlen)
          (by omega)
      refine ⟨v2, g2, ?_, hp2.trans hp1⟩
      simp only [hv1, Option.bind_eq_bind, Option.some_bind, hv2]
    · exact ih (i + 1) v _ hlen (by omega)

theorem applyMutationAndGaussian_spec (position : List Nat) (g : Rng)
    (hlen : position.length = NUM_CITIES) :
    ∃ v1 g1, applyMutationAndGaussian position g = some (v1, g1) ∧ v1.Perm position := by
  unfold applyMutationAndGaussian
  simp only
  split
  · have h1 : g.uniform01.2.draw.1 % NUM_CITIES < position.length := by
      rw [hlen]; exact Nat.mod_lt _ (by decide)
    have h2 : g.uniform01.2.draw.2.draw.1 % NUM_CITIES < position.length := by
      rw [hlen]; exact Nat.mod_lt _ (by decide)
    obtain ⟨v1, hv1, hp1⟩ := swapAt_spec position h1 h2
    obtain ⟨v2, g2, hv2, hp2⟩ :=
      gaussLoop_spec NUM_CITIES 0 v1 g.uniform01.2.draw.2.draw.2
        (by rw [hp1.length_eq]; exact hlen) (by omega)
    refine ⟨v2, g2, ?_, hp2.trans hp1⟩
    simp only [hv1, Option.bind_eq_bind, Option.some_bind, hv2]
  · exact gaussLoop_spec NUM_CITIES 0 position _ hlen (by omega)

theorem swapLoop_spec {best_position gbp : List Nat} (hb : IsTour best_position)
    (hg : IsTour gbp) (k : Nat) : ∀ (i : Nat) (position : List Nat) (g : Rng),
    position.length = NUM_CITIES → i + k ≤ NUM_CITIES →
      ∃ v1 g1, swapLoop best_position gbp k i position g = some (v1, g1) ∧
        v1.Perm position := by
  induction k with
  | zero => intro i v g _ _; exact ⟨v, g, rfl, List.Perm.refl _⟩
  | succ k ih =>
    intro i v g hlen hik
    have hi : i < NUM_CITIES := by omega
    obtain ⟨b1, hb1, hb1lt⟩ := hb.getElem?_lt hi
    obtain ⟨b2, hb2, hb2lt⟩ := hg.getElem?_lt hi
    have hiv : i < v.length := by omega
    have tail : ∀ p1 : List Nat, p1.Perm v →
        ∃ v1 g1, (if g.uniform01.2.uniform01.1 < SOCIAL_COMPONENT then
            (gbp[i]?).bind fun b => (swapAt p1 i b).bind fun y =>
              swapLoop best_position gbp k (i + 1) y g.uniform01.2.uniform01.2
          else (some p1).bind fun y =>
              swapLoop best_position gbp k (i + 1) y g.uniform01.2.uniform01.2) = some (v1, g1) ∧
          v1.Perm v := by
      intro p1 hperm1
      have hlen1 : p1.length = NUM_CITIES := by rw [hperm1.length_eq]; exact hlen
      split
      · obtain ⟨p2, hp2, hperm2⟩ := swapAt_spec p1 (show i < p1.length by omega)
          (show b2 < p1.length by omega)
        obtain ⟨v3, g3, hv3, hperm3⟩ := ih (i + 1) p2 g.uniform01.2.uniform01.2
          (by rw [hperm2.length_eq]; exact hlen1) (by omega)
        exact ⟨v3, g3, by simp only [hb2, Option.some_bind, hp2, hv3],
          hperm3.trans (hperm2.trans hperm1)⟩
      · obtain ⟨v3, g3, hv3, hperm3⟩ := ih (i + 1) p1 g.uniform01.2.uniform01.2 hlen1 (by omega)
        exact ⟨v3, g3, by simp only [Option.some_bind, hv3], hperm3.trans hperm1⟩
    unfold swapLoop
    simp only [Option.bind_eq_bind]
    split
    · obtain ⟨p1, hp1, hperm1⟩ := swapAt_spec v hiv (show b1 < v.length by omega)
      simp only [hb1, Option.some_bind, hp1]
      exact tail p1 hperm1
    · exact tail v (List.Perm.refl _)

theorem identityLoop_spec (k : Nat) : ∀ (j : Nat) (v : List Nat),
    v.take j = List.range j → j + k ≤ v.length →
      ∃ v1, identityLoop k j v = some v1 ∧ v1.length = v.length ∧
        v1.take (j + k) = List.range (j + k) := by
  induction k with
  | zero => intro j v h _; exact ⟨v, rfl, rfl, h⟩
  | succ k ih =>
    intro j v h hjk
    have hj : j < v.length := by omega
    have htake : (v.set j j).take (j + 1) = List.range (j + 1) := by
      have hset : (v.set j j)[j]? = some j := by
        rw [List.getElem?_set_self hj]
      rw [List.take_succ, List.set_take, List.set_eq_of_length_le (by simp), h, hset,
        List.range_succ]
      rfl
    obtain ⟨v1, h1, h2, h3⟩ := ih (j + 1) (v.set j j) htake (by simp; omega)
    have hidx : j + (k + 1) = j + 1 + k := by omega
    refine ⟨v1, ?_, by simpa using h2, by rw [hidx]; exact h3⟩
    simp only [identityLoop, hj, if_true, h1]

theorem identityLoop_eq_range {v : List Nat} (h : v.length = NUM_CITIES) :
    identityLoop NUM_CITIES 0 v = some (List.range NUM_CITIES) := by
  obtain ⟨v1, h1, h2, h3⟩ := identityLoop_spec NUM_CITIES 0 v rfl (by omega)
  rw [h1]
  congr 1
  rw [Nat.zero_add] at h3
  rw [← h3]
  exact (List.take_of_length_le (by omega)).symm

/-! ## Constant generators

On a generator that yields the same raw value forever, the outcome of every
operation is the same wherever the generator stands; so an outcome computed
at one generator state transfers to every other. -/

theorem Rng.Const.peek {g : Rng} {c : Nat} (h : g.Const c) : g.peek = c := h 0

theorem Rng.Const.advance {g : Rng} {c : Nat} (h : g.Const c) : g.advance.Const c := by
  intro k
  have := h (1 + k)
  simpa [Rng.advance, Nat.add_assoc] using this

theorem constRng_const (c : Nat) : (constRng c).Const c := fun _ => rfl

theorem shuffleLoop_transfer {c : Nat} (k : Nat) :
    ∀ (i : Nat) (v : List Nat) (g h : Rng) (y : List Nat) (h1 : Rng),
      g.Const c → h.Const c → shuffleLoop k i v h = some (y, h1) →
      ∃ g1, shuffleLoop k i v g = some (y, g1) ∧ g1.Const c := by
  induction k with
  | zero =>
    intro i v g h y h1 hg _ hyp
    simp only [shuffleLoop, Option.some.injEq, Prod.mk.injEq] at hyp
    exact ⟨g, by rw [← hyp.1]; rfl, hg⟩
  | succ k ih =>
    intro i v g h y h1 hg hh hyp
    simp only [shuffleLoop, Rng.draw, hh.peek, Option.bind_eq_bind] at hyp
    simp only [shuffleLoop, Rng.draw, hg.peek, Option.bind_eq_bind]
    obtain ⟨v1, hsw, hrest⟩ := Option.bind_eq_some.1 hyp
    simp only [hsw, Option.some_bind]
    exact ih (i + 1) v1 g.advance h.advance y h1 hg.advance hh.advance hrest

theorem shuffle_transfer {c : Nat} {v : List Nat} {g h : Rng} {y : List Nat} {h1 : Rng}
    (hg : g.Const c) (hh : h.Const c) (hyp : shuffle v h = some (y, h1)) :
    ∃ g1, shuffle v g = some (y, g1) ∧ g1.Const c :=
  shuffleLoop_transfer (v.length - 1) 1 v g h y h1 hg hh hyp

theorem gaussLoop_transfer {c : Nat} (k : Nat) :
    ∀ (i : Nat) (v : List Nat) (g h : Rng) (y : List Nat) (h1 : Rng),
      g.Const c → h.Const c → gaussLoop k i v h = some (y, h1) →
      ∃ g1, gaussLoop k i v g = some (y, g1) ∧ g1.Const c := by
  induction k with
  | zero =>
    intro i v g h y h1 hg _ hyp
    simp only [gaussLoop, Option.some.injEq, Prod.mk.injEq] at hyp
    exact ⟨g, by rw [← hyp.1]; rfl, hg⟩
  | succ k ih =>
    intro i v g h y h1 hg hh hyp
    simp only [gaussLoop, Rng.uniform01, Rng.gaussAbs, Rng.draw, hh.peek, hh.advance.peek,
      hh.advance.advance.peek, Option.bind_eq_bind] at hyp
    simp only [gaussLoop, Rng.uniform01, Rng.gaussAbs, Rng.draw, hg.peek, hg.advance.peek,
      hg.advance.advance.peek, Option.bind_eq_bind]
    split at hyp
    · rename_i hcond
      rw [if_pos hcond]
      obtain ⟨v1, hsw, hrest⟩ := Option.bind_eq_some.1 hyp
      simp only [hsw, Option.some_bind]
      exact ih (i + 1) v1 _ _ y h1 hg.advance.advance.advance hh.advance.advance.advance hrest
    · rename_i hcond
      rw [if_neg hcond]
      exact ih (i + 1) v _ _ y h1 hg.advance.advance hh.advance.advance hyp

theorem applyMutationAndGaussian_transfer {c : Nat} {v : List Nat} {g h : Rng} {y : List Nat}
    {h1 : Rng} (hg : g.Const c) (hh : h.Const c)
    (hyp : applyMutationAndGaussian v h = some (y, h1)) :
    ∃ g1, applyMutationAndGaussian v g = some (y, g1) ∧ g1.Const c := by
  simp only [applyMutationAndGaussian, Rng.uniform01, Rng.draw, hh.peek, hh.advance.peek,
    hh.advance.advance.peek, Option.bind_eq_bind] at hyp
  simp only [applyMutationAndGaussian, Rng.uniform01, Rng.draw, hg.peek, hg.advance.peek,
    hg.advance.advance.peek, Option.bind_eq_bind]
  split at hyp
  · rename_i hcond
    rw [if_pos hcond]
    obtain ⟨v1, hsw, hrest⟩ := Option.bind_eq_some.1 hyp
    simp only [hsw, Option.some_bind]
    exact gaussLoop_transfer NUM_CITIES 0 v1 _ _ y h1 hg.advance.advance.advance
      hh.advance.advance.advance hrest
  · rename_i hcond
    rw [if_neg hcond]
    exact gaussLoop_transfer NUM_CITIES 0 v _ _ y h1 hg.advance hh.advance hyp

/-! ## Generators that agree

The outcome of every operation depends on the generator only through the raw
values it yields from where it stands. -/

theorem Rng.Agree.refl (g : Rng) : g.Agree g := fun _ => rfl

theorem Rng.Agree.symm {g h : Rng} (a : g.Agree h) : h.Agree g := fun k => (a k).symm

theorem Rng.Agree.peek_eq {g h : Rng} (a : g.Agree h) : h.peek = g.peek := (a 0).symm

theorem Rng.Agree.next {g h : Rng} (a : g.Agree h) : g.advance.Agree h.advance := by
  intro k
  have := a (1 + k)
  simpa [Rng.advance, Nat.add_assoc] using this

theorem shuffleLoop_agree (k : Nat) :
    ∀ (i : Nat) (v : List Nat) (g h : Rng) (y : List Nat) (g1 : Rng),
      g.Agree h → shuffleLoop k i v g = some (y, g1) →
      ∃ h1, shuffleLoop k i v h = some (y, h1) ∧ g1.Agree h1 := by
  induction k with
  | zero =>
    intro i v g h y g1 a hyp
    simp only [shuffleLoop, Option.some.injEq, Prod.mk.injEq] at hyp
    exact ⟨h, by rw [← hyp.1]; rfl, by rw [← hyp.2]; exact a⟩
  | succ k ih =>
    intro i v g h y g1 a hyp
    simp only [shuffleLoop, Rng.draw, Option.bind_eq_bind] at hyp
    simp only [shuffleLoop, Rng.draw, a.peek_eq, Option.bind_eq_bind]
    obtain ⟨v1, hsw, hrest⟩ := Option.bind_eq_some.1 hyp
    simp only [hsw, Option.some_bind]
    exact ih (i + 1) v1 g.advance h.advance y g1 a.next hrest

theorem shuffle_agree {v : List Nat} {g h : Rng} {y : List Nat} {g1 : Rng}
    (a : g.Agree h) (hyp : shuffle v g = some (y, g1)) :
    ∃ h1, shuffle v h = some (y, h1) ∧ g1.Agree h1 :=
  shuffleLoop_agree (v.length - 1) 1 v g h y g1 a hyp

theorem gaussLoop_agree (k : Nat) :
    ∀ (i : Nat) (v : List Nat) (g h : Rng) (y : List Nat) (g1 : Rng),
      g.Agree h → gaussLoop k i v g = some (y, g1) →
      ∃ h1, gaussLoop k i v h = some (y, h1) ∧ g1.Agree h1 := by
  induction k with
  | zero =>
    intro i v g h y g1 a hyp
    simp only [gaussLoop, Option.some.injEq, Prod.mk.injEq] at hyp
    exact ⟨h, by rw [← hyp.1]; rfl, by rw [← hyp.2]; exact a⟩
  | succ k ih =>
    intro i v g h y g1 a hyp
    simp only [gaussLoop, Rng.uniform01, Rng.gaussAbs, Rng.draw, Option.bind_eq_bind] at hyp
    simp only [gaussLoop, Rng.uniform01, Rng.gaussAbs, Rng.draw, a.peek_eq, a.next.peek_eq,
      a.next.next.peek_eq, Option.bind_eq_bind]
    split at hyp
    · rename_i hcond
      rw [if_pos hcond]
      obtain ⟨v1, hsw, hrest⟩ := Option.bind_eq_some.1 hyp
      simp only [hsw, Option.some_bind]
      exact ih (i + 1) v1 _ _ y g1 a.next.next.next hrest
    · rename_i hcond
      rw [if_neg hcond]
      exact ih (i + 1) v _ _ y g1 a.next.next hyp

theorem applyMutationAndGaussian_agree {v : List Nat} {g h : Rng} {y : List Nat}
    {g1 : Rng} (a : g.Agree h) (hyp : applyMutationAndGaussian v g = some (y, g1)) :
    ∃ h1, applyMutationAndGaussian v h = some (y, h1) ∧ g1.Agree h1 := by
  simp only [applyMutationAndGaussian, Rng.uniform01, Rng.draw, Option.bind_eq_bind] at hyp
  simp only [applyMutationAndGaussian, Rng.uniform01, Rng.draw, a.peek_eq, a.next.peek_eq,
    a.next.next.peek_eq, Option.bind_eq_bind]
  split at hyp
  · rename_i hcond
    rw [if_pos hcond]
    obtain ⟨v1, hsw, hrest⟩ := Option.bind_eq_some.1 hyp
    simp only [hsw, Option.some_bind]
    exact gaussLoop_agree NUM_CITIES 0 v1 _ _ y g1 a.next.next.next hrest
  · rename_i hcond
    rw [if_neg hcond]
    exact gaussLoop_agree NUM_CITIES 0 v _ _ y g1 a.next hyp

/-! ## The swap guards are always true -/

theorem uniform01_lt_one (g : Rng) : g.uniform01.1 < 1 := by
  simp only [Rng.uniform01]
  rw [div_lt_one (by positivity)]
  have h : g.peek % 2 ^ 32 < 2 ^ 32 := Nat.mod_lt _ (by positivity)
  exact_mod_cast h

theorem uniform01_lt_cognitive (g : Rng) : g.uniform01.1 < COGNITIVE_COMPONENT :=
  lt_trans (uniform01_lt_one g) (by norm_num [COGNITIVE_COMPONENT])

theorem uniform01_lt_social (g : Rng) : g.uniform01.1 < SOCIAL_COMPONENT :=
  lt_trans (uniform01_lt_one g) (by norm_num [SOCIAL_COMPONENT])

theorem uniform01_snd (g : Rng) : g.uniform01.2 = g.advance := rfl

theorem swapLoop_succ (best_position gbp : List Nat) (k i : Nat) (v : List Nat) (g : Rng) :
    swapLoop best_position gbp (k + 1) i v g =
      ((best_position[i]?).bind fun b => swapAt v i b).bind fun p1 =>
        ((gbp[i]?).bind fun b => swapAt p1 i b).bind fun p2 =>
          swapLoop best_position gbp k (i + 1) p2 g.advance.advance := by
  rw [swapLoop]
  simp only [uniform01_lt_cognitive, uniform01_lt_social, if_true, Option.bind_eq_bind,
    uniform01_snd, Option.bind_assoc]

theorem uniform01_nonneg (g : Rng) : 0 ≤ g.uniform01.1 := by
  simp only [Rng.uniform01]
  positivity

theorem swapLoop_eq_swapPass (best_position gbp : List Nat) (k : Nat) :
    ∀ (i : Nat) (v : List Nat) (g : Rng),
      swapLoop best_position gbp k i v g =
        (swapPass best_position gbp k i v).map
          (fun y => (y, { stream := g.stream, pos := g.pos + 2 * k })) := by
  induction k with
  | zero => intro i v g; rfl
  | succ k ih =>
    intro i v g
    rw [swapLoop_succ, swapPass]
    simp only [Option.bind_eq_bind]
    cases best_position[i]? with
    | none => rfl
    | some b =>
      simp only [Option.some_bind]
      cases swapAt v i b with
      | none => rfl
      | some p1 =>
        simp only [Option.some_bind]
        cases gbp[i]? with
        | none => rfl
        | some c =>
          simp only [Option.some_bind]
          cases swapAt p1 i c with
          | none => rfl
          | some p2 =>
            simp only [Option.some_bind]
            rw [ih (i + 1) p2 g.advance.advance]
            have hpos : g.advance.advance.pos + 2 * k = g.pos + 2 * (k + 1) := by
              simp only [Rng.advance]
              omega
            have hstream : g.advance.advance.stream = g.stream := rfl
            rw [hpos, hstream]

theorem swapLoop_transfer {c : Nat} (best_position gbp : List Nat) (k : Nat) :
    ∀ (i : Nat) (v : List Nat) (g h : Rng) (y : List Nat) (h1 : Rng),
      g.Const c → swapLoop best_position gbp k i v h = some (y, h1) →
      ∃ g1, swapLoop best_position gbp k i v g = some (y, g1) ∧ g1.Const c := by
  induction k with
  | zero =>
    intro i v g h y h1 hg hyp
    simp only [swapLoop, Option.some.injEq, Prod.mk.injEq] at hyp
    exact ⟨g, by rw [← hyp.1]; rfl, hg⟩
  | succ k ih =>
    intro i v g h y h1 hg hyp
    rw [swapLoop_succ] at hyp ⊢
    obtain ⟨p1, hp1, hyp1⟩ := Option.bind_eq_some.1 hyp
    obtain ⟨p2, hp2, hyp2⟩ := Option.bind_eq_some.1 hyp1
    rw [hp1, Option.some_bind, hp2, Option.some_bind]
    exact ih (i + 1) p2 _ _ y h1 hg.advance.advance hyp2

theorem swapLoop_agree (best_position gbp : List Nat) (k : Nat) :
    ∀ (i : Nat) (v : List Nat) (g h : Rng) (y : List Nat) (g1 : Rng),
      g.Agree h → swapLoop best_position gbp k i v g = some (y, g1) →
      ∃ h1, swapLoop best_position gbp k i v h = some (y, h1) ∧ g1.Agree h1 := by
  induction k with
  | zero =>
    intro i v g h y g1 a hyp
    simp only [swapLoop, Option.some.injEq, Prod.mk.injEq] at hyp
    exact ⟨h, by rw [← hyp.1]; rfl, by rw [← hyp.2]; exact a⟩
  | succ k ih =>
    intro i v g h y g1 a hyp
    rw [swapLoop_succ] at hyp ⊢
    obtain ⟨p1, hp1, hyp1⟩ := Option.bind_eq_some.1 hyp
    obtain ⟨p2, hp2, hyp2⟩ := Option.bind_eq_some.1 hyp1
    rw [hp1, Option.some_bind, hp2, Option.some_bind]
    exact ih (i + 1) p2 _ _ y g1 a.next.next hyp2

theorem shuffleLoop_congr (k : Nat) :
    ∀ (i : Nat) (v : List Nat) (g h : Rng) (y : List Nat) (h1 : Rng),
      (∀ j, j < k → g.stream (g.pos + j) = h.stream (h.pos + j)) →
      shuffleLoop k i v h = some (y, h1) →
      shuffleLoop k i v g = some (y, { stream := g.stream, pos := g.pos + k }) := by
  induction k with
  | zero =>
    intro i v g h y h1 _ hyp
    simp only [shuffleLoop, Option.some.injEq, Prod.mk.injEq] at hyp
    rw [← hyp.1]
    rfl
  | succ k ih =>
    intro i v g h y h1 hagree hyp
    have hpeek : g.peek = h.peek := by
      have := hagree 0 (Nat.succ_pos k)
      simpa [Rng.peek] using this
    simp only [shuffleLoop, Rng.draw, Option.bind_eq_bind] at hyp
    simp only [shuffleLoop, Rng.draw, hpeek, Option.bind_eq_bind]
    obtain ⟨v1, hsw, hrest⟩ := Option.bind_eq_some.1 hyp
    simp only [hsw, Option.some_bind]
    have hnext : ∀ j, j < k → g.advance.stream (g.advance.pos + j) =
        h.advance.stream (h.advance.pos + j) := by
      intro j hj
      have := hagree (1 + j) (by omega)
      simpa [Rng.advance, Nat.add_assoc] using this
    rw [ih (i + 1) v1 g.advance h.advance y h1 hnext hrest]
    simp only [Rng.advance, Option.some.injEq, Prod.mk.injEq, Rng.mk.injEq, true_and]
    omega

/-! ## The cost function returns -/

theorem edgeCost_eq {α : Type} (sqrtF : Int → α) {cities : List City} {a b : Nat}
    (ha : a < cities.length) (hb : b < cities.length) :
    edgeCost sqrtF cities a b = some (edgeLen sqrtF cities a b) := by
  simp [edgeCost, edgeLen, List.getElem?_eq_getElem ha, List.getElem?_eq_getElem hb,
    List.getD_eq_getElem _ _ ha, List.getD_eq_getElem _ _ hb]

theorem edgeCost_bounds {α : Type} {sqrtF : Int → α} {cities : List City} {a b : Nat} {d : α}
    (h : edgeCost sqrtF cities a b = some d) : a < cities.length ∧ b < cities.length := by
  unfold edgeCost at h
  by_cases ha : a < cities.length
  · by_cases hb : b < cities.length
    · exact ⟨ha, hb⟩
    · simp [List.getElem?_eq_none (Nat.le_of_not_lt hb)] at h
  · simp [List.getElem?_eq_none (Nat.le_of_not_lt ha)] at h

section CostLemmas

variable {α : Type} [AddMonoid α]

theorem costLoop_eq (sqrtF : Int → α) (cities : List City) :
    ∀ (route : List Nat) (total : α), (∀ x ∈ route, x < cities.length) →
      costLoop sqrtF cities route total = some (total + pathCost sqrtF cities route)
  | [], total, _ => by simp [costLoop, pathCost]
  | [_], total, _ => by simp [costLoop, pathCost]
  | a :: b :: rest, total, h => by
    have ha : a < cities.length := h a (by simp)
    have hb : b < cities.length := h b (by simp)
    have ih := costLoop_eq sqrtF cities (b :: rest) (total + edgeLen sqrtF cities a b)
      (fun x hx => h x (List.mem_cons_of_mem _ hx))
    simp only [costLoop, edgeCost_eq sqrtF ha hb, Option.bind_eq_bind, Option.some_bind, ih,
      pathCost, add_assoc]

theorem calculateCost_eq (sqrtF : Int → α) (cities : List City) (route : List Nat)
    (hne : route ≠ []) (h : ∀ x ∈ route, x < cities.length) :
    calculateCost sqrtF cities route =
      some (0 + pathCost sqrtF cities route +
        edgeLen sqrtF cities (route.head hne) (route.getLast hne)) := by
  have h1 : route.head hne < cities.length := h _ (List.head_mem hne)
  have h2 : route.getLast hne < cities.length := h _ (List.getLast_mem hne)
  simp only [calculateCost, costLoop_eq sqrtF cities route 0 h, Option.bind_eq_bind,
    Option.some_bind, List.head?_eq_head hne, List.getLast?_eq_getLast _ hne,
    edgeCost_eq sqrtF h1 h2]
  rfl

theorem calculateCost_isSome_of_isTour (sqrtF : Int → α) {cities : List City}
    (hc : cities.length = NUM_CITIES) {route : List Nat} (hr : IsTour route) :
    ∃ c, calculateCost sqrtF cities route = some c := by
  have hne : route ≠ [] := by
    intro h
    have := hr.length_eq
    rw [h] at this
    exact absurd this (by decide)
  exact ⟨_, calculateCost_eq sqrtF cities route hne
    (fun x hx => by rw [hc]; exact hr.lt_of_mem hx)⟩

theorem freshParticle_spec (sqrtF : Int → α) {cities : List City}
    (hc : cities.length = NUM_CITIES) (g : Rng) :
    ∃ pos c g1, shuffle (List.range NUM_CITIES) g = some (pos, g1) ∧ IsTour pos ∧
      calculateCost sqrtF cities pos = some c ∧
      freshParticle sqrtF cities g =
        some ({ position := pos, best_position := pos, best_cost := c, cost := c }, g1) := by
  obtain ⟨pos, g1, h1, ht⟩ := shuffle_isTour isTour_range g
  obtain ⟨c, h2⟩ := calculateCost_isSome_of_isTour sqrtF hc ht
  exact ⟨pos, c, g1, h1, ht, h2, by
    simp only [freshParticle, h1, h2, Option.bind_eq_bind, Option.some_bind]⟩

theorem freshParticle_isFresh (sqrtF : Int → α) {cities : List City} {g g1 : Rng}
    {p : Particle α} (h : freshParticle sqrtF cities g = some (p, g1)) :
    IsFresh sqrtF cities p := by
  unfold freshParticle at h
  obtain ⟨v1, g0, h0, hp⟩ := shuffle_spec (List.range NUM_CITIES) g
  simp only [h0, Option.bind_eq_bind, Option.some_bind] at h
  cases hcost : calculateCost sqrtF cities v1 with
  | none => simp [hcost] at h
  | some c =>
    simp only [hcost, Option.some_bind, Option.some.injEq, Prod.mk.injEq] at h
    obtain ⟨rfl, _⟩ := h
    exact ⟨isTour_range.of_perm hp, hcost, rfl, rfl⟩

theorem freshTail_spec (sqrtF : Int → α) {cities : List City}
    (hc : cities.length = NUM_CITIES) (k : Nat) : ∀ g : Rng,
    ∃ fl g1, freshTail sqrtF cities k g = some (fl, g1) ∧ fl.length = k ∧
      ∀ p ∈ fl, IsFresh sqrtF cities p := by
  induction k with
  | zero => intro g; exact ⟨[], g, rfl, rfl, fun _ hp => absurd hp (List.not_mem_nil _)⟩
  | succ k ih =>
    intro g
    obtain ⟨pos, c, g1, _, _, _, hfp⟩ := freshParticle_spec sqrtF hc g
    obtain ⟨fl, g2, h1, h2, h3⟩ := ih g1
    refine ⟨fl ++ [{ position := pos, best_position := pos, best_cost := c, cost := c }], g2,
      ?_, by simp [h2], ?_⟩
    · simp only [freshTail, hfp, Option.bind_eq_bind, Option.some_bind, h1]
    · intro p hp
      rcases List.mem_append.1 hp with hp | hp
      · exact h3 p hp
      · rw [List.mem_singleton] at hp
        subst hp
        exact freshParticle_isFresh sqrtF hfp

theorem freshParticle_shuffle (sqrtF : Int → α) {cities : List City} {g g1 : Rng}
    {p : Particle α} (h : freshParticle sqrtF cities g = some (p, g1)) :
    shuffle (List.range NUM_CITIES) g = some (p.position, g1) := by
  unfold freshParticle at h
  cases hsh : shuffle (List.range NUM_CITIES) g with
  | none => simp [hsh] at h
  | some r =>
    obtain ⟨v, g0⟩ := r
    simp only [hsh, Option.bind_eq_bind, Option.some_bind] at h
    cases hcost : calculateCost sqrtF cities v with
    | none => simp [hcost] at h
    | some c =>
      simp only [hcost, Option.some_bind, Option.some.injEq, Prod.mk.injEq] at h
      obtain ⟨rfl, rfl⟩ := h
      rfl

theorem freshTail_mem (sqrtF : Int → α) (cities : List City) (k : Nat) :
    ∀ (g g1 : Rng) (fl : List (Particle α)), freshTail sqrtF cities k g = some (fl, g1) →
      ∀ p ∈ fl, ∃ h h1, freshParticle sqrtF cities h = some (p, h1) := by
  induction k with
  | zero =>
    intro g g1 fl h p hp
    simp only [freshTail, Option.some.injEq, Prod.mk.injEq] at h
    rw [← h.1] at hp
    exact absurd hp (List.not_mem_nil _)
  | succ k ih =>
    intro g g1 fl h p hp
    unfold freshTail at h
    cases hfp : freshParticle sqrtF cities g with
    | none => simp [hfp] at h
    | some r =>
      obtain ⟨q, g0⟩ := r
      simp only [hfp, Option.bind_eq_bind, Option.some_bind] at h
      cases hft : freshTail sqrtF cities k g0 with
      | none => simp [hft] at h
      | some r2 =>
        obtain ⟨ps, g2⟩ := r2
        simp only [hft, Option.some_bind, Option.some.injEq, Prod.mk.injEq] at h
        obtain ⟨rfl, rfl⟩ := h
        rcases List.mem_append.1 hp with hp | hp
        · exact ih g0 _ ps hft p hp
        · rw [List.mem_singleton] at hp
          subst hp
          exact ⟨g, g0, hfp⟩

theorem reseedLoop_eq (sqrtF : Int → α) {cities : List City}
    (hc : cities.length = NUM_CITIES) :
    ∀ (rv front done : List (Particle α)) (i : Nat) (g : Rng),
      front.length + rv.length + i = NUM_PARTICLES →
      (∀ p ∈ rv, p.position.length = NUM_CITIES) →
      ∃ fl g1, freshTail sqrtF cities rv.length g = some (fl, g1) ∧
        reseedLoop sqrtF cities rv.length i (front ++ rv.reverse ++ done) g =
          some (front ++ fl ++ done, g1)
  | [], front, done, i, g, _, _ => ⟨[], g, rfl, by simp [reseedLoop]⟩
  | v :: rv, front, done, i, g, hlen, hpos => by
    obtain ⟨pos, c, g1, hsh, _, hcost, hfp⟩ := freshParticle_spec sqrtF hc g
    have hslot : NUM_PARTICLES - 1 - i = (front ++ rv.reverse).length := by
      simp only [List.length_cons] at hlen
      simp only [List.length_append, List.length_reverse]
      omega
    have hsplit : front ++ (v :: rv).reverse ++ done = (front ++ rv.reverse) ++ v :: done := by
      simp
    obtain ⟨fl, g2, hft, hloop⟩ := reseedLoop_eq sqrtF hc rv front
      ({ position := pos, best_position := pos, best_cost := c, cost := c } :: done) (i + 1) g1
      (by simp only [List.length_cons] at hlen; omega)
      (fun p hp => hpos p (List.mem_cons_of_mem _ hp))
    refine ⟨fl ++ [{ position := pos, best_position := pos, best_cost := c, cost := c }], g2,
      ?_, ?_⟩
    · simp only [List.length_cons, freshTail, hfp, Option.bind_eq_bind, Option.some_bind, hft]
    · have hget : (front ++ rv.reverse ++ v :: done)[NUM_PARTICLES - 1 - i]? = some v := by
        rw [hslot, List.getElem?_append_right (le_refl _)]
        simp
      have hset : (front ++ rv.reverse ++ v :: done).set (NUM_PARTICLES - 1 - i)
          { position := pos, best_position := pos, best_cost := c, cost := c } =
          front ++ rv.reverse ++
            { position := pos, best_position := pos, best_cost := c, cost := c } :: done := by
        rw [hslot, List.set_append_right _ _ (le_refl _)]
        simp
      rw [hsplit]
      simp only [List.length_cons, reseedLoop, hget, Option.bind_eq_bind, Option.some_bind,
        identityLoop_eq_range (hpos v (by simp)), hsh, hcost, hset, hloop]
      simp

theorem freshParticle_transfer (sqrtF : Int → α) (cities : List City) {c : Nat}
    {g h : Rng} {q : Particle α} {h1 : Rng} (hg : g.Const c) (hh : h.Const c)
    (hyp : freshParticle sqrtF cities h = some (q, h1)) :
    ∃ g1, freshParticle sqrtF cities g = some (q, g1) ∧ g1.Const c := by
  unfold freshParticle at hyp ⊢
  simp only [Option.bind_eq_bind] at hyp ⊢
  obtain ⟨⟨v0, k0⟩, e0, hyp⟩ := Option.bind_eq_some.1 hyp
  obtain ⟨cost, e1, hyp⟩ := Option.bind_eq_some.1 hyp
  obtain ⟨g0, f0, hg0⟩ := shuffle_transfer hg hh e0
  refine ⟨g0, ?_, hg0⟩
  simp only [f0, e1, Option.some_bind]
  simp only [Option.some.injEq, Prod.mk.injEq] at hyp ⊢
  exact ⟨hyp.1, trivial⟩

theorem freshTail_replicate (sqrtF : Int → α) (cities : List City) {c : Nat}
    {q : Particle α} {h h1 : Rng} (hh : h.Const c)
    (hyp : freshParticle sqrtF cities h = some (q, h1)) (k : Nat) :
    ∀ g : Rng, g.Const c →
      ∃ g1, freshTail sqrtF cities k g = some (List.replicate k q, g1) ∧ g1.Const c := by
  induction k with
  | zero => intro g hg; exact ⟨g, rfl, hg⟩
  | succ k ih =>
    intro g hg
    obtain ⟨g1, f1, hg1⟩ := freshParticle_transfer sqrtF cities hg hh hyp
    obtain ⟨g2, f2, hg2⟩ := ih g1 hg1
    refine ⟨g2, ?_, hg2⟩
    simp only [freshTail, f1, Option.bind_eq_bind, Option.some_bind, f2]
    rw [← List.replicate_succ']

theorem reseedLoop_agree (sqrtF : Int → α) (cities : List City) (k : Nat) :
    ∀ (i : Nat) (swarm : List (Particle α)) (g h : Rng) (out : List (Particle α)) (g1 : Rng),
      g.Agree h → reseedLoop sqrtF cities k i swarm g = some (out, g1) →
      ∃ h1, reseedLoop sqrtF cities k i swarm h = some (out, h1) ∧ g1.Agree h1 := by
  induction k with
  | zero =>
    intro i swarm g h out g1 a hyp
    simp only [reseedLoop, Option.some.injEq, Prod.mk.injEq] at hyp
    exact ⟨h, by rw [← hyp.1]; rfl, by rw [← hyp.2]; exact a⟩
  | succ k ih =>
    intro i swarm g h out g1 a hyp
    unfold reseedLoop at hyp ⊢
    simp only [Option.bind_eq_bind] at hyp ⊢
    obtain ⟨p, e0, hyp⟩ := Option.bind_eq_some.1 hyp
    obtain ⟨v0, e1, hyp⟩ := Option.bind_eq_some.1 hyp
    obtain ⟨⟨v1, k1⟩, e2, hyp⟩ := Option.bind_eq_some.1 hyp
    obtain ⟨cost, e3, hyp⟩ := Option.bind_eq_some.1 hyp
    obtain ⟨h1, f2, a1⟩ := shuffle_agree a e2
    simp only [e0, e1, f2, e3, Option.some_bind]
    exact ih (i + 1) _ k1 h1 out g1 a1 hyp

end CostLemmas


/-! ## The cost is the closed-tour length -/

theorem edgeLen_eq_euclid {α : Type} (sqrtF : Int → α) (cities : List City) (a b : Nat) :
    edgeLen sqrtF cities a b =
      euclid sqrtF (cities.getD a { x := 0, y := 0 }) (cities.getD b { x := 0, y := 0 }) := by
  simp only [edgeLen, euclid]
  congr 1
  ring

theorem euclid_comm {α : Type} (sqrtF : Int → α) (a b : City) :
    euclid sqrtF a b = euclid sqrtF b a := by
  simp only [euclid]
  congr 1
  ring

section TourLengthLemmas

variable {α : Type} [AddCommMonoid α]

theorem pathCost_eq_sum (sqrtF : Int → α) (cities : List City) : ∀ route : List Nat,
    pathCost sqrtF cities route =
      ∑ i in Finset.range (route.length - 1),
        edgeLen sqrtF cities (route.getD i 0) (route.getD (i + 1) 0)
  | [] => by simp [pathCost]
  | [_] => by simp [pathCost]
  | a :: b :: rest => by
    have ih := pathCost_eq_sum sqrtF cities (b :: rest)
    simp only [List.length_cons, Nat.add_sub_cancel] at ih ⊢
    rw [pathCost, ih, Finset.sum_range_succ', add_comm]
    simp

theorem calculateCost_eq_tourLength (sqrtF : Int → α) (cities : List City) (route : List Nat)
    (hne : route ≠ []) (h : ∀ x ∈ route, x < cities.length) :
    calculateCost sqrtF cities route = some (tourLength sqrtF cities route) := by
  rw [calculateCost_eq sqrtF cities route hne h]
  congr 1
  obtain ⟨m, hm⟩ : ∃ m, route.length = m + 1 :=
    ⟨route.length - 1, by have := List.length_pos.2 hne; omega⟩
  have hhead : route.head hne = route.getD 0 0 := by
    cases route with
    | nil => exact absurd rfl hne
    | cons a rest => rfl
  have hlast : route.getLast hne = route.getD m 0 := by
    rw [List.getLast_eq_getElem, List.getD_eq_getElem _ _ (by omega)]
    congr 1
    omega
  rw [zero_add, pathCost_eq_sum, tourLength, hm, Nat.add_sub_cancel, Finset.sum_range_succ,
    Nat.mod_self, hhead, hlast, edgeLen_eq_euclid, euclid_comm]
  congr 1
  apply Finset.sum_congr rfl
  intro i hi
  rw [Finset.mem_range] at hi
  rw [edgeLen_eq_euclid, Nat.mod_eq_of_lt (by omega)]

end TourLengthLemmas

/-! ## Rotating and reversing a route -/

theorem edgeLen_comm {α : Type} (sqrtF : Int → α) (cities : List City) (a b : Nat) :
    edgeLen sqrtF cities a b = edgeLen sqrtF cities b a := by
  rw [edgeLen_eq_euclid, edgeLen_eq_euclid, euclid_comm]

section RotationLemmas

variable {α : Type} [AddCommMonoid α]

theorem pathCost_append_singleton (sqrtF : Int → α) (cities : List City) (a : Nat) :
    ∀ (l : List Nat) (hne : l ≠ []),
      pathCost sqrtF cities (l ++ [a]) =
        pathCost sqrtF cities l + edgeLen sqrtF cities (l.getLast hne) a
  | [], hne => absurd rfl hne
  | [b], _ => by simp [pathCost]
  | b :: c :: t, _ => by
    have ih := pathCost_append_singleton sqrtF cities a (c :: t) (by simp)
    simp only [List.cons_append] at ih ⊢
    rw [pathCost, ih, pathCost, add_assoc]
    simp

theorem pathCost_reverse (sqrtF : Int → α) (cities : List City) :
    ∀ route : List Nat, pathCost sqrtF cities route.reverse = pathCost sqrtF cities route
  | [] => rfl
  | [_] => rfl
  | a :: b :: t => by
    have ih := pathCost_reverse sqrtF cities (b :: t)
    rw [List.reverse_cons, pathCost_append_singleton sqrtF cities a _ (by simp), ih,
      List.getLast_reverse, pathCost, add_comm, edgeLen_comm]
    simp

theorem calculateCost_rotate_one (sqrtF : Int → α) (cities : List City) (a : Nat)
    (l : List Nat) (h : ∀ x ∈ a :: l, x < cities.length) :
    calculateCost sqrtF cities (l ++ [a]) = calculateCost sqrtF cities (a :: l) := by
  cases l with
  | nil => rfl
  | cons b t =>
    have h2 : ∀ x ∈ b :: t ++ [a], x < cities.length := by
      intro x hx
      apply h
      simp only [List.mem_append, List.mem_cons, List.mem_singleton, List.not_mem_nil,
        or_false] at hx ⊢
      tauto
    rw [calculateCost_eq sqrtF cities _ (by simp) h2,
      calculateCost_eq sqrtF cities _ (by simp) h]
    congr 1
    rw [pathCost_append_singleton sqrtF cities a (b :: t) (by simp), pathCost]
    simp only [List.head_cons, List.cons_append, List.getLast_cons_cons, zero_add]
    have hlast : (b :: (t ++ [a])).getLast (by simp) = a := by simp
    rw [hlast, edgeLen_comm sqrtF cities a ((b :: t).getLast (by simp)),
      edgeLen_comm sqrtF cities a b]
    abel

theorem calculateCost_rotate (sqrtF : Int → α) (cities : List City) (route : List Nat)
    (h : ∀ x ∈ route, x < cities.length) (k : Nat) :
    calculateCost sqrtF cities (route.rotate k) = calculateCost sqrtF cities route := by
  induction k with
  | zero => rw [List.rotate_zero]
  | succ k ih =>
    rw [← List.rotate_rotate, ← ih]
    have hk : ∀ x ∈ route.rotate k, x < cities.length := fun x hx => h x (List.mem_rotate.1 hx)
    cases hr : route.rotate k with
    | nil => rfl
    | cons a l =>
      rw [hr] at hk
      rw [List.rotate_cons_succ, List.rotate_zero]
      exact calculateCost_rotate_one sqrtF cities a l hk

theorem calculateCost_reverse (sqrtF : Int → α) (cities : List City) (route : List Nat)
    (h : ∀ x ∈ route, x < cities.length) :
    calculateCost sqrtF cities route.reverse = calculateCost sqrtF cities route := by
  cases route with
  | nil => rfl
  | cons a l =>
    have h2 : ∀ x ∈ (a :: l).reverse, x < cities.length :=
      fun x hx => h x (List.mem_reverse.1 hx)
    rw [calculateCost_eq sqrtF cities _ (by simp) h2,
      calculateCost_eq sqrtF cities _ (by simp) h]
    congr 1
    rw [pathCost_reverse, List.head_reverse, List.getLast_reverse, edgeLen_comm]

end RotationLemmas

/-! ## The global-best fold -/

section BestLemmas

variable {α : Type} [LinearOrder α]

theorem BestAfter.nil (gbp : List Nat) (gbc : α) : BestAfter gbp gbc [] gbp gbc :=
  Or.inl ⟨rfl, rfl, fun _ hq => absurd hq (List.not_mem_nil _)⟩

theorem BestAfter.cons {gbp : List Nat} {gbc : α} {q : Particle α} {qs : List (Particle α)}
    {gbp1 : List Nat} {gbc1 : α}
    (h : BestAfter (if q.cost < gbc then q.position else gbp)
      (if q.cost < gbc then q.cost else gbc) qs gbp1 gbc1) :
    BestAfter gbp gbc (q :: qs) gbp1 gbc1 := by
  by_cases hlt : q.cost < gbc
  · simp only [hlt, if_true] at h
    rcases h with ⟨h1, h2, h3⟩ | ⟨h1, pre, r, post, h2, h3, h4, h5, h6⟩
    · refine Or.inr ⟨by rw [h2]; exact hlt, [], q, qs, rfl, h1.symm, h2.symm, ?_, ?_⟩
      · intro r hr; exact absurd hr (List.not_mem_nil _)
      · intro r hr; rw [h2]; exact h3 r hr
    · refine Or.inr ⟨lt_trans h1 hlt, q :: pre, r, post, by rw [h2]; rfl, h3, h4, ?_, h6⟩
      intro x hx
      rcases List.mem_cons.1 hx with rfl | hx
      · exact h1
      · exact h5 x hx
  · simp only [hlt, if_false] at h
    rcases h with ⟨h1, h2, h3⟩ | ⟨h1, pre, r, post, h2, h3, h4, h5, h6⟩
    · refine Or.inl ⟨h1, h2, ?_⟩
      intro x hx
      rcases List.mem_cons.1 hx with rfl | hx
      · exact not_lt.1 hlt
      · exact h3 x hx
    · refine Or.inr ⟨h1, q :: pre, r, post, by rw [h2]; rfl, h3, h4, ?_, h6⟩
      intro x hx
      rcases List.mem_cons.1 hx with rfl | hx
      · exact lt_of_lt_of_le h1 (not_lt.1 hlt)
      · exact h5 x hx

theorem BestAfter.le {gbp : List Nat} {gbc : α} {qs : List (Particle α)} {gbp1 : List Nat}
    {gbc1 : α} (h : BestAfter gbp gbc qs gbp1 gbc1) : gbc1 ≤ gbc := by
  rcases h with ⟨_, h2, _⟩ | ⟨h1, _⟩
  · exact le_of_eq h2
  · exact le_of_lt h1

theorem BestAfter.le_cost {gbp : List Nat} {gbc : α} {qs : List (Particle α)}
    {gbp1 : List Nat} {gbc1 : α} (h : BestAfter gbp gbc qs gbp1 gbc1) :
    ∀ q ∈ qs, gbc1 ≤ q.cost := by
  rcases h with ⟨_, h2, h3⟩ | ⟨_, pre, r, post, h2, _, h4, h5, h6⟩
  · intro q hq; rw [h2]; exact h3 q hq
  · intro q hq
    rw [h2] at hq
    rcases List.mem_append.1 hq with hq | hq
    · exact le_of_lt (h5 q hq)
    · rcases List.mem_cons.1 hq with rfl | hq
      · exact le_of_eq h4.symm
      · exact h6 q hq

theorem BestAfter.isTour {gbp : List Nat} {gbc : α} {qs : List (Particle α)}
    {gbp1 : List Nat} {gbc1 : α} (h : BestAfter gbp gbc qs gbp1 gbc1)
    (hq : ∀ q ∈ qs, IsTour q.position) (hne : IsTour gbp ∨ ∃ q ∈ qs, q.cost < gbc) :
    IsTour gbp1 := by
  rcases h with ⟨h1, _, h3⟩ | ⟨_, pre, r, post, h2, h3, _⟩
  · rcases hne with hg | ⟨q, hq1, hq2⟩
    · rw [h1]; exact hg
    · exact absurd hq2 (not_lt.2 (h3 q hq1))
  · rw [← h3]
    exact hq r (by rw [h2]; simp)

theorem foldl_min_le_init (l : List α) : ∀ a : α, l.foldl min a ≤ a := by
  induction l with
  | nil => intro a; exact le_refl a
  | cons c l ih => intro a; exact le_trans (ih (min a c)) (min_le_left a c)

theorem foldl_min_le_mem (l : List α) : ∀ (a : α) (c : α), c ∈ l → l.foldl min a ≤ c := by
  induction l with
  | nil => intro a c hc; exact absurd hc (List.not_mem_nil _)
  | cons d l ih =>
    intro a c hc
    rcases List.mem_cons.1 hc with rfl | hc
    · exact le_trans (foldl_min_le_init l (min a c)) (min_le_right a c)
    · exact ih (min a d) c hc

theorem foldl_min_mem (l : List α) : ∀ a : α, l.foldl min a = a ∨ l.foldl min a ∈ l := by
  induction l with
  | nil => intro a; exact Or.inl rfl
  | cons c l ih =>
    intro a
    rcases ih (min a c) with h | h
    · rcases min_choice a c with h2 | h2
      · exact Or.inl (by rw [List.foldl_cons, h, h2])
      · exact Or.inr (by rw [List.foldl_cons, h, h2]; exact List.mem_cons_self _ _)
    · exact Or.inr (List.mem_cons_of_mem _ h)

theorem foldl_min_unique {l : List α} {a m : α} (h1 : m ≤ a) (h2 : ∀ c ∈ l, m ≤ c)
    (h3 : m = a ∨ m ∈ l) : m = l.foldl min a := by
  apply le_antisymm
  · rcases foldl_min_mem l a with h | h
    · rw [h]; exact h1
    · exact h2 _ h
  · rcases h3 with h | h
    · rw [h]; exact foldl_min_le_init l a
    · exact foldl_min_le_mem l a m h

theorem BestAfter.eq_foldl_min {gbp : List Nat} {gbc : α} {qs : List (Particle α)}
    {gbp1 : List Nat} {gbc1 : α} (h : BestAfter gbp gbc qs gbp1 gbc1) :
    gbc1 = (qs.map fun q => q.cost).foldl min gbc := by
  apply foldl_min_unique h.le
  · intro c hc
    obtain ⟨q, hq, rfl⟩ := List.mem_map.1 hc
    exact h.le_cost q hq
  · rcases h with ⟨_, h2, _⟩ | ⟨_, pre, q, post, h2, _, h4, _, _⟩
    · exact Or.inl h2
    · exact Or.inr (List.mem_map.2 ⟨q, by rw [h2]; simp, h4⟩)

theorem BestAfter.unchanged {gbp : List Nat} {gbc : α} {qs : List (Particle α)}
    {gbp1 : List Nat} {gbc1 : α} (h : BestAfter gbp gbc qs gbp1 gbc1)
    (hno : ∀ q ∈ qs, ¬ q.cost < gbc) : gbp1 = gbp ∧ gbc1 = gbc := by
  rcases h with ⟨h1, h2, _⟩ | ⟨h1, pre, q, post, h2, _, h4, _, _⟩
  · exact ⟨h1, h2⟩
  · exact absurd (by rw [h4]; exact h1) (hno q (by rw [h2]; simp))

theorem BestAfter.changed {gbp : List Nat} {gbc : α} {qs : List (Particle α)}
    {gbp1 : List Nat} {gbc1 : α} (h : BestAfter gbp gbc qs gbp1 gbc1)
    (hch : ¬ (gbp1 = gbp ∧ gbc1 = gbc)) :
    ∃ q ∈ qs, q.cost < gbc ∧ q.position = gbp1 ∧ q.cost = gbc1 := by
  rcases h with ⟨h1, h2, _⟩ | ⟨h1, pre, q, post, h2, h3, h4, _, _⟩
  · exact absurd ⟨h1, h2⟩ hch
  · exact ⟨q, by rw [h2]; simp, by rw [h4]; exact h1, h3, h4⟩

theorem BestAfter.source {gbp : List Nat} {gbc : α} {qs : List (Particle α)}
    {gbp1 : List Nat} {gbc1 : α} (h : BestAfter gbp gbc qs gbp1 gbc1) :
    (gbp1 = gbp ∧ gbc1 = gbc) ∨ ∃ q ∈ qs, q.position = gbp1 ∧ q.cost = gbc1 := by
  rcases h with ⟨h1, h2, _⟩ | ⟨_, pre, q, post, h2, h3, h4, _, _⟩
  · exact Or.inl ⟨h1, h2⟩
  · exact Or.inr ⟨q, by rw [h2]; simp, h3, h4⟩

/-! ## Following the particles through the sort -/

theorem forall₂_getElem? {γ δ : Type} {R : γ → δ → Prop} {l1 : List γ} {l2 : List δ}
    (h : List.Forall₂ R l1 l2) {k : Nat} {p : γ} {q : δ} (hp : l1[k]? = some p)
    (hq : l2[k]? = some q) : R p q := by
  obtain ⟨h1, rfl⟩ := List.getElem?_eq_some.1 hp
  obtain ⟨h2, rfl⟩ := List.getElem?_eq_some.1 hq
  exact (List.forall₂_iff_get.1 h).2 k h1 h2

theorem insertionSort_take_slots (l : List (Particle α)) (n : Nat) :
    ∃ idx : List Nat, idx.Nodup ∧ idx.length = min n l.length ∧
      ∀ i k : Nat, idx[i]? = some k →
        k < l.length ∧ ((l.insertionSort costLE).take n)[i]? = l[k]? := by
  let r' : Nat × Particle α → Nat × Particle α → Prop := fun a b => costLE a.2 b.2
  haveI : DecidableRel r' := fun a b => inferInstanceAs (Decidable (a.2.cost ≤ b.2.cost))
  have hmap : (l.enum.insertionSort r').map Prod.snd = l.insertionSort costLE := by
    rw [List.map_insertionSort r' costLE Prod.snd l.enum (fun a _ b _ => Iff.rfl),
      List.enum_map_snd]
  have hperm := List.perm_insertionSort r' l.enum
  refine ⟨((l.enum.insertionSort r').map Prod.fst).take n, ?_, ?_, ?_⟩
  · apply List.Nodup.sublist (List.take_sublist _ _)
    rw [(hperm.map Prod.fst).nodup_iff, List.enum_map_fst]
    exact List.nodup_range _
  · simp [List.length_take]
  · intro i k hik
    have hi : i < n := by
      have h1 := (List.getElem?_eq_some.1 hik).1
      rw [List.length_take] at h1
      omega
    rw [List.getElem?_take_of_lt hi] at hik ⊢
    rw [List.getElem?_map] at hik
    obtain ⟨a, ha, hak⟩ := Option.map_eq_some'.1 hik
    have hmem : a ∈ l.enum := hperm.mem_iff.1 (List.mem_iff_getElem?.2 ⟨i, ha⟩)
    have hl : l[a.1]? = some a.2 := List.mk_mem_enum_iff_getElem?.1 hmem
    rw [hak] at hl
    refine ⟨(List.getElem?_eq_some.1 hl).1, ?_⟩
    rw [← hmap, List.getElem?_map, ha, hl]
    rfl

theorem survivors_slots (l fl : List (Particle α)) (hlen : l.length = NUM_PARTICLES) :
    ∃ idx : List Nat, idx.Nodup ∧ idx.length = 450 ∧
      ∀ i k : Nat, idx[i]? = some k →
        i < 450 ∧ k < NUM_PARTICLES ∧
          ((l.insertionSort costLE).take 450 ++ fl)[i]? = l[k]? := by
  obtain ⟨idx, h1, h2, h3⟩ := insertionSort_take_slots l 450
  have hidx : idx.length = 450 := by
    rw [h2, hlen]
    decide
  refine ⟨idx, h1, hidx, ?_⟩
  intro i k hik
  have hi : i < 450 := by
    rw [← hidx]
    exact (List.getElem?_eq_some.1 hik).1
  obtain ⟨hk, hslot⟩ := h3 i k hik
  refine ⟨hi, by rw [← hlen]; exact hk, ?_⟩
  rw [List.getElem?_append_left, hslot]
  rw [List.length_take, List.length_insertionSort, hlen]
  exact lt_of_lt_of_le hi (by decide)

theorem kept_length (l : List (Particle α)) (hlen : l.length = NUM_PARTICLES) :
    ((l.insertionSort costLE).take 450).length = 450 := by
  rw [List.length_take, List.length_insertionSort, hlen]
  decide

theorem insertionSort_replicate (n : Nat) (q : Particle α) :
    (List.replicate n q).insertionSort costLE = List.replicate n q :=
  List.Sorted.insertionSort_eq
    (List.pairwise_replicate.2 (Or.inr (le_refl q.cost)))

theorem bestAfter_replicate {f : Particle α} {n : Nat} {gbc gbc1 : α} {gbp gbp1 : List Nat}
    (hn : 0 < n) (hlt : f.cost < gbc)
    (h : BestAfter gbp gbc (List.replicate n f) gbp1 gbc1) :
    gbp1 = f.position ∧ gbc1 = f.cost := by
  have hmem : f ∈ List.replicate n f := List.mem_replicate.2 ⟨by omega, rfl⟩
  rcases h with ⟨_, _, h3⟩ | ⟨_, pre, q, post, h2, h3, h4, _, _⟩
  · exact absurd hlt (not_lt.2 (h3 f hmem))
  · have hq : q = f := List.eq_of_mem_replicate (by rw [h2]; simp)
    rw [hq] at h3 h4
    exact ⟨h3.symm, h4.symm⟩

end BestLemmas

/-! ## One particle update -/

section SwarmLemmas

variable {α : Type} [LinearOrder α] [AddMonoid α]

theorem updateParticle_spec (sqrtF : Int → α) {cities : List City}
    (hc : cities.length = NUM_CITIES) (p : Particle α) {gbp : List Nat} (gbc : α) (g : Rng)
    (hp : IsTour p.position) (hb : IsTour p.best_position) (hg : IsTour gbp) :
    ∃ pos c g1, IsTour pos ∧ calculateCost sqrtF cities pos = some c ∧
      updateParticle sqrtF cities p gbp gbc g =
        some ((if c < p.best_cost then
                { position := pos, best_position := pos, best_cost := c, cost := c }
              else
                { position := pos, best_position := p.best_position,
                  best_cost := p.best_cost, cost := c }),
          (if c < gbc then pos else gbp), (if c < gbc then c else gbc), g1) := by
  obtain ⟨v0, g0, h0, hp0⟩ := shuffle_spec p.position g
  obtain ⟨v1, g1, h1, hp1⟩ := swapLoop_spec hb hg NUM_CITIES 0 v0 g0
    (by rw [hp0.length_eq]; exact hp.length_eq) (by omega)
  obtain ⟨v2, g2, h2, hp2⟩ := applyMutationAndGaussian_spec v1 g1
    (by rw [hp1.length_eq, hp0.length_eq]; exact hp.length_eq)
  have ht : IsTour v2 := hp.of_perm (hp2.trans (hp1.trans hp0))
  obtain ⟨c, hcost⟩ := calculateCost_isSome_of_isTour sqrtF hc ht
  refine ⟨v2, c, g2, ht, hcost, ?_⟩
  simp only [updateParticle, h0, h1, h2, hcost, Option.bind_eq_bind, Option.some_bind]
  by_cases hlt : c < gbc <;> simp [hlt]

theorem updateLoop_spec (sqrtF : Int → α) {cities : List City}
    (hc : cities.length = NUM_CITIES) :
    ∀ (ps : List (Particle α)) (gbp : List Nat) (gbc : α) (g : Rng),
      (∀ p ∈ ps, IsTour p.position) → (∀ p ∈ ps, IsTour p.best_position) → IsTour gbp →
      ∃ qs gbp1 gbc1 g1, updateLoop sqrtF cities ps gbp gbc g = some (qs, gbp1, gbc1, g1) ∧
        List.Forall₂ (ParticleStep sqrtF cities) ps qs ∧ BestAfter gbp gbc qs gbp1 gbc1
  | [], gbp, gbc, g, _, _, _ =>
    ⟨[], gbp, gbc, g, rfl, List.Forall₂.nil, BestAfter.nil gbp gbc⟩
  | p :: ps, gbp, gbc, g, hpos, hbest, hg => by
    obtain ⟨pos, c, g1, ht, hcost, hstep⟩ := updateParticle_spec sqrtF hc p gbc g
      (hpos p (by simp)) (hbest p (by simp)) hg
    have hg1 : IsTour (if c < gbc then pos else gbp) := by
      split
      · exact ht
      · exact hg
    obtain ⟨qs, gbp1, gbc1, g2, hloop, hall, hbestAfter⟩ :=
      updateLoop_spec sqrtF hc ps (if c < gbc then pos else gbp) (if c < gbc then c else gbc) g1
        (fun q hq => hpos q (List.mem_cons_of_mem _ hq))
        (fun q hq => hbest q (List.mem_cons_of_mem _ hq)) hg1
    refine ⟨(if c < p.best_cost then
        { position := pos, best_position := pos, best_cost := c, cost := c }
      else
        { position := pos, best_position := p.best_position,
          best_cost := p.best_cost, cost := c }) :: qs, gbp1, gbc1, g2, ?_,
      List.Forall₂.cons ?_ hall, BestAfter.cons ?_⟩
    · simp only [updateLoop, hstep, Option.bind_eq_bind, Option.some_bind, hloop]
    · by_cases hlt : c < p.best_cost
      · simp only [hlt, if_true]
        exact ⟨ht, hcost, Or.inl ⟨hlt, rfl, rfl⟩⟩
      · simp only [hlt, if_false]
        exact ⟨ht, hcost, Or.inr ⟨hlt, rfl, rfl⟩⟩
    · by_cases hlt : c < p.best_cost <;> simpa [hlt] using hbestAfter

/-! ## Pruning -/

theorem prune_count_eq : NUM_PARTICLES * PRUNE_PERCENTAGE / 100 = 50 := by decide

theorem pruneParticles_spec (sqrtF : Int → α) {cities : List City}
    (hc : cities.length = NUM_CITIES) (s : State α) (hlen : s.swarm.length = NUM_PARTICLES)
    (hpos : ∀ p ∈ s.swarm, p.position.length = NUM_CITIES) :
    ∃ fl g1, freshTail sqrtF cities 50 s.rng = some (fl, g1) ∧
      pruneParticles sqrtF cities s =
        some { swarm := (s.swarm.insertionSort costLE).take 450 ++ fl
               global_best_position := s.global_best_position
               global_best_cost := s.global_best_cost
               rng := g1 } := by
  have hslen : (s.swarm.insertionSort costLE).length = 500 := by
    rw [List.length_insertionSort, hlen]; rfl
  have hsplit : s.swarm.insertionSort costLE =
      (s.swarm.insertionSort costLE).take 450 ++
        ((s.swarm.insertionSort costLE).drop 450).reverse.reverse ++ [] := by
    simp
  obtain ⟨fl, g1, hft, hloop⟩ := reseedLoop_eq sqrtF hc
    ((s.swarm.insertionSort costLE).drop 450).reverse
    ((s.swarm.insertionSort costLE).take 450) [] 0 s.rng
    (by simp [hslen, NUM_PARTICLES])
    (by
      intro p hp
      rw [List.mem_reverse] at hp
      exact hpos p ((List.mem_insertionSort costLE).1 (List.mem_of_mem_drop hp)))
  have h50 : ((s.swarm.insertionSort costLE).drop 450).reverse.length = 50 := by
    simp [hslen]
  rw [h50] at hft hloop
  refine ⟨fl, g1, hft, ?_⟩
  unfold pruneParticles
  simp only [prune_count_eq]
  rw [hsplit, hloop]
  simp

/-! ## Changing the cost type

When two square-root parameters give the same cost to every route up to a
strictly monotone map `f`, a particle update and a seeding commute with `f`. -/

theorem freshParticle_map {α β : Type} [AddMonoid α] [AddMonoid β] {f : α → β}
    {sA : Int → α} {sB : Int → β} {cities : List City}
    (hcost : ∀ route, calculateCost sB cities route = (calculateCost sA cities route).map f)
    {g g1 : Rng} {p : Particle α} (h : freshParticle sA cities g = some (p, g1)) :
    freshParticle sB cities g = some (p.map f, g1) := by
  unfold freshParticle at h ⊢
  simp only [Option.bind_eq_bind] at h ⊢
  obtain ⟨⟨v0, k0⟩, e0, h⟩ := Option.bind_eq_some.1 h
  obtain ⟨c, e1, h⟩ := Option.bind_eq_some.1 h
  simp only [Option.some.injEq, Prod.mk.injEq] at h
  obtain ⟨rfl, rfl⟩ := h
  simp only [e0, Option.some_bind, hcost, e1, Option.map_some']
  rfl

section MapLemmas

variable {α β : Type} [LinearOrder α] [AddMonoid α] [LinearOrder β] [AddMonoid β]

theorem updateParticle_map {f : α → β} (hf : StrictMono f) {sA : Int → α} {sB : Int → β}
    {cities : List City}
    (hcost : ∀ route, calculateCost sB cities route = (calculateCost sA cities route).map f)
    {p q : Particle α} {gbp gbp1 : List Nat} {gbc gbc1 : α} {g g1 : Rng}
    (h : updateParticle sA cities p gbp gbc g = some (q, gbp1, gbc1, g1)) :
    updateParticle sB cities (p.map f) gbp (f gbc) g = some (q.map f, gbp1, f gbc1, g1) := by
  unfold updateParticle at h ⊢
  simp only [Option.bind_eq_bind] at h ⊢
  obtain ⟨⟨v0, k0⟩, e0, h⟩ := Option.bind_eq_some.1 h
  obtain ⟨⟨v1, k1⟩, e1, h⟩ := Option.bind_eq_some.1 h
  obtain ⟨⟨v2, k2⟩, e2, h⟩ := Option.bind_eq_some.1 h
  obtain ⟨c, e3, h⟩ := Option.bind_eq_some.1 h
  have hp1 : (p.map f).position = p.position := rfl
  have hp2 : (p.map f).best_position = p.best_position := rfl
  have hp3 : (p.map f).best_cost = f p.best_cost := rfl
  simp only [Option.some.injEq, Prod.mk.injEq] at h
  obtain ⟨rfl, rfl, rfl, rfl⟩ := h
  simp only [hp1, hp2, hp3, e0, e1, e2, Option.some_bind, hcost, e3, Option.map_some',
    hf.lt_iff_lt, Option.some.injEq, Prod.mk.injEq, and_true]
  refine ⟨?_, ?_, ?_⟩
  · by_cases hlt : c < p.best_cost <;> simp [hlt, Particle.map]
  · by_cases hlt : c < gbc <;> simp [hlt]
  · by_cases hlt : c < gbc <;> simp [hlt]

end MapLemmas

/-! ## Whole-number distances

On a city set where `isqrt` is exact on every squared distance, the cost over
the reals is the cost computed with `isqrt`. -/

theorem edgeCost_real_of_exact {cities : List City}
    (hexact : ∀ ca ∈ cities, ∀ cb ∈ cities,
      ((isqrt ((ca.x - cb.x) * (ca.x - cb.x) + (ca.y - cb.y) * (ca.y - cb.y)) : ℕ) : ℤ) *
        (isqrt ((ca.x - cb.x) * (ca.x - cb.x) + (ca.y - cb.y) * (ca.y - cb.y)) : ℕ) =
      (ca.x - cb.x) * (ca.x - cb.x) + (ca.y - cb.y) * (ca.y - cb.y)) (a b : Nat) :
    edgeCost (fun z : ℤ => Real.sqrt (z : ℝ)) cities a b =
      (edgeCost isqrt cities a b).map (fun n : ℕ => (n : ℝ)) := by
  unfold edgeCost
  cases ha : cities[a]? with
  | none => rfl
  | some ca =>
    cases hb : cities[b]? with
    | none => rfl
    | some cb =>
      have hca : ca ∈ cities := List.mem_iff_getElem?.2 ⟨a, ha⟩
      have hcb : cb ∈ cities := List.mem_iff_getElem?.2 ⟨b, hb⟩
      have h := hexact ca hca cb hcb
      simp only [Option.bind_eq_bind, Option.some_bind, Option.pure_def, Option.map_some',
        Option.some.injEq]
      generalize (ca.x - cb.x) * (ca.x - cb.x) + (ca.y - cb.y) * (ca.y - cb.y) = d at h ⊢
      generalize isqrt d = m at h ⊢
      rw [← h]
      push_cast
      exact Real.sqrt_mul_self (Nat.cast_nonneg _)

theorem costLoop_real_of_exact {cities : List City}
    (hedge : ∀ a b, edgeCost (fun z : ℤ => Real.sqrt (z : ℝ)) cities a b =
      (edgeCost isqrt cities a b).map (fun n : ℕ => (n : ℝ))) :
    ∀ (route : List Nat) (t : ℕ),
      costLoop (fun z : ℤ => Real.sqrt (z : ℝ)) cities route (t : ℝ) =
        (costLoop isqrt cities route t).map (fun n : ℕ => (n : ℝ))
  | [], t => rfl
  | [_], t => rfl
  | a :: b :: rest, t => by
    rw [costLoop, costLoop, hedge]
    cases edgeCost isqrt cities a b with
    | none => rfl
    | some d =>
      simp only [Option.map_some', Option.bind_eq_bind, Option.some_bind]
      rw [← Nat.cast_add]
      exact costLoop_real_of_exact hedge (b :: rest) (t + d)

theorem calculateCost_real_of_exact {cities : List City}
    (hedge : ∀ a b, edgeCost (fun z : ℤ => Real.sqrt (z : ℝ)) cities a b =
      (edgeCost isqrt cities a b).map (fun n : ℕ => (n : ℝ))) (route : List Nat) :
    calculateCost (fun z : ℤ => Real.sqrt (z : ℝ)) cities route =
      (calculateCost isqrt cities route).map (fun n : ℕ => (n : ℝ)) := by
  unfold calculateCost
  have h0 := costLoop_real_of_exact hedge route 0
  rw [Nat.cast_zero] at h0
  simp only [Option.bind_eq_bind, h0]
  cases costLoop isqrt cities route 0 with
  | none => rfl
  | some t =>
    simp only [Option.map_some', Option.some_bind]
    cases route.head? with
    | none => rfl
    | some st =>
      simp only [Option.some_bind]
      cases route.getLast? with
      | none => rfl
      | some en =>
        simp only [Option.some_bind, hedge]
        cases edgeCost isqrt cities st en with
        | none => rfl
        | some d => simp

/-! ## The invariant is kept -/

theorem ParticleStep.tours {sqrtF : Int → α} {cities : List City} {ps qs : List (Particle α)}
    (h : List.Forall₂ (ParticleStep sqrtF cities) ps qs)
    (hb : ∀ p ∈ ps, IsTour p.best_position) :
    ∀ q ∈ qs, IsTour q.position ∧ IsTour q.best_position := by
  induction h with
  | nil => intro q hq; exact absurd hq (List.not_mem_nil _)
  | @cons p q ps qs hstep _ ih =>
    intro r hr
    rcases List.mem_cons.1 hr with rfl | hr
    · obtain ⟨h1, _, h3 | h3⟩ := hstep
      · exact ⟨h1, by rw [h3.2.2]; exact h1⟩
      · exact ⟨h1, by rw [h3.2.2]; exact hb p (by simp)⟩
    · exact ih (fun p hp => hb p (List.mem_cons_of_mem _ hp)) r hr

theorem updatePhase_spec (sqrtF : Int → α) {cities : List City}
    (hc : cities.length = NUM_CITIES) (s : State α) (hs : Inv s) :
    ∃ s1, updatePhase sqrtF cities s = some s1 ∧ Inv s1 ∧
      List.Forall₂ (ParticleStep sqrtF cities) s.swarm s1.swarm ∧
      BestAfter s.global_best_position s.global_best_cost s1.swarm
        s1.global_best_position s1.global_best_cost := by
  obtain ⟨qs, gbp1, gbc1, g1, hloop, hall, hbest⟩ :=
    updateLoop_spec sqrtF hc s.swarm s.global_best_position s.global_best_cost s.rng
      hs.position_tour hs.best_tour hs.global_tour
  have htours := ParticleStep.tours hall hs.best_tour
  refine ⟨{ swarm := qs, global_best_position := gbp1, global_best_cost := gbc1, rng := g1 },
    ?_, ?_, hall, hbest⟩
  · simp only [updatePhase, hloop, Option.bind_eq_bind, Option.some_bind]
  · exact
      { swarm_len := by rw [← hall.length_eq]; exact hs.swarm_len
        position_tour := fun q hq => (htours q hq).1
        best_tour := fun q hq => (htours q hq).2
        global_tour := hbest.isTour (fun q hq => (htours q hq).1) (Or.inl hs.global_tour) }

theorem pruneParticles_inv (sqrtF : Int → α) {cities : List City}
    (hc : cities.length = NUM_CITIES) (s : State α) (hs : Inv s) :
    ∃ fl g1, freshTail sqrtF cities 50 s.rng = some (fl, g1) ∧
      pruneParticles sqrtF cities s =
        some { swarm := (s.swarm.insertionSort costLE).take 450 ++ fl
               global_best_position := s.global_best_position
               global_best_cost := s.global_best_cost
               rng := g1 } ∧
      Inv ({ swarm := (s.swarm.insertionSort costLE).take 450 ++ fl
             global_best_position := s.global_best_position
             global_best_cost := s.global_best_cost
             rng := g1 } : State α) := by
  obtain ⟨fl, g1, hft, hprune⟩ := pruneParticles_spec sqrtF hc s hs.swarm_len
    (fun p hp => (hs.position_tour p hp).length_eq)
  obtain ⟨fl', g1', hft', hlen, hfresh⟩ := freshTail_spec sqrtF hc 50 s.rng
  rw [hft] at hft'
  simp only [Option.some.injEq, Prod.mk.injEq] at hft'
  obtain ⟨rfl, rfl⟩ := hft'
  have hmem : ∀ p ∈ (s.swarm.insertionSort costLE).take 450 ++ fl,
      p ∈ s.swarm ∨ IsFresh sqrtF cities p := by
    intro p hp
    rcases List.mem_append.1 hp with hp | hp
    · exact Or.inl ((List.mem_insertionSort costLE).1 (List.mem_of_mem_take hp))
    · exact Or.inr (hfresh p hp)
  refine ⟨fl, g1, hft, hprune, ?_⟩
  exact
    { swarm_len := by
        simp only [List.length_append, List.length_take, List.length_insertionSort,
          hs.swarm_len, hlen]
        rfl
      position_tour := fun p hp => by
        rcases hmem p hp with h | h
        · exact hs.position_tour p h
        · exact h.1
      best_tour := fun p hp => by
        rcases hmem p hp with h | h
        · exact hs.best_tour p h
        · rw [h.2.2.1]; exact h.1
      global_tour := hs.global_tour }

theorem updateParticles_inv (sqrtF : Int → α) {cities : List City}
    (hc : cities.length = NUM_CITIES) (iteration : Nat) (s : State α) (hs : Inv s) :
    ∃ s1, updateParticles sqrtF cities iteration s = some s1 ∧ Inv s1 := by
  obtain ⟨s1, h1, hinv1, _, _⟩ := updatePhase_spec sqrtF hc s hs
  obtain ⟨fl, g1, _, h2, hinv2⟩ := pruneParticles_inv sqrtF hc s1 hinv1
  exact ⟨_, by simp only [updateParticles, h1, Option.bind_eq_bind, Option.some_bind, h2], hinv2⟩

theorem mainLoop_inv (sqrtF : Int → α) {cities : List City}
    (hc : cities.length = NUM_CITIES) (k : Nat) : ∀ (iteration : Nat) (s : State α), Inv s →
    ∃ s1, mainLoop sqrtF cities k iteration s = some s1 ∧ Inv s1 := by
  induction k with
  | zero => intro _ s hs; exact ⟨s, rfl, hs⟩
  | succ k ih =>
    intro iteration s hs
    obtain ⟨s1, h1, hinv1⟩ := updateParticles_inv sqrtF hc iteration s hs
    obtain ⟨s2, h2, hinv2⟩ := ih (iteration + 1) s1 hinv1
    exact ⟨s2, by simp only [mainLoop, h1, Option.bind_eq_bind, Option.some_bind, h2], hinv2⟩

theorem initLoop_spec (sqrtF : Int → α) {cities : List City}
    (hc : cities.length = NUM_CITIES) :
    ∀ (ps : List (Particle α)) (gbp : List Nat) (gbc : α) (g : Rng),
      ∃ qs gbp1 gbc1 g1, initLoop sqrtF cities ps gbp gbc g = some (qs, gbp1, gbc1, g1) ∧
        qs.length = ps.length ∧ (∀ q ∈ qs, IsFresh sqrtF cities q) ∧
        BestAfter gbp gbc qs gbp1 gbc1
  | [], gbp, gbc, g =>
    ⟨[], gbp, gbc, g, rfl, rfl, fun _ hq => absurd hq (List.not_mem_nil _), BestAfter.nil gbp gbc⟩
  | _ :: ps, gbp, gbc, g => by
    obtain ⟨pos, g1, h1, ht⟩ := shuffle_isTour isTour_range g
    obtain ⟨c, h2⟩ := calculateCost_isSome_of_isTour sqrtF hc ht
    obtain ⟨qs, gbp1, gbc1, g2, hloop, hlen, hfresh, hbest⟩ :=
      initLoop_spec sqrtF hc ps (if c < gbc then pos else gbp) (if c < gbc then c else gbc) g1
    refine ⟨{ position := pos, best_position := pos, best_cost := c, cost := c } :: qs,
      gbp1, gbc1, g2, ?_, by simp [hlen], ?_, BestAfter.cons hbest⟩
    · simp only [initLoop, h1, h2, Option.bind_eq_bind, Option.some_bind]
      by_cases hlt : c < gbc
      · simp only [hlt, if_true] at hloop
        simp [hlt, hloop]
      · simp only [hlt, if_false] at hloop
        simp [hlt, hloop]
    · intro q hq
      rcases List.mem_cons.1 hq with rfl | hq
      · exact ⟨ht, h2, rfl, rfl⟩
      · exact hfresh q hq

theorem initializeParticles_spec (sqrtF : Int → α) {cities : List City}
    (hc : cities.length = NUM_CITIES) (s : State α) :
    ∃ s1, initializeParticles sqrtF cities s = some s1 ∧
      s1.swarm.length = s.swarm.length ∧ (∀ q ∈ s1.swarm, IsFresh sqrtF cities q) ∧
      BestAfter s.global_best_position s.global_best_cost s1.swarm
        s1.global_best_position s1.global_best_cost := by
  obtain ⟨qs, gbp1, gbc1, g1, hloop, hlen, hfresh, hbest⟩ :=
    initLoop_spec sqrtF hc s.swarm s.global_best_position s.global_best_cost s.rng
  exact ⟨{ swarm := qs, global_best_position := gbp1, global_best_cost := gbc1, rng := g1 },
    by simp only [initializeParticles, hloop, Option.bind_eq_bind, Option.some_bind],
    hlen, hfresh, hbest⟩

theorem initializeParticles_inv (sqrtF : Int → α) {cities : List City}
    (hc : cities.length = NUM_CITIES) (s : State α) (hlen : s.swarm.length = NUM_PARTICLES)
    (hg : IsTour s.global_best_position ∨ AboveAllCosts sqrtF cities s.global_best_cost) :
    ∃ s1, initializeParticles sqrtF cities s = some s1 ∧ Inv s1 ∧
      (∀ q ∈ s1.swarm, IsFresh sqrtF cities q) ∧
      BestAfter s.global_best_position s.global_best_cost s1.swarm
        s1.global_best_position s1.global_best_cost := by
  obtain ⟨s1, h1, hlen1, hfresh, hbest⟩ := initializeParticles_spec sqrtF hc s
  refine ⟨s1, h1, ?_, hfresh, hbest⟩
  have hne : s1.swarm ≠ [] := by
    intro h
    rw [h, hlen] at hlen1
    exact absurd hlen1 (show ¬ ([] : List (Particle α)).length = NUM_PARTICLES by
      simp [NUM_PARTICLES])
  exact
    { swarm_len := by rw [hlen1, hlen]
      position_tour := fun q hq => (hfresh q hq).1
      best_tour := fun q hq => by rw [(hfresh q hq).2.2.1]; exact (hfresh q hq).1
      global_tour := hbest.isTour (fun q hq => (hfresh q hq).1) (by
        rcases hg with hg | hg
        · exact Or.inl hg
        · obtain ⟨q, hq⟩ := List.exists_mem_of_ne_nil _ hne
          exact Or.inr ⟨q, hq, hg _ _ (hfresh q hq).1 (hfresh q hq).2.1⟩) }

/-! ## What one particle update writes -/

theorem updateParticle_inv_eq (sqrtF : Int → α) (cities : List City) {p q : Particle α}
    {gbp gbp1 : List Nat} {gbc gbc1 : α} {g g1 : Rng}
    (h : updateParticle sqrtF cities p gbp gbc g = some (q, gbp1, gbc1, g1)) :
    calculateCost sqrtF cities q.position = some q.cost ∧
      q = (if q.cost < p.best_cost then
            { position := q.position, best_position := q.position,
              best_cost := q.cost, cost := q.cost }
          else
            { position := q.position, best_position := p.best_position,
              best_cost := p.best_cost, cost := q.cost }) ∧
      gbp1 = (if q.cost < gbc then q.position else gbp) ∧
      gbc1 = (if q.cost < gbc then q.cost else gbc) := by
  unfold updateParticle at h
  simp only [Option.bind_eq_bind] at h
  obtain ⟨⟨v0, k0⟩, _, h⟩ := Option.bind_eq_some.1 h
  obtain ⟨⟨v1, k1⟩, _, h⟩ := Option.bind_eq_some.1 h
  obtain ⟨⟨v2, k2⟩, _, h⟩ := Option.bind_eq_some.1 h
  obtain ⟨c, hc, h⟩ := Option.bind_eq_some.1 h
  simp only [Option.some.injEq, Prod.mk.injEq] at h
  obtain ⟨h1, h2, h3, _⟩ := h
  have hpos : q.position = v2 := by
    rw [← h1]; split <;> rfl
  have hcost : q.cost = c := by
    rw [← h1]; split <;> rfl
  rw [hpos, hcost]
  refine ⟨hc, h1.symm, ?_, ?_⟩
  · rw [← h2]; split <;> rfl
  · rw [← h3]; split <;> rfl

/-! ## The global best never rises, whatever the state -/

theorem updateParticle_gbc_le (sqrtF : Int → α) (cities : List City) {p q : Particle α}
    {gbp gbp1 : List Nat} {gbc gbc1 : α} {g g1 : Rng}
    (h : updateParticle sqrtF cities p gbp gbc g = some (q, gbp1, gbc1, g1)) : gbc1 ≤ gbc := by
  unfold updateParticle at h
  simp only [Option.bind_eq_bind] at h
  obtain ⟨⟨v0, k0⟩, _, h⟩ := Option.bind_eq_some.1 h
  obtain ⟨⟨v1, k1⟩, _, h⟩ := Option.bind_eq_some.1 h
  obtain ⟨⟨v2, k2⟩, _, h⟩ := Option.bind_eq_some.1 h
  obtain ⟨c, _, h⟩ := Option.bind_eq_some.1 h
  simp only [Option.some.injEq, Prod.mk.injEq] at h
  obtain ⟨_, _, h3, _⟩ := h
  rw [← h3]
  by_cases hlt : c < gbc
  · simp only [hlt, if_true]; exact le_of_lt hlt
  · simp only [hlt, if_false]; exact le_refl gbc

theorem updateLoop_gbc_le (sqrtF : Int → α) (cities : List City) :
    ∀ (ps qs : List (Particle α)) (gbp gbp1 : List Nat) (gbc gbc1 : α) (g g1 : Rng),
      updateLoop sqrtF cities ps gbp gbc g = some (qs, gbp1, gbc1, g1) → gbc1 ≤ gbc
  | [], qs, gbp, gbp1, gbc, gbc1, g, g1, h => by
    simp only [updateLoop, Option.some.injEq, Prod.mk.injEq] at h
    exact le_of_eq h.2.2.1.symm
  | p :: ps, qs, gbp, gbp1, gbc, gbc1, g, g1, h => by
    unfold updateLoop at h
    simp only [Option.bind_eq_bind] at h
    obtain ⟨⟨q, gbp2, gbc2, g2⟩, e1, h⟩ := Option.bind_eq_some.1 h
    obtain ⟨⟨qs2, gbp3, gbc3, g3⟩, e2, h⟩ := Option.bind_eq_some.1 h
    simp only [Option.some.injEq, Prod.mk.injEq] at h
    obtain ⟨_, _, rfl, _⟩ := h
    exact le_trans (updateLoop_gbc_le sqrtF cities ps qs2 gbp2 gbp3 gbc2 gbc3 g2 g3 e2)
      (updateParticle_gbc_le sqrtF cities e1)

theorem pruneParticles_global (sqrtF : Int → α) (cities : List City) {s s1 : State α}
    (h : pruneParticles sqrtF cities s = some s1) :
    s1.global_best_position = s.global_best_position ∧
      s1.global_best_cost = s.global_best_cost := by
  unfold pruneParticles at h
  simp only [Option.bind_eq_bind] at h
  obtain ⟨r, _, h⟩ := Option.bind_eq_some.1 h
  simp only [Option.some.injEq] at h
  rw [← h]
  exact ⟨rfl, rfl⟩

theorem updateParticles_gbc_le (sqrtF : Int → α) (cities : List City) {iteration : Nat}
    {s s1 : State α} (h : updateParticles sqrtF cities iteration s = some s1) :
    s1.global_best_cost ≤ s.global_best_cost := by
  unfold updateParticles at h
  simp only [Option.bind_eq_bind] at h
  obtain ⟨s2, e1, e2⟩ := Option.bind_eq_some.1 h
  rw [(pruneParticles_global sqrtF cities e2).2]
  unfold updatePhase at e1
  simp only [Option.bind_eq_bind] at e1
  obtain ⟨⟨qs, gbp1, gbc1, g1⟩, e3, e4⟩ := Option.bind_eq_some.1 e1
  simp only [Option.some.injEq] at e4
  rw [← e4]
  exact updateLoop_gbc_le sqrtF cities _ _ _ _ _ _ _ _ e3

/-! ## Runs -/

theorem mainLoop_succ (sqrtF : Int → α) (cities : List City) (k : Nat) :
    ∀ (iteration : Nat) (s : State α),
      mainLoop sqrtF cities (k + 1) iteration s =
        (mainLoop sqrtF cities k iteration s).bind
          (fun s1 => updateParticles sqrtF cities (iteration + k) s1) := by
  induction k with
  | zero =>
    intro iteration s
    simp only [mainLoop, Option.bind_eq_bind, Option.some_bind, Nat.add_zero]
    cases updateParticles sqrtF cities iteration s <;> rfl
  | succ k ih =>
    intro iteration s
    rw [mainLoop]
    cases h : updateParticles sqrtF cities iteration s with
    | none => simp [mainLoop, h]
    | some s1 =>
      simp only [Option.bind_eq_bind, Option.some_bind]
      rw [ih (iteration + 1) s1]
      simp only [mainLoop, h, Option.bind_eq_bind, Option.some_bind]
      rw [show iteration + 1 + k = iteration + (k + 1) by omega]

theorem runIterations_inv (sqrtF : Int → α) {cities : List City}
    (hc : cities.length = NUM_CITIES) (fltMax : α) (g : Rng)
    (hmax : AboveAllCosts sqrtF cities fltMax) (j : Nat) :
    ∃ sj, runIterations sqrtF cities fltMax g j = some sj ∧ Inv sj := by
  obtain ⟨s0, h0, hinv0, _, _⟩ := initializeParticles_inv sqrtF hc (initialState fltMax g)
    (by simp [initialState]) (Or.inr hmax)
  obtain ⟨sj, hj, hinvj⟩ := mainLoop_inv sqrtF hc j 0 s0 hinv0
  exact ⟨sj, by simp only [runIterations, h0, Option.bind_eq_bind, Option.some_bind, hj], hinvj⟩

theorem runIterations_succ (sqrtF : Int → α) (cities : List City) (fltMax : α) (g : Rng)
    (j : Nat) :
    runIterations sqrtF cities fltMax g (j + 1) =
      (runIterations sqrtF cities fltMax g j).bind
        (fun s1 => updateParticles sqrtF cities j s1) := by
  simp only [runIterations, Option.bind_eq_bind]
  cases initializeParticles sqrtF cities (initialState fltMax g) with
  | none => rfl
  | some s0 =>
    simp only [Option.some_bind]
    rw [mainLoop_succ, Nat.zero_add]

theorem updateParticles_spec (sqrtF : Int → α) {cities : List City}
    (hc : cities.length = NUM_CITIES) (iteration : Nat) (s : State α) (hs : Inv s) :
    ∃ s1 fl g2, updatePhase sqrtF cities s = some s1 ∧ Inv s1 ∧
      List.Forall₂ (ParticleStep sqrtF cities) s.swarm s1.swarm ∧
      BestAfter s.global_best_position s.global_best_cost s1.swarm
        s1.global_best_position s1.global_best_cost ∧
      freshTail sqrtF cities 50 s1.rng = some (fl, g2) ∧
      updateParticles sqrtF cities iteration s =
        some { swarm := (s1.swarm.insertionSort costLE).take 450 ++ fl
               global_best_position := s1.global_best_position
               global_best_cost := s1.global_best_cost
               rng := g2 } := by
  obtain ⟨s1, h1, hinv1, hstep, hbest⟩ := updatePhase_spec sqrtF hc s hs
  obtain ⟨fl, g2, hft, h2, _⟩ := pruneParticles_inv sqrtF hc s1 hinv1
  exact ⟨s1, fl, g2, h1, hinv1, hstep, hbest, hft,
    by simp only [updateParticles, h1, Option.bind_eq_bind, Option.some_bind, h2]⟩

/-! ## Consistency of the stored costs -/

theorem BestAfter.pair_consistent {sqrtF : Int → α} {cities : List City} {gbp : List Nat} {gbc : α}
    {qs : List (Particle α)} {gbp1 : List Nat} {gbc1 : α} (h : BestAfter gbp gbc qs gbp1 gbc1)
    (hq : ∀ q ∈ qs, IsTour q.position ∧ calculateCost sqrtF cities q.position = some q.cost)
    (h0 : (IsTour gbp ∧ calculateCost sqrtF cities gbp = some gbc) ∨ ∃ q ∈ qs, q.cost < gbc) :
    IsTour gbp1 ∧ calculateCost sqrtF cities gbp1 = some gbc1 := by
  rcases h with ⟨h1, h2, h3⟩ | ⟨_, pre, q, post, h2, h3, h4, _, _⟩
  · rcases h0 with h0 | ⟨q, hq1, hlt⟩
    · rw [h1, h2]; exact h0
    · exact absurd hlt (not_lt.2 (h3 q hq1))
  · have hmem := hq q (by rw [h2]; simp)
    rw [← h3, ← h4]; exact hmem

theorem IsFresh.to_consistent {sqrtF : Int → α} {cities : List City} {q : Particle α}
    (h : IsFresh sqrtF cities q) : Consistent sqrtF cities q :=
  ⟨h.2.1, by rw [h.2.2.1, h.2.2.2]; exact h.2.1, le_of_eq h.2.2.2, by rw [h.2.2.1]; exact h.1⟩

theorem ParticleStep.consistent {sqrtF : Int → α} {cities : List City} {p q : Particle α}
    (h : ParticleStep sqrtF cities p q) (hb : IsTour p.best_position)
    (hbc : calculateCost sqrtF cities p.best_position = some p.best_cost) :
    Consistent sqrtF cities q := by
  obtain ⟨h1, h2, h3 | h3⟩ := h
  · obtain ⟨_, e1, e2⟩ := h3
    exact ⟨h2, by rw [e2, e1]; exact h2, le_of_eq e1, by rw [e2]; exact h1⟩
  · obtain ⟨hn, e1, e2⟩ := h3
    exact ⟨h2, by rw [e2, e1]; exact hbc, by rw [e1]; exact not_lt.1 hn, by rw [e2]; exact hb⟩

theorem ParticleStep.allConsistent {sqrtF : Int → α} {cities : List City}
    {ps qs : List (Particle α)} (h : List.Forall₂ (ParticleStep sqrtF cities) ps qs)
    (hb : ∀ p ∈ ps, IsTour p.best_position ∧
      calculateCost sqrtF cities p.best_position = some p.best_cost) :
    ∀ q ∈ qs, Consistent sqrtF cities q := by
  induction h with
  | nil => intro q hq; exact absurd hq (List.not_mem_nil _)
  | @cons p q ps qs hstep _ ih =>
    intro r hr
    rcases List.mem_cons.1 hr with rfl | hr
    · exact hstep.consistent (hb p (by simp)).1 (hb p (by simp)).2
    · exact ih (fun p hp => hb p (List.mem_cons_of_mem _ hp)) r hr

theorem ParticleStep.costs {sqrtF : Int → α} {cities : List City} {ps qs : List (Particle α)}
    (h : List.Forall₂ (ParticleStep sqrtF cities) ps qs) :
    ∀ q ∈ qs, IsTour q.position ∧ calculateCost sqrtF cities q.position = some q.cost := by
  induction h with
  | nil => intro q hq; exact absurd hq (List.not_mem_nil _)
  | @cons p q ps qs hstep _ ih =>
    intro r hr
    rcases List.mem_cons.1 hr with rfl | hr
    · exact ⟨hstep.1, hstep.2.1⟩
    · exact ih r hr

theorem updatePhase_globalConsistent (sqrtF : Int → α) {cities : List City}
    (hc : cities.length = NUM_CITIES) (s : State α) (hs : Inv s)
    (hg : GlobalConsistent sqrtF cities s) :
    ∃ s1, updatePhase sqrtF cities s = some s1 ∧ Inv s1 ∧ GlobalConsistent sqrtF cities s1 ∧
      ((s1.global_best_position = s.global_best_position ∧
          s1.global_best_cost = s.global_best_cost) ∨
        ∃ q ∈ s1.swarm, q.position = s1.global_best_position ∧
          q.cost = s1.global_best_cost) := by
  obtain ⟨s1, h1, hinv1, hstep, hbest⟩ := updatePhase_spec sqrtF hc s hs
  exact ⟨s1, h1, hinv1, hbest.pair_consistent (ParticleStep.costs hstep) (Or.inl hg), hbest.source⟩

theorem updateParticles_globalConsistent (sqrtF : Int → α) {cities : List City}
    (hc : cities.length = NUM_CITIES) (iteration : Nat) (s : State α) (hs : Inv s)
    (hg : GlobalConsistent sqrtF cities s) :
    ∃ s1, updateParticles sqrtF cities iteration s = some s1 ∧ Inv s1 ∧
      GlobalConsistent sqrtF cities s1 := by
  obtain ⟨s1, h1, hinv1, hg1, _⟩ := updatePhase_globalConsistent sqrtF hc s hs hg
  obtain ⟨fl, g1, _, h2, hinv2⟩ := pruneParticles_inv sqrtF hc s1 hinv1
  exact ⟨_, by simp only [updateParticles, h1, Option.bind_eq_bind, Option.some_bind, h2],
    hinv2, hg1⟩

theorem updatePhase_consistent (sqrtF : Int → α) {cities : List City}
    (hc : cities.length = NUM_CITIES) (s : State α) (hs : Inv s)
    (hb : ∀ p ∈ s.swarm, calculateCost sqrtF cities p.best_position = some p.best_cost) :
    ∃ s1, updatePhase sqrtF cities s = some s1 ∧ Inv s1 ∧
      (∀ q ∈ s1.swarm, Consistent sqrtF cities q) ∧
      (GlobalConsistent sqrtF cities s → GlobalConsistent sqrtF cities s1) ∧
      ((s1.global_best_position = s.global_best_position ∧
          s1.global_best_cost = s.global_best_cost) ∨
        ∃ q ∈ s1.swarm, q.position = s1.global_best_position ∧
          q.cost = s1.global_best_cost) := by
  obtain ⟨s1, h1, hinv1, hstep, hbest⟩ := updatePhase_spec sqrtF hc s hs
  have hcons := ParticleStep.allConsistent hstep (fun p hp => ⟨hs.best_tour p hp, hb p hp⟩)
  refine ⟨s1, h1, hinv1, hcons, ?_, hbest.source⟩
  intro hg
  exact hbest.pair_consistent (fun q hq => ⟨hinv1.position_tour q hq, (hcons q hq).1⟩) (Or.inl hg)

theorem pruneParticles_consistent (sqrtF : Int → α) {cities : List City}
    (hc : cities.length = NUM_CITIES) (s : State α) (hs : Inv s)
    (hcons : ∀ p ∈ s.swarm, Consistent sqrtF cities p) :
    ∃ s1, pruneParticles sqrtF cities s = some s1 ∧ Inv s1 ∧
      (∀ q ∈ s1.swarm, Consistent sqrtF cities q) ∧
      s1.global_best_position = s.global_best_position ∧
      s1.global_best_cost = s.global_best_cost := by
  obtain ⟨fl, g1, hft, hprune, hinv⟩ := pruneParticles_inv sqrtF hc s hs
  obtain ⟨fl2, g2, hft2, _, hfresh⟩ := freshTail_spec sqrtF hc 50 s.rng
  rw [hft] at hft2
  simp only [Option.some.injEq, Prod.mk.injEq] at hft2
  obtain ⟨rfl, rfl⟩ := hft2
  refine ⟨_, hprune, hinv, ?_, rfl, rfl⟩
  intro p hp
  rcases List.mem_append.1 hp with hp | hp
  · exact hcons p ((List.mem_insertionSort costLE).1 (List.mem_of_mem_take hp))
  · exact (hfresh p hp).to_consistent

theorem updateParticles_consistent (sqrtF : Int → α) {cities : List City}
    (hc : cities.length = NUM_CITIES) (iteration : Nat) (s : State α) (hs : Inv s)
    (hb : ∀ p ∈ s.swarm, calculateCost sqrtF cities p.best_position = some p.best_cost) :
    ∃ s1, updateParticles sqrtF cities iteration s = some s1 ∧ Inv s1 ∧
      (∀ q ∈ s1.swarm, Consistent sqrtF cities q) ∧
      (GlobalConsistent sqrtF cities s → GlobalConsistent sqrtF cities s1) := by
  obtain ⟨s1, h1, hinv1, hcons1, hg1, _⟩ := updatePhase_consistent sqrtF hc s hs hb
  obtain ⟨s2, h2, hinv2, hcons2, e1, e2⟩ := pruneParticles_consistent sqrtF hc s1 hinv1 hcons1
  refine ⟨s2, by simp only [updateParticles, h1, Option.bind_eq_bind, Option.some_bind, h2],
    hinv2, hcons2, ?_⟩
  intro hg
  have h := hg1 hg
  unfold GlobalConsistent at h ⊢
  rw [e1, e2]
  exact h

theorem initializeParticles_consistent (sqrtF : Int → α) {cities : List City}
    (hc : cities.length = NUM_CITIES) (s : State α)
    (hg : GlobalConsistent sqrtF cities s ∨
      (s.swarm ≠ [] ∧ AboveAllCosts sqrtF cities s.global_best_cost)) :
    ∃ s1, initializeParticles sqrtF cities s = some s1 ∧
      s1.swarm.length = s.swarm.length ∧
      (∀ q ∈ s1.swarm, IsTour q.position ∧ Consistent sqrtF cities q) ∧
      GlobalConsistent sqrtF cities s1 ∧
      ((s1.global_best_position = s.global_best_position ∧
          s1.global_best_cost = s.global_best_cost) ∨
        ∃ q ∈ s1.swarm, q.position = s1.global_best_position ∧
          q.cost = s1.global_best_cost) := by
  obtain ⟨s1, h1, hlen1, hfresh, hbest⟩ := initializeParticles_spec sqrtF hc s
  refine ⟨s1, h1, hlen1, fun q hq => ⟨(hfresh q hq).1, (hfresh q hq).to_consistent⟩, ?_,
    hbest.source⟩
  apply hbest.pair_consistent (fun q hq => ⟨(hfresh q hq).1, (hfresh q hq).2.1⟩)
  rcases hg with hg | ⟨hne, hmax⟩
  · exact Or.inl hg
  · have hne1 : s1.swarm ≠ [] := by
      intro h
      rw [h] at hlen1
      exact hne (List.length_eq_zero.1 hlen1.symm)
    obtain ⟨q, hq⟩ := List.exists_mem_of_ne_nil _ hne1
    exact Or.inr ⟨q, hq, hmax _ _ (hfresh q hq).1 (hfresh q hq).2.1⟩

theorem mainLoop_consistent (sqrtF : Int → α) {cities : List City}
    (hc : cities.length = NUM_CITIES) (k : Nat) : ∀ (iteration : Nat) (s : State α), Inv s →
    (∀ p ∈ s.swarm, Consistent sqrtF cities p) → GlobalConsistent sqrtF cities s →
    ∃ s1, mainLoop sqrtF cities k iteration s = some s1 ∧ Inv s1 ∧
      (∀ q ∈ s1.swarm, Consistent sqrtF cities q) ∧ GlobalConsistent sqrtF cities s1 := by
  induction k with
  | zero => intro _ s hs hcons hg; exact ⟨s, rfl, hs, hcons, hg⟩
  | succ k ih =>
    intro iteration s hs hcons hg
    obtain ⟨s1, h1, hinv1, hcons1, hg1⟩ :=
      updateParticles_consistent sqrtF hc iteration s hs (fun p hp => (hcons p hp).2.1)
    obtain ⟨s2, h2, hrest⟩ := ih (iteration + 1) s1 hinv1 hcons1 (hg1 hg)
    exact ⟨s2, by simp only [mainLoop, h1, Option.bind_eq_bind, Option.some_bind, h2], hrest⟩

theorem runIterations_consistent (sqrtF : Int → α) {cities : List City}
    (hc : cities.length = NUM_CITIES) (fltMax : α) (g : Rng)
    (hmax : AboveAllCosts sqrtF cities fltMax) (j : Nat) :
    ∃ sj, runIterations sqrtF cities fltMax g j = some sj ∧ Inv sj ∧
      (∀ q ∈ sj.swarm, Consistent sqrtF cities q) ∧ GlobalConsistent sqrtF cities sj := by
  obtain ⟨s0, h0, hinv0, hfresh, _⟩ := initializeParticles_inv sqrtF hc (initialState fltMax g)
    (by simp [initialState]) (Or.inr hmax)
  obtain ⟨s0b, h0b, _, _, hg0, _⟩ := initializeParticles_consistent sqrtF hc
    (initialState fltMax g)
    (Or.inr ⟨fun h => by
      have hl : (initialState fltMax g).swarm.length = NUM_PARTICLES := by simp [initialState]
      rw [h] at hl
      exact absurd hl (by simp [NUM_PARTICLES]), hmax⟩)
  rw [h0] at h0b
  simp only [Option.some.injEq] at h0b
  subst h0b
  obtain ⟨sj, hj, hrest⟩ := mainLoop_consistent sqrtF hc j 0 s0 hinv0
    (fun q hq => (hfresh q hq).to_consistent) hg0
  exact ⟨sj, by simp only [runIterations, h0, Option.bind_eq_bind, Option.some_bind, hj], hrest⟩

/-! ## The swarm operations on generators that agree -/

theorem updateParticle_agree (sqrtF : Int → α) (cities : List City)
    (p : Particle α) (gbp : List Nat) (gbc : α) {g h : Rng} {q : Particle α}
    {gbp1 : List Nat} {gbc1 : α} {g1 : Rng} (a : g.Agree h)
    (hyp : updateParticle sqrtF cities p gbp gbc g = some (q, gbp1, gbc1, g1)) :
    ∃ h1, updateParticle sqrtF cities p gbp gbc h = some (q, gbp1, gbc1, h1) ∧
      g1.Agree h1 := by
  unfold updateParticle at hyp ⊢
  simp only [Option.bind_eq_bind] at hyp ⊢
  obtain ⟨⟨v0, k0⟩, e0, hyp⟩ := Option.bind_eq_some.1 hyp
  obtain ⟨⟨v1, k1⟩, e1, hyp⟩ := Option.bind_eq_some.1 hyp
  obtain ⟨⟨v2, k2⟩, e2, hyp⟩ := Option.bind_eq_some.1 hyp
  obtain ⟨cost, e3, hyp⟩ := Option.bind_eq_some.1 hyp
  obtain ⟨h0, f0, a0⟩ := shuffle_agree a e0
  obtain ⟨h1, f1, a1⟩ := swapLoop_agree p.best_position gbp NUM_CITIES 0 v0 k0 h0 v1 k1 a0 e1
  obtain ⟨h2, f2, a2⟩ := applyMutationAndGaussian_agree a1 e2
  simp only [Option.some.injEq, Prod.mk.injEq] at hyp
  obtain ⟨hyp1, hyp2, hyp3, hyp4⟩ := hyp
  refine ⟨h2, ?_, by rw [← hyp4]; exact a2⟩
  simp only [f0, f1, f2, e3, Option.some_bind]
  simp only [Option.some.injEq, Prod.mk.injEq]
  exact ⟨hyp1, hyp2, hyp3, trivial⟩

theorem updateLoop_agree (sqrtF : Int → α) (cities : List City) :
    ∀ (ps : List (Particle α)) (gbp : List Nat) (gbc : α) (g h : Rng)
      (qs : List (Particle α)) (gbp1 : List Nat) (gbc1 : α) (g1 : Rng), g.Agree h →
      updateLoop sqrtF cities ps gbp gbc g = some (qs, gbp1, gbc1, g1) →
      ∃ h1, updateLoop sqrtF cities ps gbp gbc h = some (qs, gbp1, gbc1, h1) ∧ g1.Agree h1
  | [], gbp, gbc, g, h, qs, gbp1, gbc1, g1, a, hyp => by
    simp only [updateLoop, Option.some.injEq, Prod.mk.injEq] at hyp
    obtain ⟨e1, e2, e3, e4⟩ := hyp
    exact ⟨h, by simp only [updateLoop, e1, e2, e3], by rw [← e4]; exact a⟩
  | p :: ps, gbp, gbc, g, h, qs, gbp1, gbc1, g1, a, hyp => by
    unfold updateLoop at hyp ⊢
    simp only [Option.bind_eq_bind] at hyp ⊢
    obtain ⟨⟨q, gbp2, gbc2, g2⟩, e1, hyp⟩ := Option.bind_eq_some.1 hyp
    obtain ⟨⟨qs2, gbp3, gbc3, g3⟩, e2, hyp⟩ := Option.bind_eq_some.1 hyp
    obtain ⟨h2, f1, a2⟩ := updateParticle_agree sqrtF cities p gbp gbc a e1
    obtain ⟨h3, f2, a3⟩ := updateLoop_agree sqrtF cities ps gbp2 gbc2 g2 h2 qs2 gbp3 gbc3 g3 a2 e2
    simp only [Option.some.injEq, Prod.mk.injEq] at hyp
    obtain ⟨hyp1, hyp2, hyp3, hyp4⟩ := hyp
    refine ⟨h3, ?_, by rw [← hyp4]; exact a3⟩
    simp only [f1, f2, Option.some_bind]
    simp only [Option.some.injEq, Prod.mk.injEq]
    exact ⟨hyp1, hyp2, hyp3, trivial⟩

theorem pruneParticles_agree (sqrtF : Int → α) (cities : List City) {s t s1 : State α}
    (a : s.Agree t) (hyp : pruneParticles sqrtF cities s = some s1) :
    ∃ t1, pruneParticles sqrtF cities t = some t1 ∧ s1.Agree t1 := by
  obtain ⟨a1, a2, a3, a4⟩ := a
  unfold pruneParticles at hyp ⊢
  simp only [Option.bind_eq_bind] at hyp ⊢
  obtain ⟨⟨out, g1⟩, e1, hyp⟩ := Option.bind_eq_some.1 hyp
  obtain ⟨h1, f1, b1⟩ := reseedLoop_agree sqrtF cities _ 0 _ s.rng t.rng out g1 a4 e1
  rw [a1] at f1
  simp only [Option.some.injEq] at hyp
  refine ⟨⟨out, t.global_best_position, t.global_best_cost, h1⟩,
    by simp only [f1, Option.some_bind], ?_⟩
  rw [← hyp]
  exact ⟨rfl, a2, a3, b1⟩

theorem updatePhase_agree (sqrtF : Int → α) (cities : List City) {s t s1 : State α}
    (a : s.Agree t) (hyp : updatePhase sqrtF cities s = some s1) :
    ∃ t1, updatePhase sqrtF cities t = some t1 ∧ s1.Agree t1 := by
  obtain ⟨a1, a2, a3, a4⟩ := a
  unfold updatePhase at hyp ⊢
  simp only [Option.bind_eq_bind] at hyp ⊢
  obtain ⟨⟨qs, gbp1, gbc1, g1⟩, e1, hyp⟩ := Option.bind_eq_some.1 hyp
  obtain ⟨h1, f1, b1⟩ := updateLoop_agree sqrtF cities _ _ _ s.rng t.rng qs gbp1 gbc1 g1 a4 e1
  rw [a1, a2, a3] at f1
  simp only [Option.some.injEq] at hyp
  refine ⟨⟨qs, gbp1, gbc1, h1⟩, by simp only [f1, Option.some_bind], ?_⟩
  rw [← hyp]
  exact ⟨rfl, rfl, rfl, b1⟩

theorem updateParticles_agree (sqrtF : Int → α) (cities : List City) (iteration : Nat)
    {s t s1 : State α} (a : s.Agree t)
    (hyp : updateParticles sqrtF cities iteration s = some s1) :
    ∃ t1, updateParticles sqrtF cities iteration t = some t1 ∧ s1.Agree t1 := by
  unfold updateParticles at hyp ⊢
  simp only [Option.bind_eq_bind] at hyp ⊢
  obtain ⟨s2, e1, e2⟩ := Option.bind_eq_some.1 hyp
  obtain ⟨t2, f1, b1⟩ := updatePhase_agree sqrtF cities a e1
  obtain ⟨t3, f2, b2⟩ := pruneParticles_agree sqrtF cities b1 e2
  exact ⟨t3, by simp only [f1, Option.some_bind, f2], b2⟩

theorem mainLoop_agree (sqrtF : Int → α) (cities : List City) (k : Nat) :
    ∀ (iteration : Nat) (s t s1 : State α), s.Agree t →
      mainLoop sqrtF cities k iteration s = some s1 →
      ∃ t1, mainLoop sqrtF cities k iteration t = some t1 ∧ s1.Agree t1 := by
  induction k with
  | zero =>
    intro iteration s t s1 a hyp
    simp only [mainLoop, Option.some.injEq] at hyp
    exact ⟨t, rfl, by rw [← hyp]; exact a⟩
  | succ k ih =>
    intro iteration s t s1 a hyp
    unfold mainLoop at hyp ⊢
    simp only [Option.bind_eq_bind] at hyp ⊢
    obtain ⟨s2, e1, e2⟩ := Option.bind_eq_some.1 hyp
    obtain ⟨t2, f1, b1⟩ := updateParticles_agree sqrtF cities iteration a e1
    obtain ⟨t3, f2, b2⟩ := ih (iteration + 1) s2 t2 s1 b1 e2
    exact ⟨t3, by simp only [f1, Option.some_bind, f2], b2⟩

theorem initLoop_agree (sqrtF : Int → α) (cities : List City) :
    ∀ (ps : List (Particle α)) (gbp : List Nat) (gbc : α) (g h : Rng)
      (qs : List (Particle α)) (gbp1 : List Nat) (gbc1 : α) (g1 : Rng), g.Agree h →
      initLoop sqrtF cities ps gbp gbc g = some (qs, gbp1, gbc1, g1) →
      ∃ h1, initLoop sqrtF cities ps gbp gbc h = some (qs, gbp1, gbc1, h1) ∧ g1.Agree h1
  | [], gbp, gbc, g, h, qs, gbp1, gbc1, g1, a, hyp => by
    simp only [initLoop, Option.some.injEq, Prod.mk.injEq] at hyp
    obtain ⟨e1, e2, e3, e4⟩ := hyp
    exact ⟨h, by simp only [initLoop, e1, e2, e3], by rw [← e4]; exact a⟩
  | _ :: ps, gbp, gbc, g, h, qs, gbp1, gbc1, g1, a, hyp => by
    unfold initLoop at hyp ⊢
    simp only [Option.bind_eq_bind] at hyp ⊢
    obtain ⟨⟨v0, k0⟩, e0, hyp⟩ := Option.bind_eq_some.1 hyp
    obtain ⟨cost, e1, hyp⟩ := Option.bind_eq_some.1 hyp
    obtain ⟨⟨qs2, gbp3, gbc3, g3⟩, e2, hyp⟩ := Option.bind_eq_some.1 hyp
    obtain ⟨h0, f0, a0⟩ := shuffle_agree a e0
    obtain ⟨h3, f2, a3⟩ := initLoop_agree sqrtF cities ps _ _ k0 h0 qs2 gbp3 gbc3 g3 a0 e2
    simp only [Option.some.injEq, Prod.mk.injEq] at hyp
    obtain ⟨hyp1, hyp2, hyp3, hyp4⟩ := hyp
    refine ⟨h3, ?_, by rw [← hyp4]; exact a3⟩
    simp only [f0, e1, f2, Option.some_bind]
    simp only [Option.some.injEq, Prod.mk.injEq]
    exact ⟨hyp1, hyp2, hyp3, trivial⟩

theorem initializeParticles_agree (sqrtF : Int → α) (cities : List City) {s t s1 : State α}
    (a : s.Agree t) (hyp : initializeParticles sqrtF cities s = some s1) :
    ∃ t1, initializeParticles sqrtF cities t = some t1 ∧ s1.Agree t1 := by
  obtain ⟨a1, a2, a3, a4⟩ := a
  unfold initializeParticles at hyp ⊢
  simp only [Option.bind_eq_bind] at hyp ⊢
  obtain ⟨⟨qs, gbp1, gbc1, g1⟩, e1, hyp⟩ := Option.bind_eq_some.1 hyp
  obtain ⟨h1, f1, b1⟩ := initLoop_agree sqrtF cities _ _ _ s.rng t.rng qs gbp1 gbc1 g1 a4 e1
  rw [a1, a2, a3] at f1
  simp only [Option.some.injEq] at hyp
  refine ⟨⟨qs, gbp1, gbc1, h1⟩, by simp only [f1, Option.some_bind], ?_⟩
  rw [← hyp]
  exact ⟨rfl, rfl, rfl, b1⟩

theorem runIterations_agree (sqrtF : Int → α) (cities : List City) (fltMax : α) {g h : Rng}
    (a : g.Agree h) (j : Nat) {sj : State α}
    (hyp : runIterations sqrtF cities fltMax g j = some sj) :
    ∃ tj, runIterations sqrtF cities fltMax h j = some tj ∧ sj.Agree tj := by
  unfold runIterations at hyp ⊢
  simp only [Option.bind_eq_bind] at hyp ⊢
  obtain ⟨s0, e0, e1⟩ := Option.bind_eq_some.1 hyp
  obtain ⟨t0, f0, b0⟩ := initializeParticles_agree sqrtF cities
    (show (initialState fltMax g).Agree (initialState fltMax h) from ⟨rfl, rfl, rfl, a⟩) e0
  obtain ⟨tj, f1, b1⟩ := mainLoop_agree sqrtF cities j 0 s0 t0 sj b0 e1
  exact ⟨tj, by simp only [f0, Option.some_bind, f1], b1⟩

theorem inertiaWeight_injective {it1 it2 : Nat} (h : inertiaWeight it1 = inertiaWeight it2) :
    it1 = it2 := by
  unfold inertiaWeight INITIAL_INERTIA_WEIGHT FINAL_INERTIA_WEIGHT MAX_ITERATIONS at h
  have h2 : (it1 : ℚ) = (it2 : ℚ) := by
    push_cast at h
    linarith
  exact_mod_cast h2

/-! ## The whole program -/

theorem generateCities_agree : ∀ (cs : List City) (g h : Rng), g.Agree h →
    (generateCities cs g).1 = (generateCities cs h).1 ∧
      (generateCities cs g).2.Agree (generateCities cs h).2
  | [], _, _, a => ⟨rfl, a⟩
  | _ :: rest, g, h, a => by
    have ih := generateCities_agree rest g.advance.advance h.advance.advance a.next.next
    simp only [generateCities, Rng.draw, a.peek_eq, a.next.peek_eq]
    exact ⟨by rw [ih.1], ih.2⟩

theorem generateCities_spec : ∀ (cs : List City) (g : Rng),
    (generateCities cs g).1.length = cs.length ∧ ∀ c ∈ (generateCities cs g).1, InGrid c
  | [], _ => ⟨rfl, fun _ hc => absurd hc (List.not_mem_nil _)⟩
  | _ :: rest, g => by
    have ih := generateCities_spec rest g.advance.advance
    simp only [generateCities, Rng.draw, List.length_cons, List.mem_cons]
    refine ⟨by rw [ih.1], ?_⟩
    intro c hc
    rcases hc with rfl | hc
    · refine ⟨?_, ?_, ?_, ?_⟩
      · exact Int.ofNat_nonneg _
      · exact Int.ofNat_lt.2 (Nat.mod_lt _ (by decide))
      · exact Int.ofNat_nonneg _
      · exact Int.ofNat_lt.2 (Nat.mod_lt _ (by decide))
    · exact ih.2 c hc

theorem bind_pair_map {σ γ : Type} (x : Option σ) (f : σ → Option σ) (c : γ) :
    (x.bind fun s0 => (f s0).bind fun s => some (c, s)) =
      Option.map (fun s => (c, s)) (x.bind f) := by
  cases x with
  | none => rfl
  | some s0 =>
    simp only [Option.some_bind]
    cases f s0 <;> rfl

theorem main_eq (sqrtF : Int → α) (fltMax : α) (g : Rng) :
    main sqrtF fltMax g =
      (runIterations sqrtF (generateCities (List.replicate NUM_CITIES { x := 0, y := 0 }) g).1
        fltMax (generateCities (List.replicate NUM_CITIES { x := 0, y := 0 }) g).2
        MAX_ITERATIONS).map
        (fun s => ((generateCities (List.replicate NUM_CITIES { x := 0, y := 0 }) g).1, s)) := by
  unfold main
  generalize generateCities (List.replicate NUM_CITIES { x := 0, y := 0 }) g = r
  obtain ⟨cities, g1⟩ := r
  simp only [runIterations, Option.bind_eq_bind]
  generalize initializeParticles sqrtF cities (initialState fltMax g1) = x
  generalize mainLoop sqrtF cities MAX_ITERATIONS 0 = f
  exact bind_pair_map x f cities

theorem main_returns (sqrtF : Int → α) (fltMax : α)
    (hmax : ∀ cities : List City, cities.length = NUM_CITIES → (∀ c ∈ cities, InGrid c) →
      AboveAllCosts sqrtF cities fltMax) (g : Rng) :
    ∃ cities s, main sqrtF fltMax g = some (cities, s) ∧ cities.length = NUM_CITIES ∧
      (∀ c ∈ cities, InGrid c) ∧ Inv s := by
  have hspec := generateCities_spec (List.replicate NUM_CITIES { x := 0, y := 0 }) g
  rw [List.length_replicate] at hspec
  obtain ⟨s, hs, hinv⟩ := runIterations_inv sqrtF hspec.1 fltMax
    (generateCities (List.replicate NUM_CITIES { x := 0, y := 0 }) g).2
    (hmax _ hspec.1 hspec.2) MAX_ITERATIONS
  exact ⟨_, s, by rw [main_eq, hs]; rfl, hspec.1, hspec.2, hinv⟩

theorem main_agree (sqrtF : Int → α) (fltMax : α) {g h : Rng} (a : g.Agree h)
    {cities : List City} {s : State α} (hyp : main sqrtF fltMax g = some (cities, s)) :
    ∃ t, main sqrtF fltMax h = some (cities, t) ∧ s.Agree t := by
  rw [main_eq] at hyp ⊢
  have hgen := generateCities_agree (List.replicate NUM_CITIES { x := 0, y := 0 }) g h a
  obtain ⟨s', e1, e2⟩ := Option.map_eq_some'.1 hyp
  simp only [Prod.mk.injEq] at e2
  obtain ⟨e2, rfl⟩ := e2
  obtain ⟨t, f1, b1⟩ := runIterations_agree sqrtF _ fltMax hgen.2 MAX_ITERATIONS e1
  refine ⟨t, ?_, b1⟩
  rw [← hgen.1, f1, Option.map_some', e2]

/-! ## The parts of one call of `updateParticles` -/

theorem ParticleStep.best_cost_min {sqrtF : Int → α} {cities : List City} {p q : Particle α}
    (h : ParticleStep sqrtF cities p q) :
    q.best_cost = min p.best_cost q.cost ∧ q.best_cost ≤ p.best_cost := by
  obtain ⟨_, _, h3 | h3⟩ := h
  · obtain ⟨hlt, e1, _⟩ := h3
    rw [e1, min_eq_right (le_of_lt hlt)]
    exact ⟨rfl, le_of_lt hlt⟩
  · obtain ⟨hn, e1, _⟩ := h3
    rw [e1, min_eq_left (not_lt.1 hn)]
    exact ⟨rfl, le_refl _⟩

theorem updateLoop_body (sqrtF : Int → α) (cities : List City) :
    ∀ (ps qs : List (Particle α)) (gbp gbp1 : List Nat) (gbc gbc1 : α) (g g1 : Rng),
      updateLoop sqrtF cities ps gbp gbc g = some (qs, gbp1, gbc1, g1) →
      List.Forall₂ (fun p q => ∃ (gbp0 gbp2 : List Nat) (gbc0 gbc2 : α) (g0 g2 : Rng),
        updateParticle sqrtF cities p gbp0 gbc0 g0 = some (q, gbp2, gbc2, g2)) ps qs
  | [], qs, gbp, gbp1, gbc, gbc1, g, g1, h => by
    simp only [updateLoop, Option.some.injEq, Prod.mk.injEq] at h
    rw [← h.1]
    exact List.Forall₂.nil
  | p :: ps, qs, gbp, gbp1, gbc, gbc1, g, g1, h => by
    unfold updateLoop at h
    simp only [Option.bind_eq_bind] at h
    obtain ⟨⟨q, gbp2, gbc2, g2⟩, e1, h⟩ := Option.bind_eq_some.1 h
    obtain ⟨⟨qs2, gbp3, gbc3, g3⟩, e2, h⟩ := Option.bind_eq_some.1 h
    simp only [Option.some.injEq, Prod.mk.injEq] at h
    obtain ⟨rfl, _⟩ := h
    exact List.Forall₂.cons ⟨gbp, gbp2, gbc, gbc2, g, g2, e1⟩
      (updateLoop_body sqrtF cities ps qs2 gbp2 gbp3 gbc2 gbc3 g2 g3 e2)

theorem updatePhase_loop (sqrtF : Int → α) (cities : List City) {s s1 : State α}
    (h : updatePhase sqrtF cities s = some s1) :
    updateLoop sqrtF cities s.swarm s.global_best_position s.global_best_cost s.rng =
      some (s1.swarm, s1.global_best_position, s1.global_best_cost, s1.rng) := by
  unfold updatePhase at h
  simp only [Option.bind_eq_bind] at h
  obtain ⟨⟨qs, gbp1, gbc1, g1⟩, e1, e2⟩ := Option.bind_eq_some.1 h
  simp only [Option.some.injEq] at e2
  rw [← e2]
  exact e1

theorem updateParticles_parts (sqrtF : Int → α) {cities : List City}
    (hc : cities.length = NUM_CITIES) (iteration : Nat) (s : State α) (hs : Inv s) :
    ∃ smid s1 fl, updatePhase sqrtF cities s = some smid ∧
      pruneParticles sqrtF cities smid = some s1 ∧
      updateParticles sqrtF cities iteration s = some s1 ∧
      Inv smid ∧ Inv s1 ∧
      List.Forall₂ (ParticleStep sqrtF cities) s.swarm smid.swarm ∧
      BestAfter s.global_best_position s.global_best_cost smid.swarm
        smid.global_best_position smid.global_best_cost ∧
      s1.swarm = (smid.swarm.insertionSort costLE).take 450 ++ fl ∧
      s1.global_best_position = smid.global_best_position ∧
      s1.global_best_cost = smid.global_best_cost ∧
      freshTail sqrtF cities 50 smid.rng = some (fl, s1.rng) ∧
      fl.length = 50 ∧ (∀ q ∈ fl, IsFresh sqrtF cities q) := by
  obtain ⟨smid, h1, hinv1, hstep, hbest⟩ := updatePhase_spec sqrtF hc s hs
  obtain ⟨fl, g1, hft, h2, hinv2⟩ := pruneParticles_inv sqrtF hc smid hinv1
  obtain ⟨fl2, g2, hft2, hlen, hfresh⟩ := freshTail_spec sqrtF hc 50 smid.rng
  rw [hft] at hft2
  simp only [Option.some.injEq, Prod.mk.injEq] at hft2
  obtain ⟨rfl, rfl⟩ := hft2
  exact ⟨smid, _, fl, h1, h2,
    by simp only [updateParticles, h1, Option.bind_eq_bind, Option.some_bind, h2],
    hinv1, hinv2, hstep, hbest, rfl, rfl, rfl, hft, hlen, hfresh⟩

/-! ## Costs over the reals stay far below the sentinel -/

theorem getD_inGrid {cities : List City} (hgrid : ∀ c ∈ cities, InGrid c) (a : Nat) :
    InGrid (cities.getD a { x := 0, y := 0 }) := by
  by_cases ha : a < cities.length
  · rw [List.getD_eq_getElem _ _ ha]
    exact hgrid _ (List.getElem_mem ha)
  · rw [List.getD_eq_default _ _ (Nat.le_of_not_lt ha)]
    decide

theorem edgeLen_real_le {cities : List City} (hgrid : ∀ c ∈ cities, InGrid c) (a b : Nat) :
    edgeLen (fun z : ℤ => Real.sqrt (z : ℝ)) cities a b ≤ 200 := by
  obtain ⟨h1, h2, h3, h4⟩ := getD_inGrid hgrid a
  obtain ⟨h5, h6, h7, h8⟩ := getD_inGrid hgrid b
  simp only [edgeLen]
  rw [Real.sqrt_le_left (by norm_num)]
  have hx : ((cities.getD a { x := 0, y := 0 }).x - (cities.getD b { x := 0, y := 0 }).x) *
      ((cities.getD a { x := 0, y := 0 }).x - (cities.getD b { x := 0, y := 0 }).x) ≤
      10000 := by nlinarith
  have hy : ((cities.getD a { x := 0, y := 0 }).y - (cities.getD b { x := 0, y := 0 }).y) *
      ((cities.getD a { x := 0, y := 0 }).y - (cities.getD b { x := 0, y := 0 }).y) ≤
      10000 := by nlinarith
  have hsum := add_le_add hx hy
  have hcast := (Int.cast_le (R := ℝ)).2 hsum
  refine le_trans hcast ?_
  norm_num

theorem pathCost_real_le {cities : List City} (hgrid : ∀ c ∈ cities, InGrid c) :
    ∀ route : List Nat,
      pathCost (fun z : ℤ => Real.sqrt (z : ℝ)) cities route ≤ 200 * (route.length : ℝ)
  | [] => by simp [pathCost]
  | [_] => by simp [pathCost]
  | a :: b :: rest => by
    have ih := pathCost_real_le hgrid (b :: rest)
    have he := edgeLen_real_le hgrid a b
    rw [pathCost]
    simp only [List.length_cons, Nat.cast_add, Nat.cast_one] at ih ⊢
    linarith

theorem aboveAllCosts_real {cities : List City} (hc : cities.length = NUM_CITIES)
    (hgrid : ∀ c ∈ cities, InGrid c) :
    AboveAllCosts (fun z : ℤ => Real.sqrt (z : ℝ)) cities (FLT_MAX : ℝ) := by
  intro route c ht hcost
  have hne : route ≠ [] := by
    intro h
    have := ht.length_eq
    rw [h] at this
    exact absurd this (by decide)
  have hvalid : ∀ x ∈ route, x < cities.length := fun x hx => by
    rw [hc]; exact ht.lt_of_mem hx
  rw [calculateCost_eq _ cities route hne hvalid] at hcost
  simp only [Option.some.injEq] at hcost
  have h1 := pathCost_real_le hgrid route
  have h2 := edgeLen_real_le hgrid (route.head hne) (route.getLast hne)
  have hlen : (route.length : ℝ) = 20 := by
    rw [ht.length_eq]; norm_num [NUM_CITIES]
  rw [hlen] at h1
  have hmax : (4200 : ℝ) < (FLT_MAX : ℝ) := by
    norm_num [FLT_MAX]
  rw [← hcost]
  linarith

/-! ## A swarm of equal particles under a constant generator -/

theorem updateParticle_transfer (sqrtF : Int → α) (cities : List City) {c : Nat}
    (p : Particle α) (gbp : List Nat) (gbc : α) {g h : Rng} {q : Particle α}
    {gbp1 : List Nat} {gbc1 : α} {h1 : Rng} (hg : g.Const c) (hh : h.Const c)
    (hyp : updateParticle sqrtF cities p gbp gbc h = some (q, gbp1, gbc1, h1)) :
    ∃ g1, updateParticle sqrtF cities p gbp gbc g = some (q, gbp1, gbc1, g1) ∧ g1.Const c := by
  unfold updateParticle at hyp ⊢
  simp only [Option.bind_eq_bind] at hyp ⊢
  obtain ⟨⟨v0, k0⟩, e0, hyp⟩ := Option.bind_eq_some.1 hyp
  obtain ⟨⟨v1, k1⟩, e1, hyp⟩ := Option.bind_eq_some.1 hyp
  obtain ⟨⟨v2, k2⟩, e2, hyp⟩ := Option.bind_eq_some.1 hyp
  obtain ⟨cost, e3, hyp⟩ := Option.bind_eq_some.1 hyp
  obtain ⟨g0, f0, hg0⟩ := shuffle_transfer hg hh e0
  obtain ⟨g1, f1, hg1⟩ := swapLoop_transfer p.best_position gbp NUM_CITIES 0 v0 g0 k0 v1 k1 hg0 e1
  have hk1 : k1.Const c := by
    obtain ⟨k1', f1', hk1'⟩ :=
      swapLoop_transfer p.best_position gbp NUM_CITIES 0 v0 k0 k0 v1 k1
        (by
          obtain ⟨k0', f0', hk0'⟩ := shuffle_transfer hh hh e0
          rw [e0] at f0'
          simp only [Option.some.injEq, Prod.mk.injEq, true_and] at f0'
          rw [f0']; exact hk0') e1
    rw [e1] at f1'
    simp only [Option.some.injEq, Prod.mk.injEq, true_and] at f1'
    rw [f1']; exact hk1'
  obtain ⟨g2, f2, hg2⟩ := applyMutationAndGaussian_transfer hg1 hk1 e2
  refine ⟨g2, ?_, hg2⟩
  simp only [f0, f1, f2, e3, Option.some_bind]
  simp only [Option.some.injEq, Prod.mk.injEq] at hyp ⊢
  exact ⟨hyp.1, hyp.2.1, hyp.2.2.1, trivial⟩

theorem updateLoop_replicate (sqrtF : Int → α) (cities : List City) {c : Nat}
    {p q : Particle α} {gbp : List Nat} {gbc : α} {h h1 : Rng} (hh : h.Const c)
    (hyp : updateParticle sqrtF cities p gbp gbc h = some (q, gbp, gbc, h1)) (m : Nat) :
    ∀ g : Rng, g.Const c →
      ∃ g1, updateLoop sqrtF cities (List.replicate m p) gbp gbc g =
          some (List.replicate m q, gbp, gbc, g1) ∧ g1.Const c := by
  induction m with
  | zero => intro g hg; exact ⟨g, rfl, hg⟩
  | succ m ih =>
    intro g hg
    obtain ⟨g1, f1, hg1⟩ := updateParticle_transfer sqrtF cities p gbp gbc hg hh hyp
    obtain ⟨g2, f2, hg2⟩ := ih g1 hg1
    refine ⟨g2, ?_, hg2⟩
    simp only [List.replicate_succ, updateLoop, f1, Option.bind_eq_bind, Option.some_bind, f2]

theorem updateParticles_replicate (sqrtF : Int → α) {cities : List City}
    (hc : cities.length = NUM_CITIES) {c : Nat} {p q f : Particle α} {gbp : List Nat}
    {gbc : α} {h h1 k k1 : Rng} (hh : h.Const c) (hk : k.Const c)
    (hup : updateParticle sqrtF cities p gbp gbc h = some (q, gbp, gbc, h1))
    (hfr : freshParticle sqrtF cities k = some (f, k1))
    (hq : q.position.length = NUM_CITIES) (iteration : Nat) (g : Rng) (hg : g.Const c) :
    ∃ g2, updateParticles sqrtF cities iteration
        { swarm := List.replicate NUM_PARTICLES p, global_best_position := gbp,
          global_best_cost := gbc, rng := g } =
      some { swarm := List.replicate 450 q ++ List.replicate 50 f,
             global_best_position := gbp, global_best_cost := gbc, rng := g2 } := by
  obtain ⟨g1, f1, hg1⟩ := updateLoop_replicate sqrtF cities hh hup NUM_PARTICLES g hg
  obtain ⟨g2, f2, _⟩ := freshTail_replicate sqrtF cities hk hfr 50 g1 hg1
  obtain ⟨fl, g3, f3, hprune⟩ := pruneParticles_spec sqrtF hc
    ({ swarm := List.replicate NUM_PARTICLES q, global_best_position := gbp,
       global_best_cost := gbc, rng := g1 } : State α)
    (by simp)
    (fun x hx => by rw [List.eq_of_mem_replicate hx]; exact hq)
  rw [f2] at f3
  simp only [Option.some.injEq, Prod.mk.injEq] at f3
  obtain ⟨rfl, rfl⟩ := f3
  refine ⟨g2, ?_⟩
  simp only [updateParticles, updatePhase, f1, Option.bind_eq_bind, Option.some_bind, hprune,
    insertionSort_replicate, List.take_replicate]
  rfl

theorem initLoop_const (sqrtF : Int → α) (cities : List City) {c : Nat} {f : Particle α}
    {h1 : Rng} (hfr : freshParticle sqrtF cities (constRng c) = some (f, h1)) :
    ∀ (ps : List (Particle α)) (gbp : List Nat) (gbc : α) (g : Rng),
      (∀ j, j < (NUM_CITIES - 1) * ps.length → g.stream (g.pos + j) = c) →
      ∃ gbp1 gbc1, initLoop sqrtF cities ps gbp gbc g =
        some (List.replicate ps.length f, gbp1, gbc1,
          { stream := g.stream, pos := g.pos + (NUM_CITIES - 1) * ps.length })
  | [], gbp, gbc, g, _ => ⟨gbp, gbc, rfl⟩
  | _ :: ps, gbp, gbc, g, hconst => by
    obtain ⟨ht, hcost, hbp, hbc⟩ := freshParticle_isFresh sqrtF hfr
    have hf : f = (⟨f.position, f.position, f.cost, f.cost⟩ : Particle α) := by
      cases f
      simp only at hbp hbc
      simp [hbp, hbc]
    have hlen : (NUM_CITIES - 1) * (ps.length + 1) =
        (NUM_CITIES - 1) + (NUM_CITIES - 1) * ps.length := by ring
    have hsh : shuffle (List.range NUM_CITIES) g =
        some (f.position, { stream := g.stream, pos := g.pos + (NUM_CITIES - 1) }) :=
      shuffleLoop_congr (NUM_CITIES - 1) 1 (List.range NUM_CITIES) g (constRng c) f.position h1
        (fun j hj => by
          have := hconst j (by rw [List.length_cons, hlen]; omega)
          simpa [constRng] using this)
        (freshParticle_shuffle sqrtF hfr)
    obtain ⟨gbp1, gbc1, hrest⟩ := initLoop_const sqrtF cities hfr ps
      (if f.cost < gbc then f.position else gbp) (if f.cost < gbc then f.cost else gbc)
      { stream := g.stream, pos := g.pos + (NUM_CITIES - 1) }
      (fun j hj => by
        have := hconst ((NUM_CITIES - 1) + j) (by rw [List.length_cons, hlen]; omega)
        simpa [Nat.add_assoc] using this)
    refine ⟨gbp1, gbc1, ?_⟩
    simp only [initLoop, hsh, hcost, Option.bind_eq_bind, Option.some_bind]
    by_cases hlt : f.cost < gbc
    · simp only [hlt, if_true] at hrest
      simp only [hlt, if_true, hrest, Option.some_bind, List.length_cons, List.replicate_succ,
        hlen, Nat.add_assoc]
      rw [← hf]
    · simp only [hlt, if_false] at hrest
      simp only [hlt, if_false, hrest, Option.some_bind, List.length_cons, List.replicate_succ,
        hlen, Nat.add_assoc]
      rw [← hf]

theorem runIterations_stepRng (sqrtF : Int → α) {cities : List City}
    (hc : cities.length = NUM_CITIES) (fltMax : α) {a b : Nat} {f q f2 : Particle α}
    {h1 h2 h3 : Rng} (hfa : freshParticle sqrtF cities (constRng a) = some (f, h1))
    (hmax : f.cost < fltMax)
    (hup : updateParticle sqrtF cities f f.position f.cost (constRng b) =
      some (q, f.position, f.cost, h2))
    (hfb : freshParticle sqrtF cities (constRng b) = some (f2, h3))
    (hq : q.position.length = NUM_CITIES) :
    ∃ g1 g2,
      runIterations sqrtF cities fltMax (stepRng a b) 0 =
        some { swarm := List.replicate NUM_PARTICLES f, global_best_position := f.position,
               global_best_cost := f.cost, rng := g1 } ∧
      runIterations sqrtF cities fltMax (stepRng a b) 1 =
        some { swarm := List.replicate 450 q ++ List.replicate 50 f2,
               global_best_position := f.position, global_best_cost := f.cost, rng := g2 } := by
  obtain ⟨gbp1, gbc1, hinit⟩ := initLoop_const sqrtF cities hfa
    (List.replicate NUM_PARTICLES
      ({ position := [], best_position := [], best_cost := 0, cost := 0 } : Particle α))
    [] fltMax (stepRng a b)
    (fun j hj => by
      rw [List.length_replicate] at hj
      simp only [stepRng, Nat.zero_add, if_pos hj])
  obtain ⟨qs, gbp2, gbc2, g2, hspec, _, _, hbest⟩ := initLoop_spec sqrtF hc
    (List.replicate NUM_PARTICLES
      ({ position := [], best_position := [], best_cost := 0, cost := 0 } : Particle α))
    [] fltMax (stepRng a b)
  rw [hinit] at hspec
  simp only [Option.some.injEq, Prod.mk.injEq] at hspec
  obtain ⟨rfl, rfl, rfl, rfl⟩ := hspec
  rw [List.length_replicate] at hbest hinit
  obtain ⟨rfl, rfl⟩ := bestAfter_replicate (by decide) hmax hbest
  have hg1 : Rng.Const
      (⟨(stepRng a b).stream, (stepRng a b).pos + (NUM_CITIES - 1) * NUM_PARTICLES⟩ : Rng)
      b := by
    intro k
    simp only [stepRng, Nat.zero_add]
    rw [if_neg (by omega)]
  obtain ⟨g3, hupd⟩ := updateParticles_replicate sqrtF hc (constRng_const b) (constRng_const b)
    hup hfb hq 0 _ hg1
  have h0 : runIterations sqrtF cities fltMax (stepRng a b) 0 =
      some { swarm := List.replicate NUM_PARTICLES f, global_best_position := f.position,
             global_best_cost := f.cost,
             rng := { stream := (stepRng a b).stream,
                      pos := (stepRng a b).pos + (NUM_CITIES - 1) * NUM_PARTICLES } } := by
    simp only [runIterations, initializeParticles, initialState, hinit, Option.bind_eq_bind,
      Option.some_bind, mainLoop]
  refine ⟨_, g3, h0, ?_⟩
  rw [runIterations_succ, h0, Option.some_bind]
  exact hupd

end SwarmLemmas

/-! ## The example state -/

theorem lineCities_length : lineCities.length = NUM_CITIES := by decide

theorem detourTour_isTour : IsTour detourTour := by decide

theorem detourState_inv (g : Rng) : Inv (detourState g) :=
  { swarm_len := by simp [detourState]
    position_tour := fun p hp => by
      rw [List.eq_of_mem_replicate hp]; exact detourTour_isTour
    best_tour := fun p hp => by
      rw [List.eq_of_mem_replicate hp]; exact detourTour_isTour
    global_tour := detourTour_isTour }

theorem detourTour_cost : calculateCost isqrt lineCities detourTour = some 40 := by
  decide!

theorem detourState_globalConsistent (g : Rng) :
    GlobalConsistent isqrt lineCities (detourState g) :=
  ⟨detourTour_isTour, detourTour_cost⟩

theorem detourState_consistent (g : Rng) :
    ∀ p ∈ (detourState g).swarm, Consistent isqrt lineCities p := by
  intro p hp
  rw [List.eq_of_mem_replicate hp]
  exact ⟨detourTour_cost, detourTour_cost, le_refl _, detourTour_isTour⟩

/-! ## Two runs, evaluated

The line cities, with a generator that draws one constant while
`initializeParticles` runs and another afterwards.  One particle update and one
reseeding are evaluated; the lemmas on constant generators carry the result to
the whole swarm. -/

theorem fresh_zero :
    (freshParticle isqrt lineCities (constRng 0)).map (fun r => r.1) = some shortParticle := by
  decide!

theorem fresh_one :
    (freshParticle isqrt lineCities (constRng 1)).map (fun r => r.1) = some longParticle := by
  decide!

theorem update_long_zero :
    (updateParticle isqrt lineCities longParticle longParticle.position 72 (constRng 0)).map
        (fun r => (r.1, r.2.1, r.2.2.1)) =
      some ({ position := [18, 0, 19, 1, 2, 3, 4, 5, 6, 7, 8, 9, 10, 11, 12, 13, 14, 15, 16, 17]
              best_position := longParticle.position, best_cost := 72, cost := 72 },
        longParticle.position, 72) := by
  decide!

theorem update_short_one :
    (updateParticle isqrt lineCities shortParticle shortParticle.position 38 (constRng 1)).map
        (fun r => (r.1, r.2.1, r.2.2.1)) =
      some ({ position := [18, 17, 19, 0, 1, 2, 3, 4, 5, 6, 7, 8, 9, 10, 11, 12, 13, 14, 15, 16]
              best_position := shortParticle.position, best_cost := 38, cost := 40 },
        shortParticle.position, 38) := by
  decide!

theorem replicate_tail_slot {γ : Type} (a b : γ) :
    (List.replicate 450 a ++ List.replicate 50 b)[499]? = some b := by
  rw [List.getElem?_append_right (by rw [List.length_replicate]; decide),
    List.length_replicate, List.getElem?_replicate, if_pos (by decide)]

theorem replicate_head_slot {γ : Type} (a b : γ) :
    (List.replicate 450 a ++ List.replicate 50 b)[0]? = some a := by
  rw [List.getElem?_append_left (by rw [List.length_replicate]; decide),
    List.getElem?_replicate, if_pos (by decide)]

theorem lineCities_exact :
    ∀ ca ∈ lineCities, ∀ cb ∈ lineCities,
      ((isqrt ((ca.x - cb.x) * (ca.x - cb.x) + (ca.y - cb.y) * (ca.y - cb.y)) : ℕ) : ℤ) *
        (isqrt ((ca.x - cb.x) * (ca.x - cb.x) + (ca.y - cb.y) * (ca.y - cb.y)) : ℕ) =
      (ca.x - cb.x) * (ca.x - cb.x) + (ca.y - cb.y) * (ca.y - cb.y) := by
  decide!

theorem lineCities_cost (route : List Nat) :
    calculateCost (fun z : ℤ => Real.sqrt (z : ℝ)) lineCities route =
      (calculateCost isqrt lineCities route).map (fun n : ℕ => (n : ℝ)) :=
  calculateCost_real_of_exact (edgeCost_real_of_exact lineCities_exact) route

/-- The run on the line cities over the reals with the generator
`stepRng a b`, up to the end of the first iteration, from one seeding evaluated
under `a`, one particle update evaluated under `b` and one seeding evaluated
under `b`. -/
theorem lineRun {a b : Nat} {f q f2 : Particle Nat}
    (hfa : (freshParticle isqrt lineCities (constRng a)).map (fun r => r.1) = some f)
    (hup : (updateParticle isqrt lineCities f f.position f.cost (constRng b)).map
      (fun r => (r.1, r.2.1, r.2.2.1)) = some (q, f.position, f.cost))
    (hfb : (freshParticle isqrt lineCities (constRng b)).map (fun r => r.1) = some f2)
    (hq : q.position.length = NUM_CITIES) (hmax : f.cost < FLT_MAX) :
    ∃ g1 g2,
      runIterations (fun z : ℤ => Real.sqrt (z : ℝ)) lineCities (FLT_MAX : ℝ) (stepRng a b) 0 =
        some { swarm := List.replicate NUM_PARTICLES (f.map (fun n : ℕ => (n : ℝ))),
               global_best_position := f.position,
               global_best_cost := (f.cost : ℝ), rng := g1 } ∧
      runIterations (fun z : ℤ => Real.sqrt (z : ℝ)) lineCities (FLT_MAX : ℝ) (stepRng a b) 1 =
        some { swarm := List.replicate 450 (q.map (fun n : ℕ => (n : ℝ))) ++
                 List.replicate 50 (f2.map (fun n : ℕ => (n : ℝ))),
               global_best_position := f.position,
               global_best_cost := (f.cost : ℝ), rng := g2 } := by
  obtain ⟨⟨f', h1⟩, e1, e2⟩ := Option.map_eq_some'.1 hfa
  simp only at e2
  subst e2
  obtain ⟨⟨q', gbp', gbc', h2⟩, e3, e4⟩ := Option.map_eq_some'.1 hup
  simp only [Prod.mk.injEq] at e4
  obtain ⟨rfl, rfl, rfl⟩ := e4
  obtain ⟨⟨f2', h3⟩, e5, e6⟩ := Option.map_eq_some'.1 hfb
  simp only at e6
  subst e6
  exact runIterations_stepRng (fun z : ℤ => Real.sqrt (z : ℝ)) lineCities_length (FLT_MAX : ℝ)
    (freshParticle_map lineCities_cost e1) (Nat.cast_lt.2 hmax)
    (updateParticle_map Nat.strictMono_cast lineCities_cost e3)
    (freshParticle_map lineCities_cost e5) hq

/-! # The claims -/

section Claims

variable {α : Type} [LinearOrder α] [AddMonoid α]

/-- C1 (permutation invariant).  With `NUM_CITIES` cities, for every state and
every generator: `initializeParticles` returns and leaves every position a
tour (length `NUM_CITIES`, every index exactly once); each step of
`updateParticles` (the shuffle, the personal-best/global-best swap loop,
`applyMutationAndGaussian`) returns and maps a tour to a tour; `pruneParticles`
and the whole of `updateParticles` return and keep the invariant that every
position, every personal best and the global best are tours; hence after
`initializeParticles` from the start state and any number `k` of calls of
`updateParticles`, every particle's position is a tour. -/
theorem C1_permutation_invariant (sqrtF : Int → α) (cities : List City)
    (hc : cities.length = NUM_CITIES) :
    (∀ s : State α, ∃ s1, initializeParticles sqrtF cities s = some s1 ∧
        ∀ p ∈ s1.swarm, IsTour p.position) ∧
      (∀ (v : List Nat) (g : Rng), IsTour v →
        ∃ v1 g1, shuffle v g = some (v1, g1) ∧ IsTour v1) ∧
      (∀ (best_position gbp v : List Nat) (g : Rng),
        IsTour best_position → IsTour gbp → IsTour v →
        ∃ v1 g1, swapLoop best_position gbp NUM_CITIES 0 v g = some (v1, g1) ∧ IsTour v1) ∧
      (∀ (v : List Nat) (g : Rng), IsTour v →
        ∃ v1 g1, applyMutationAndGaussian v g = some (v1, g1) ∧ IsTour v1) ∧
      (∀ s : State α, Inv s → ∃ s1, pruneParticles sqrtF cities s = some s1 ∧ Inv s1 ∧
        ∀ p ∈ s1.swarm, IsTour p.position) ∧
      (∀ (iteration : Nat) (s : State α), Inv s →
        ∃ s1, updateParticles sqrtF cities iteration s = some s1 ∧ Inv s1 ∧
          ∀ p ∈ s1.swarm, IsTour p.position) ∧
      (∀ (fltMax : α) (g : Rng) (k : Nat), AboveAllCosts sqrtF cities fltMax →
        ∃ s0 sk, initializeParticles sqrtF cities (initialState fltMax g) = some s0 ∧
          mainLoop sqrtF cities k 0 s0 = some sk ∧
          ∀ p ∈ sk.swarm, p.position.length = NUM_CITIES ∧
            ∀ i, i < NUM_CITIES → p.position.count i = 1) := by
  refine ⟨?_, ?_, ?_, ?_, ?_, ?_, ?_⟩
  · intro s
    obtain ⟨s1, h1, _, hfresh, _⟩ := initializeParticles_spec sqrtF hc s
    exact ⟨s1, h1, fun p hp => (hfresh p hp).1⟩
  · intro v g hv
    exact shuffle_isTour hv g
  · intro bp gbp v g hb hg hv
    obtain ⟨v1, g1, h1, hp⟩ := swapLoop_spec hb hg NUM_CITIES 0 v g hv.length_eq (by omega)
    exact ⟨v1, g1, h1, hv.of_perm hp⟩
  · intro v g hv
    obtain ⟨v1, g1, h1, hp⟩ := applyMutationAndGaussian_spec v g hv.length_eq
    exact ⟨v1, g1, h1, hv.of_perm hp⟩
  · intro s hs
    obtain ⟨fl, g1, _, h1, hinv⟩ := pruneParticles_inv sqrtF hc s hs
    exact ⟨_, h1, hinv, hinv.position_tour⟩
  · intro iteration s hs
    obtain ⟨s1, h1, hinv⟩ := updateParticles_inv sqrtF hc iteration s hs
    exact ⟨s1, h1, hinv, hinv.position_tour⟩
  · intro fltMax g k hmax
    obtain ⟨s0, h0, hinv0, _, _⟩ := initializeParticles_inv sqrtF hc (initialState fltMax g)
      (by simp [initialState]) (Or.inr hmax)
    obtain ⟨sk, hk, hinvk⟩ := mainLoop_inv sqrtF hc k 0 s0 hinv0
    exact ⟨s0, sk, h0, hk, fun p hp => hinvk.position_tour p hp⟩

/-- C2 (cost correctness).  Over the reals, for every route of length at least
two whose entries are valid city indices, `calculateCost` returns the sum over
`i` in `0 .. n-1` of the Euclidean distance between city `route[i]` and city
`route[(i+1) mod n]`: all consecutive edges and the closing edge.  For the
cities (0,0), (3,0), (0,4) and the route `[0,1,2]` it returns 12. -/
theorem C2_cost_correctness :
    (∀ (cities : List City) (route : List Nat), 2 ≤ route.length →
      (∀ x ∈ route, x < cities.length) →
      calculateCost (fun z : ℤ => Real.sqrt (z : ℝ)) cities route =
        some (tourLength (fun z : ℤ => Real.sqrt (z : ℝ)) cities route)) ∧
      calculateCost (fun z : ℤ => Real.sqrt (z : ℝ))
        [{ x := 0, y := 0 }, { x := 3, y := 0 }, { x := 0, y := 4 }] [0, 1, 2] =
          some (12 : ℝ) := by
  constructor
  · intro cities route hlen hvalid
    exact calculateCost_eq_tourLength _ cities route
      (by intro h; rw [h] at hlen; simp at hlen) hvalid
  · have h9 : Real.sqrt 9 = 3 := by
      rw [show (9 : ℝ) = 3 ^ 2 by norm_num]
      exact Real.sqrt_sq (by norm_num)
    have h25 : Real.sqrt 25 = 5 := by
      rw [show (25 : ℝ) = 5 ^ 2 by norm_num]
      exact Real.sqrt_sq (by norm_num)
    have h16 : Real.sqrt 16 = 4 := by
      rw [show (16 : ℝ) = 4 ^ 2 by norm_num]
      exact Real.sqrt_sq (by norm_num)
    simp [calculateCost, costLoop, edgeCost, h9, h16]
    rw [show (3 * 3 + 4 * 4 : ℝ) = 25 by norm_num, h25]
    norm_num

/-- C2, used at a concrete route: four cities on the corners of a 3 by 4
rectangle, visited in order, give the perimeter as the sum of the four
edges of the closed tour. -/
theorem C2_cost_correctness_witness :
    calculateCost (fun z : ℤ => Real.sqrt (z : ℝ))
        [{ x := 0, y := 0 }, { x := 3, y := 0 }, { x := 3, y := 4 }, { x := 0, y := 4 }]
        [0, 1, 2, 3] =
      some (tourLength (fun z : ℤ => Real.sqrt (z : ℝ))
        [{ x := 0, y := 0 }, { x := 3, y := 0 }, { x := 3, y := 4 }, { x := 0, y := 4 }]
        [0, 1, 2, 3]) :=
  C2_cost_correctness.1 _ _ (by decide) (by decide)

/-- C7 (two-city boundary).  With exactly two cities, over the reals, both
tours `[0,1]` and `[1,0]` cost exactly twice the Euclidean distance between the
two cities. -/
theorem C7_two_city_boundary (c0 c1 : City) :
    calculateCost (fun z : ℤ => Real.sqrt (z : ℝ)) [c0, c1] [0, 1] =
        some (2 * Real.sqrt (((c0.x - c1.x) ^ 2 + (c0.y - c1.y) ^ 2 : ℤ) : ℝ)) ∧
      calculateCost (fun z : ℤ => Real.sqrt (z : ℝ)) [c0, c1] [1, 0] =
        some (2 * Real.sqrt (((c0.x - c1.x) ^ 2 + (c0.y - c1.y) ^ 2 : ℤ) : ℝ)) := by
  have e1 : (c0.x - c1.x) * (c0.x - c1.x) + (c0.y - c1.y) * (c0.y - c1.y) =
      (c0.x - c1.x) ^ 2 + (c0.y - c1.y) ^ 2 := by ring
  have e2 : (c1.x - c0.x) * (c1.x - c0.x) + (c1.y - c0.y) * (c1.y - c0.y) =
      (c0.x - c1.x) ^ 2 + (c0.y - c1.y) ^ 2 := by ring
  constructor
  · simp only [calculateCost, costLoop, edgeCost, List.getElem?_cons_zero,
      List.getElem?_cons_succ, Option.bind_eq_bind, Option.some_bind, Option.pure_def,
      List.head?_cons, List.getLast?_cons_cons, List.getLast?_singleton, e1, zero_add]
    congr 1
    ring
  · simp only [calculateCost, costLoop, edgeCost, List.getElem?_cons_zero,
      List.getElem?_cons_succ, Option.bind_eq_bind, Option.some_bind, Option.pure_def,
      List.head?_cons, List.getLast?_cons_cons, List.getLast?_singleton, e1, e2, zero_add]
    congr 1
    ring

/-- C3 (monotonic global best).  For every state, iteration number and
generator: whenever `updateParticles` returns, `global_best_cost` afterwards is
at most `global_best_cost` before; and from every state that satisfies the
invariant it does return.  Hence in a run (start state, `initializeParticles`,
then the loop of `main`) the value after iteration `j + 1` is at most the value
after iteration `j`, for every `j`. -/
theorem C3_monotonic_global_best (sqrtF : Int → α) (cities : List City)
    (hc : cities.length = NUM_CITIES) :
    (∀ (iteration : Nat) (s s1 : State α),
      updateParticles sqrtF cities iteration s = some s1 →
        s1.global_best_cost ≤ s.global_best_cost) ∧
      (∀ (iteration : Nat) (s : State α), Inv s →
        ∃ s1, updateParticles sqrtF cities iteration s = some s1 ∧
          s1.global_best_cost ≤ s.global_best_cost) ∧
      (∀ (fltMax : α) (g : Rng), AboveAllCosts sqrtF cities fltMax → ∀ j : Nat,
        ∃ sj sj1, runIterations sqrtF cities fltMax g j = some sj ∧
          runIterations sqrtF cities fltMax g (j + 1) = some sj1 ∧
          sj1.global_best_cost ≤ sj.global_best_cost) := by
  have step : ∀ (iteration : Nat) (s : State α), Inv s →
      ∃ s1, updateParticles sqrtF cities iteration s = some s1 ∧
        s1.global_best_cost ≤ s.global_best_cost := by
    intro iteration s hs
    obtain ⟨s1, h1, _⟩ := updateParticles_inv sqrtF hc iteration s hs
    exact ⟨s1, h1, updateParticles_gbc_le sqrtF cities h1⟩
  refine ⟨fun iteration s s1 h => updateParticles_gbc_le sqrtF cities h, step, ?_⟩
  intro fltMax g hmax j
  obtain ⟨sj, hj, hinv⟩ := runIterations_inv sqrtF hc fltMax g hmax j
  obtain ⟨sj1, hj1, hle⟩ := step j sj hinv
  exact ⟨sj, sj1, hj, by rw [runIterations_succ, hj]; exact hj1, hle⟩

/-- C4 (pruning replaces exactly k particles).  The prune count is
`500 * 10 / 100 = 50`.  On a swarm of `NUM_PARTICLES` particles whose positions
have `NUM_CITIES` entries, `pruneParticles` returns a swarm `kept ++ fresh`:
`kept` has 450 particles and `fresh` has 50, the 50 particles newly seeded
from the generator; together with a list `replaced` of 50 particles, `kept` is
a rearrangement of the swarm before the call (so every kept particle is a
particle of that swarm, all four fields unchanged); `kept` is in ascending
cost order; and every kept particle costs at most as much as every replaced
one. -/
theorem C4_pruning_replaces_exactly_k (sqrtF : Int → α) (cities : List City)
    (hc : cities.length = NUM_CITIES) (s : State α) (hlen : s.swarm.length = NUM_PARTICLES)
    (hpos : ∀ p ∈ s.swarm, p.position.length = NUM_CITIES) :
    NUM_PARTICLES * PRUNE_PERCENTAGE / 100 = 50 ∧
      ∃ s1 kept replaced fresh, pruneParticles sqrtF cities s = some s1 ∧
        s1.swarm = kept ++ fresh ∧ kept.length = 450 ∧ replaced.length = 50 ∧
        fresh.length = 50 ∧ s1.swarm.take 450 = kept ∧ s1.swarm.drop 450 = fresh ∧
        freshTail sqrtF cities 50 s.rng = some (fresh, s1.rng) ∧
        (∀ q ∈ fresh, IsFresh sqrtF cities q) ∧
        (kept ++ replaced).Perm s.swarm ∧
        kept.Pairwise (fun a b => a.cost ≤ b.cost) ∧
        (∀ p ∈ kept, ∀ q ∈ replaced, p.cost ≤ q.cost) := by
  refine ⟨prune_count_eq, ?_⟩
  obtain ⟨fl, g1, hft, hprune⟩ := pruneParticles_spec sqrtF hc s hlen hpos
  obtain ⟨fl', g1', hft', hfl, hfresh⟩ := freshTail_spec sqrtF hc 50 s.rng
  rw [hft] at hft'
  simp only [Option.some.injEq, Prod.mk.injEq] at hft'
  obtain ⟨rfl, rfl⟩ := hft'
  have hslen : (s.swarm.insertionSort costLE).length = 500 := by
    rw [List.length_insertionSort, hlen]; rfl
  have hkept : ((s.swarm.insertionSort costLE).take 450).length = 450 := by
    simp [hslen]
  have hsorted : (s.swarm.insertionSort costLE).Pairwise costLE :=
    List.sorted_insertionSort costLE s.swarm
  have hsplit : (s.swarm.insertionSort costLE).take 450 ++
      (s.swarm.insertionSort costLE).drop 450 = s.swarm.insertionSort costLE :=
    List.take_append_drop _ _
  refine ⟨_, (s.swarm.insertionSort costLE).take 450, (s.swarm.insertionSort costLE).drop 450,
    fl, hprune, rfl, hkept, by simp [hslen], hfl, ?_, ?_, hft, hfresh, ?_, ?_, ?_⟩
  · rw [List.take_append_of_le_length (by rw [hkept]), List.take_of_length_le (by rw [hkept])]
  · rw [List.drop_append_of_le_length (by rw [hkept]), List.drop_of_length_le (by rw [hkept]),
      List.nil_append]
  · rw [hsplit]
    exact List.perm_insertionSort costLE s.swarm
  · exact hsorted.sublist (List.take_sublist _ _)
  · rw [← hsplit] at hsorted
    exact (List.pairwise_append.1 hsorted).2.2

/-- C9 (full reseed).  On a swarm of `NUM_PARTICLES` particles whose positions
have `NUM_CITIES` entries, `pruneParticles` returns, and the last 50 slots are
the 50 particles seeded one after the other from the generator of the call
(`freshTail`).  Every slot `i` of the last 50 holds a particle whose position
is the result of shuffling the identity tour (hence a tour), whose cost is
`calculateCost` of that position, and whose personal best equals position and
cost.  Nothing of the previous particle survives: the last 50 slots are the
same for every swarm that is pruned with the same generator. -/
theorem C9_full_reseed (sqrtF : Int → α) (cities : List City)
    (hc : cities.length = NUM_CITIES) (s : State α) (hlen : s.swarm.length = NUM_PARTICLES)
    (hpos : ∀ p ∈ s.swarm, p.position.length = NUM_CITIES) :
    ∃ s1, pruneParticles sqrtF cities s = some s1 ∧ s1.swarm.length = NUM_PARTICLES ∧
      freshTail sqrtF cities (NUM_PARTICLES * PRUNE_PERCENTAGE / 100) s.rng =
        some (s1.swarm.drop (NUM_PARTICLES - NUM_PARTICLES * PRUNE_PERCENTAGE / 100), s1.rng) ∧
      (∀ i, NUM_PARTICLES - NUM_PARTICLES * PRUNE_PERCENTAGE / 100 ≤ i → i < NUM_PARTICLES →
        ∃ q g g1, s1.swarm[i]? = some q ∧
          shuffle (List.range NUM_CITIES) g = some (q.position, g1) ∧
          IsTour q.position ∧ calculateCost sqrtF cities q.position = some q.cost ∧
          q.best_position = q.position ∧ q.best_cost = q.cost) ∧
      (∀ t : State α, t.swarm.length = NUM_PARTICLES →
        (∀ p ∈ t.swarm, p.position.length = NUM_CITIES) → t.rng = s.rng →
        ∃ t1, pruneParticles sqrtF cities t = some t1 ∧
          t1.swarm.drop (NUM_PARTICLES - NUM_PARTICLES * PRUNE_PERCENTAGE / 100) =
            s1.swarm.drop (NUM_PARTICLES - NUM_PARTICLES * PRUNE_PERCENTAGE / 100)) := by
  obtain ⟨fl, g1, hft, hprune⟩ := pruneParticles_spec sqrtF hc s hlen hpos
  obtain ⟨fl', g1', hft', hfl, hfresh⟩ := freshTail_spec sqrtF hc 50 s.rng
  rw [hft] at hft'
  simp only [Option.some.injEq, Prod.mk.injEq] at hft'
  obtain ⟨rfl, rfl⟩ := hft'
  have h450 : NUM_PARTICLES - NUM_PARTICLES * PRUNE_PERCENTAGE / 100 = 450 := by decide
  have hkept : ∀ u : State α, u.swarm.length = NUM_PARTICLES →
      ((u.swarm.insertionSort costLE).take 450).length = 450 := by
    intro u hu
    simp [List.length_insertionSort, hu, NUM_PARTICLES]
  refine ⟨_, hprune, ?_, ?_, ?_, ?_⟩
  · simp [hkept s hlen, hfl, NUM_PARTICLES]
  · rw [h450, prune_count_eq]
    simp only
    rw [List.drop_append_of_le_length (by rw [hkept s hlen]),
      List.drop_of_length_le (by rw [hkept s hlen]), List.nil_append]
    exact hft
  · intro i hi1 hi2
    rw [h450] at hi1
    have hi3 : i - 450 < fl.length := by rw [hfl]; simp only [NUM_PARTICLES] at hi2; omega
    have hget : ((s.swarm.insertionSort costLE).take 450 ++ fl)[i]? = some fl[i - 450] := by
      rw [List.getElem?_append_right (by rw [hkept s hlen]; exact hi1), hkept s hlen,
        List.getElem?_eq_getElem hi3]
    have hmem : fl[i - 450] ∈ fl := List.getElem_mem hi3
    obtain ⟨g, g0, hfp⟩ := freshTail_mem sqrtF cities 50 _ _ fl hft _ hmem
    obtain ⟨h1, h2, h3, h4⟩ := hfresh _ hmem
    exact ⟨fl[i - 450], g, g0, hget, freshParticle_shuffle sqrtF hfp, h1, h2, h3, h4⟩
  · intro t htlen htpos hrng
    obtain ⟨fl2, g2, hft2, hprune2⟩ := pruneParticles_spec sqrtF hc t htlen htpos
    rw [hrng, hft] at hft2
    simp only [Option.some.injEq, Prod.mk.injEq] at hft2
    obtain ⟨rfl, rfl⟩ := hft2
    refine ⟨_, hprune2, ?_⟩
    rw [h450]
    simp only
    rw [List.drop_append_of_le_length (by rw [hkept t htlen]),
      List.drop_append_of_le_length (by rw [hkept s hlen]),
      List.drop_of_length_le (by rw [hkept t htlen]),
      List.drop_of_length_le (by rw [hkept s hlen])]

/-- C10 (pruning never touches the global best).  Whenever `pruneParticles`
returns, `global_best_position` and `global_best_cost` are what they were
before the call; and it does return on every swarm of `NUM_PARTICLES` particles
whose positions have `NUM_CITIES` entries, for every generator. -/
theorem C10_prune_keeps_global_best (sqrtF : Int → α) (cities : List City)
    (hc : cities.length = NUM_CITIES) :
    (∀ s s1 : State α, pruneParticles sqrtF cities s = some s1 →
      s1.global_best_position = s.global_best_position ∧
        s1.global_best_cost = s.global_best_cost) ∧
      (∀ s : State α, s.swarm.length = NUM_PARTICLES →
        (∀ p ∈ s.swarm, p.position.length = NUM_CITIES) →
        ∃ s1, pruneParticles sqrtF cities s = some s1 ∧
          s1.global_best_position = s.global_best_position ∧
          s1.global_best_cost = s.global_best_cost) := by
  constructor
  · intro s s1 h
    exact pruneParticles_global sqrtF cities h
  · intro s hlen hpos
    obtain ⟨fl, g1, _, hprune⟩ := pruneParticles_spec sqrtF hc s hlen hpos
    exact ⟨_, hprune, rfl, rfl⟩

/-- C8 (initialization seeds the bests).  Over the reals, with `NUM_CITIES`
cities whose coordinates lie in `[0, 100)`: the sentinel
`numeric_limits<float>::max()` is strictly greater than the cost of every
tour; and from the start state (sentinel cost, empty global best tour)
`initializeParticles` returns a state in which every particle has
`best_position = position`, `best_cost = cost` and `cost` the value of
`calculateCost` on its position, `global_best_cost` is the minimum of the
particles' costs, and `global_best_position` is the position of the first
particle in swarm order that attains it. -/
theorem C8_initialization_seeds_bests (cities : List City) (hc : cities.length = NUM_CITIES)
    (hgrid : ∀ c ∈ cities, InGrid c) (g : Rng) :
    (∀ route, IsTour route →
      ∃ c, calculateCost (fun z : ℤ => Real.sqrt (z : ℝ)) cities route = some c ∧
        c < (FLT_MAX : ℝ)) ∧
      ∃ s1, initializeParticles (fun z : ℤ => Real.sqrt (z : ℝ)) cities
          (initialState (FLT_MAX : ℝ) g) = some s1 ∧
        s1.swarm.length = NUM_PARTICLES ∧
        (∀ p ∈ s1.swarm, p.best_position = p.position ∧ p.best_cost = p.cost ∧
          calculateCost (fun z : ℤ => Real.sqrt (z : ℝ)) cities p.position = some p.cost) ∧
        (∀ p ∈ s1.swarm, s1.global_best_cost ≤ p.cost) ∧
        ∃ pre q post, s1.swarm = pre ++ q :: post ∧ q.cost = s1.global_best_cost ∧
          q.position = s1.global_best_position ∧ ∀ r ∈ pre, s1.global_best_cost < r.cost := by
  have hmax := aboveAllCosts_real hc hgrid
  constructor
  · intro route ht
    obtain ⟨c, hcost⟩ := calculateCost_isSome_of_isTour (fun z : ℤ => Real.sqrt (z : ℝ)) hc ht
    exact ⟨c, hcost, hmax route c ht hcost⟩
  · obtain ⟨s1, h1, hinv, hfresh, hbest⟩ :=
      initializeParticles_inv (fun z : ℤ => Real.sqrt (z : ℝ)) hc
        (initialState (FLT_MAX : ℝ) g) (by simp [initialState]) (Or.inr hmax)
    refine ⟨s1, h1, hinv.swarm_len, ?_, hbest.le_cost, ?_⟩
    · intro p hp
      obtain ⟨_, h2, h3, h4⟩ := hfresh p hp
      exact ⟨h3, h4, h2⟩
    · rcases hbest with ⟨_, _, h3⟩ | ⟨_, pre, q, post, h2, h3, h4, h5, _⟩
      · exfalso
        have hne : s1.swarm ≠ [] := by
          intro h
          have := hinv.swarm_len
          rw [h] at this
          exact absurd this (by simp [NUM_PARTICLES])
        obtain ⟨q, hq⟩ := List.exists_mem_of_ne_nil _ hne
        have hlt := hmax _ _ (hfresh q hq).1 (hfresh q hq).2.1
        exact absurd hlt (not_lt.2 (h3 q hq))
      · exact ⟨pre, q, post, h2, h4, h3, h5⟩

/-- C1 at the line cities: `updateParticles` on the example swarm returns a
state whose positions are all tours. -/
theorem C1_permutation_invariant_witness :
    ∃ s1, updateParticles isqrt lineCities 0 (detourState (constRng 1)) = some s1 ∧ Inv s1 ∧
      ∀ p ∈ s1.swarm, IsTour p.position :=
  (C1_permutation_invariant isqrt lineCities lineCities_length).2.2.2.2.2.1 0
    (detourState (constRng 1)) (detourState_inv (constRng 1))

/-- C3 at the line cities: one call of `updateParticles` on the example swarm
does not raise the global best cost above 40. -/
theorem C3_monotonic_global_best_witness :
    ∃ s1, updateParticles isqrt lineCities 7 (detourState (constRng 0)) = some s1 ∧
      s1.global_best_cost ≤ (detourState (constRng 0)).global_best_cost :=
  (C3_monotonic_global_best isqrt lineCities lineCities_length).2.1 7
    (detourState (constRng 0)) (detourState_inv (constRng 0))

/-- C4 at the line cities: pruning the example swarm keeps 450 particles and
seeds 50. -/
theorem C4_pruning_replaces_exactly_k_witness :
    ∃ s1 kept fresh, pruneParticles isqrt lineCities (detourState (constRng 0)) = some s1 ∧
      s1.swarm = kept ++ fresh ∧ kept.length = 450 ∧ fresh.length = 50 := by
  obtain ⟨_, s1, kept, _, fresh, h1, h2, h3, _, h5, _⟩ :=
    C4_pruning_replaces_exactly_k isqrt lineCities lineCities_length
      (detourState (constRng 0)) (by simp [detourState])
      (fun p hp => by rw [List.eq_of_mem_replicate hp]; rfl)
  exact ⟨s1, kept, fresh, h1, h2, h3, h5⟩

/-- C8 at the line cities, over the reals: `initializeParticles` returns a
full swarm from the start state. -/
theorem C8_initialization_seeds_bests_witness :
    ∃ s1, initializeParticles (fun z : ℤ => Real.sqrt (z : ℝ)) lineCities
        (initialState (FLT_MAX : ℝ) (constRng 0)) = some s1 ∧
      s1.swarm.length = NUM_PARTICLES ∧ ∀ p ∈ s1.swarm, s1.global_best_cost ≤ p.cost := by
  obtain ⟨_, s1, h1, h2, _, h4, _⟩ :=
    C8_initialization_seeds_bests lineCities lineCities_length (by decide) (constRng 0)
  exact ⟨s1, h1, h2, h4⟩

/-- C9 at the line cities: after pruning the example swarm the last slot holds
a particle whose personal best is its fresh position and cost. -/
theorem C9_full_reseed_witness :
    ∃ s1 q, pruneParticles isqrt lineCities (detourState (constRng 0)) = some s1 ∧
      s1.swarm[499]? = some q ∧ IsTour q.position ∧ q.best_position = q.position ∧
      q.best_cost = q.cost := by
  obtain ⟨s1, h1, _, _, h3, _⟩ :=
    C9_full_reseed isqrt lineCities lineCities_length
      (detourState (constRng 0)) (by simp [detourState])
      (fun p hp => by rw [List.eq_of_mem_replicate hp]; rfl)
  obtain ⟨q, _, _, hq, _, ht, _, hb, hc⟩ := h3 499 (by decide) (by decide)
  exact ⟨s1, q, h1, hq, ht, hb, hc⟩

/-- C10 at the line cities: pruning the example swarm returns and leaves the
global best tour and cost as they were. -/
theorem C10_prune_keeps_global_best_witness :
    ∃ s1, pruneParticles isqrt lineCities (detourState (constRng 0)) = some s1 ∧
      s1.global_best_position = detourTour ∧ s1.global_best_cost = 40 :=
  (C10_prune_keeps_global_best isqrt lineCities lineCities_length).2
    (detourState (constRng 0)) (by simp [detourState])
    (fun p hp => by rw [List.eq_of_mem_replicate hp]; rfl)

/-- C5, refuted as stated.  Run the program over the reals on the line cities
with a generator that draws 0 while `initializeParticles` runs and 1
afterwards.  After `initializeParticles` every particle has personal best cost
38.  The first call of `updateParticles` returns a swarm whose last slot holds
a reseeded particle with personal best cost 72: more than the personal best
cost of any particle at the start of the call, so whichever particle is
followed into that slot, its `best_cost` went up. -/
theorem C5_reseed_raises_best_cost :
    ∃ s0 s1 q,
      runIterations (fun z : ℤ => Real.sqrt (z : ℝ)) lineCities (FLT_MAX : ℝ) (stepRng 0 1) 0 =
        some s0 ∧
      updateParticles (fun z : ℤ => Real.sqrt (z : ℝ)) lineCities 0 s0 = some s1 ∧
      (∀ p ∈ s0.swarm, p.best_cost = 38) ∧
      s1.swarm[499]? = some q ∧ q.best_cost = 72 := by
  obtain ⟨g1, g2, h0, h1⟩ := lineRun fresh_zero update_short_one fresh_one (by decide)
    (by decide)
  rw [runIterations_succ, h0, Option.some_bind] at h1
  refine ⟨_, _, longParticle.map (fun n : ℕ => (n : ℝ)), h0, h1, ?_, replicate_tail_slot _ _, ?_⟩
  · intro p hp
    rw [List.eq_of_mem_replicate hp]
    simp [Particle.map, shortParticle]
  · simp [Particle.map, longParticle]

/-- C5, amended (monotonic personal best of the particles that survive).  From
every state that satisfies the invariant, `updateParticles` returns, and its
result `s1` is that of `pruneParticles` on the result `smid` of the
per-particle loop; both swarms are as long as the swarm at the start.  In the
loop, the particle of every slot `k` ends with a `best_cost` equal to the
minimum of the `best_cost` that slot held at the start and the particle's new
cost, hence not higher.  A list `idx` of 450 different slots follows the
particles through the sort: slot `i` of the final swarm holds the particle that
the loop left in slot `idx[i]`, and its `best_cost` is at most the `best_cost`
slot `idx[i]` held at the start of the call.  Every final slot from 450 on
holds a freshly seeded particle: a tour with its cost, `best_position` equal to
the position and `best_cost` equal to the cost of that fresh tour; these slots
are the 50 particles seeded from the generator that the loop left. -/
theorem C5_monotonic_personal_best_survivors (sqrtF : Int → α) (cities : List City)
    (hc : cities.length = NUM_CITIES) (iteration : Nat) (s : State α) (hs : Inv s) :
    ∃ (smid s1 : State α) (idx : List Nat),
      updatePhase sqrtF cities s = some smid ∧
      pruneParticles sqrtF cities smid = some s1 ∧
      updateParticles sqrtF cities iteration s = some s1 ∧
      smid.swarm.length = s.swarm.length ∧ s1.swarm.length = s.swarm.length ∧
      (∀ (k : Nat) (p q : Particle α), s.swarm[k]? = some p → smid.swarm[k]? = some q →
        q.best_cost = min p.best_cost q.cost ∧ q.best_cost ≤ p.best_cost) ∧
      idx.length = NUM_PARTICLES - NUM_PARTICLES * PRUNE_PERCENTAGE / 100 ∧ idx.Nodup ∧
      (∀ i k : Nat, idx[i]? = some k →
        ∃ p q, s.swarm[k]? = some p ∧ smid.swarm[k]? = some q ∧ s1.swarm[i]? = some q ∧
          q.best_cost ≤ p.best_cost) ∧
      (∀ (i : Nat) (q : Particle α),
        NUM_PARTICLES - NUM_PARTICLES * PRUNE_PERCENTAGE / 100 ≤ i → s1.swarm[i]? = some q →
        IsTour q.position ∧ calculateCost sqrtF cities q.position = some q.cost ∧
          q.best_position = q.position ∧ q.best_cost = q.cost) ∧
      freshTail sqrtF cities (NUM_PARTICLES * PRUNE_PERCENTAGE / 100) smid.rng =
        some (s1.swarm.drop (NUM_PARTICLES - NUM_PARTICLES * PRUNE_PERCENTAGE / 100),
          s1.rng) := by
  obtain ⟨smid, s1, fl, h1, h2, h3, hinv1, hinv2, hstep, _, hsw, _, _, hft, _, hfresh⟩ :=
    updateParticles_parts sqrtF hc iteration s hs
  obtain ⟨idx, hnd, hidx, hslots⟩ := survivors_slots smid.swarm fl hinv1.swarm_len
  have h450 : NUM_PARTICLES - NUM_PARTICLES * PRUNE_PERCENTAGE / 100 = 450 := by decide
  have hkept := kept_length smid.swarm hinv1.swarm_len
  refine ⟨smid, s1, idx, h1, h2, h3, by rw [hinv1.swarm_len, hs.swarm_len],
    by rw [hinv2.swarm_len, hs.swarm_len], ?_, by rw [h450]; exact hidx, hnd, ?_, ?_, ?_⟩
  · intro k p q hp hq
    exact (forall₂_getElem? hstep hp hq).best_cost_min
  · intro i k hik
    obtain ⟨_, hk, hslot⟩ := hslots i k hik
    have hk1 : k < smid.swarm.length := by rw [hinv1.swarm_len]; exact hk
    have hk0 : k < s.swarm.length := by rw [hs.swarm_len]; exact hk
    refine ⟨s.swarm[k], smid.swarm[k], List.getElem?_eq_getElem hk0,
      List.getElem?_eq_getElem hk1, ?_, ?_⟩
    · rw [hsw, hslot]
      exact List.getElem?_eq_getElem hk1
    · exact (forall₂_getElem? hstep (List.getElem?_eq_getElem hk0)
        (List.getElem?_eq_getElem hk1)).best_cost_min.2
  · intro i q hi hq
    rw [h450] at hi
    rw [hsw, List.getElem?_append_right (by rw [hkept]; exact hi)] at hq
    exact hfresh q (List.mem_iff_getElem?.2 ⟨_, hq⟩)
  · rw [h450, prune_count_eq, hsw, List.drop_append_of_le_length (by rw [hkept]),
      List.drop_of_length_le (by rw [hkept]), List.nil_append]
    exact hft

/-- C5 amended, at the line cities: `updateParticles` on the example swarm
returns, and each of its first 450 slots holds the particle of a slot of its
own, with a personal best cost not above the one that slot started with. -/
theorem C5_monotonic_personal_best_survivors_witness :
    ∃ (smid s1 : State Nat) (idx : List Nat),
      updatePhase isqrt lineCities (detourState (constRng 1)) = some smid ∧
      pruneParticles isqrt lineCities smid = some s1 ∧
      updateParticles isqrt lineCities 0 (detourState (constRng 1)) = some s1 ∧
      idx.length = 450 ∧ idx.Nodup ∧
      ∀ i k : Nat, idx[i]? = some k →
        ∃ p q, (detourState (constRng 1)).swarm[k]? = some p ∧ smid.swarm[k]? = some q ∧
          s1.swarm[i]? = some q ∧ q.best_cost ≤ p.best_cost := by
  obtain ⟨smid, s1, idx, h1, h2, h3, _, _, _, h7, h8, h9, _⟩ :=
    C5_monotonic_personal_best_survivors isqrt lineCities lineCities_length 0
      (detourState (constRng 1)) (detourState_inv (constRng 1))
  exact ⟨smid, s1, idx, h1, h2, h3, h7, h8, h9⟩

/-- C6, refuted as stated.  Run the program over the reals on the line cities
with a generator that draws 1 while `initializeParticles` runs and 0
afterwards.  After the first call of `updateParticles` the global best cost is
72, while the last slot of the swarm holds a reseeded particle whose evaluated
cost is 38: pruning leaves the global best alone, so the global best cost
exceeds the cost of a particle in the swarm. -/
theorem C6_reseed_undercuts_global_best :
    ∃ s1 q,
      runIterations (fun z : ℤ => Real.sqrt (z : ℝ)) lineCities (FLT_MAX : ℝ) (stepRng 1 0) 1 =
        some s1 ∧
      s1.global_best_cost = 72 ∧ s1.swarm[499]? = some q ∧
      calculateCost (fun z : ℤ => Real.sqrt (z : ℝ)) lineCities q.position = some q.cost ∧
      q.cost = 38 ∧ ¬ ∀ p ∈ s1.swarm, s1.global_best_cost ≤ p.cost := by
  obtain ⟨g1, g2, _, h1⟩ := lineRun fresh_one update_long_zero fresh_zero (by decide)
    (by decide)
  have hcost : calculateCost isqrt lineCities shortParticle.position = some 38 := by decide!
  refine ⟨_, shortParticle.map (fun n : ℕ => (n : ℝ)), h1, ?_, replicate_tail_slot _ _, ?_, ?_, ?_⟩
  · simp [longParticle]
  · rw [lineCities_cost]
    simp only [Particle.map, hcost, Option.map_some']
    rfl
  · simp [Particle.map, shortParticle]
  · intro hall
    have := hall _ (List.mem_iff_getElem?.2 ⟨499, replicate_tail_slot _ _⟩)
    simp [Particle.map, shortParticle, longParticle] at this
    norm_num at this

/-- C6, amended (the global best bounds every cost of the loops that write
it).  With `NUM_CITIES` cities: `initializeParticles` returns a swarm of the
same length in which `global_best_cost` is at most the cost of every particle;
from a state that satisfies the invariant the per-particle loop of
`updateParticles` returns a swarm of the same length in which
`global_best_cost` is at most the cost of every particle; the whole of
`updateParticles` is that loop followed by `pruneParticles`, which leaves the
global best as the loop left it, so `global_best_cost` is at most the cost in
every slot below 450, each of which holds a particle of the swarm the loop
left, while the slots from 450 on hold the 50 freshly seeded particles, whose
costs are compared with the global best only in the next call.  Hence after
`initializeParticles` from the start state and any number `j` of iterations,
`global_best_cost` is at most the cost in every slot below 450. -/
theorem C6_global_best_bounds_survivors (sqrtF : Int → α) (cities : List City)
    (hc : cities.length = NUM_CITIES) :
    (∀ s : State α, ∃ s1, initializeParticles sqrtF cities s = some s1 ∧
        s1.swarm.length = s.swarm.length ∧
        ∀ p ∈ s1.swarm, s1.global_best_cost ≤ p.cost) ∧
      (∀ s : State α, Inv s → ∃ smid, updatePhase sqrtF cities s = some smid ∧
        smid.swarm.length = s.swarm.length ∧
        ∀ q ∈ smid.swarm, smid.global_best_cost ≤ q.cost) ∧
      (∀ (iteration : Nat) (s : State α), Inv s →
        ∃ smid s1, updatePhase sqrtF cities s = some smid ∧
          pruneParticles sqrtF cities smid = some s1 ∧
          updateParticles sqrtF cities iteration s = some s1 ∧
          s1.swarm.length = NUM_PARTICLES ∧
          s1.global_best_position = smid.global_best_position ∧
          s1.global_best_cost = smid.global_best_cost ∧
          (∀ (i : Nat) (p : Particle α),
            i < NUM_PARTICLES - NUM_PARTICLES * PRUNE_PERCENTAGE / 100 →
            s1.swarm[i]? = some p → p ∈ smid.swarm ∧ s1.global_best_cost ≤ p.cost) ∧
          freshTail sqrtF cities (NUM_PARTICLES * PRUNE_PERCENTAGE / 100) smid.rng =
            some (s1.swarm.drop (NUM_PARTICLES - NUM_PARTICLES * PRUNE_PERCENTAGE / 100),
              s1.rng)) ∧
      (∀ (fltMax : α) (g : Rng), AboveAllCosts sqrtF cities fltMax → ∀ j : Nat,
        ∃ sj, runIterations sqrtF cities fltMax g j = some sj ∧
          sj.swarm.length = NUM_PARTICLES ∧
          ∀ (i : Nat) (p : Particle α),
            i < NUM_PARTICLES - NUM_PARTICLES * PRUNE_PERCENTAGE / 100 →
            sj.swarm[i]? = some p → sj.global_best_cost ≤ p.cost) := by
  have h450 : NUM_PARTICLES - NUM_PARTICLES * PRUNE_PERCENTAGE / 100 = 450 := by decide
  have step : ∀ (iteration : Nat) (s : State α), Inv s →
      ∃ smid s1, updatePhase sqrtF cities s = some smid ∧
        pruneParticles sqrtF cities smid = some s1 ∧
        updateParticles sqrtF cities iteration s = some s1 ∧
        s1.swarm.length = NUM_PARTICLES ∧
        s1.global_best_position = smid.global_best_position ∧
        s1.global_best_cost = smid.global_best_cost ∧
        (∀ (i : Nat) (p : Particle α),
          i < NUM_PARTICLES - NUM_PARTICLES * PRUNE_PERCENTAGE / 100 →
          s1.swarm[i]? = some p → p ∈ smid.swarm ∧ s1.global_best_cost ≤ p.cost) ∧
        freshTail sqrtF cities (NUM_PARTICLES * PRUNE_PERCENTAGE / 100) smid.rng =
          some (s1.swarm.drop (NUM_PARTICLES - NUM_PARTICLES * PRUNE_PERCENTAGE / 100),
            s1.rng) := by
    intro iteration s hs
    obtain ⟨smid, s1, fl, h1, h2, h3, hinv1, hinv2, _, hbest, hsw, e1, e2, hft, _, _⟩ :=
      updateParticles_parts sqrtF hc iteration s hs
    have hkept := kept_length smid.swarm hinv1.swarm_len
    refine ⟨smid, s1, h1, h2, h3, hinv2.swarm_len, e1, e2, ?_, ?_⟩
    · intro i p hi hp
      rw [h450] at hi
      rw [hsw, List.getElem?_append_left (by rw [hkept]; exact hi)] at hp
      have hmem : p ∈ smid.swarm :=
        (List.mem_insertionSort costLE).1
          (List.mem_of_mem_take (List.mem_iff_getElem?.2 ⟨i, hp⟩))
      exact ⟨hmem, by rw [e2]; exact hbest.le_cost p hmem⟩
    · rw [h450, prune_count_eq, hsw, List.drop_append_of_le_length (by rw [hkept]),
        List.drop_of_length_le (by rw [hkept]), List.nil_append]
      exact hft
  refine ⟨?_, ?_, step, ?_⟩
  · intro s
    obtain ⟨s1, h1, hlen, _, hbest⟩ := initializeParticles_spec sqrtF hc s
    exact ⟨s1, h1, hlen, hbest.le_cost⟩
  · intro s hs
    obtain ⟨smid, h1, _, hstep, hbest⟩ := updatePhase_spec sqrtF hc s hs
    exact ⟨smid, h1, hstep.length_eq.symm, hbest.le_cost⟩
  · intro fltMax g hmax j
    cases j with
    | zero =>
      obtain ⟨s0, h0, hinv0, _, hbest⟩ :=
        initializeParticles_inv sqrtF hc (initialState fltMax g) (by simp [initialState])
          (Or.inr hmax)
      refine ⟨s0, by simp only [runIterations, h0, Option.bind_eq_bind, Option.some_bind,
        mainLoop], hinv0.swarm_len, ?_⟩
      intro i p _ hp
      exact hbest.le_cost p (List.mem_iff_getElem?.2 ⟨i, hp⟩)
    | succ j =>
      obtain ⟨sj, hj, hinvj⟩ := runIterations_inv sqrtF hc fltMax g hmax j
      obtain ⟨smid, s1, _, _, h3, hlen, _, _, hsurv, _⟩ := step j sj hinvj
      refine ⟨s1, by rw [runIterations_succ, hj]; exact h3, hlen, ?_⟩
      intro i p hi hp
      exact (hsurv i p hi hp).2

/-- C6 amended, at the line cities: after `updateParticles` on the example
swarm the global best cost is at most the cost in every slot below 450. -/
theorem C6_global_best_bounds_survivors_witness :
    ∃ s1, updateParticles isqrt lineCities 0 (detourState (constRng 1)) = some s1 ∧
      s1.swarm.length = NUM_PARTICLES ∧
      ∀ (i : Nat) (p : Particle Nat), i < 450 → s1.swarm[i]? = some p →
        s1.global_best_cost ≤ p.cost := by
  obtain ⟨_, s1, _, _, h3, h4, _, _, h7, _⟩ :=
    (C6_global_best_bounds_survivors isqrt lineCities lineCities_length).2.2.1 0
      (detourState (constRng 1)) (detourState_inv (constRng 1))
  exact ⟨s1, h3, h4, fun i p hi hp => (h7 i p hi hp).2⟩

/-- C11, refuted as stated.  Run the program over the reals on the line cities
with a generator that draws 1 while `initializeParticles` runs and 0
afterwards.  In the first call of `updateParticles`, the call of
`pruneParticles` returns a swarm whose slot 0 holds a particle of cost 72 and
whose slot 499 holds a reseeded particle of cost 38: the swarm is not in
ascending cost order. -/
theorem C11_reseeded_tail_out_of_order :
    ∃ s0 smid s1 p q,
      runIterations (fun z : ℤ => Real.sqrt (z : ℝ)) lineCities (FLT_MAX : ℝ) (stepRng 1 0) 0 =
        some s0 ∧
      updatePhase (fun z : ℤ => Real.sqrt (z : ℝ)) lineCities s0 = some smid ∧
      pruneParticles (fun z : ℤ => Real.sqrt (z : ℝ)) lineCities smid = some s1 ∧
      s1.swarm[0]? = some p ∧ s1.swarm[499]? = some q ∧ p.cost = 72 ∧ q.cost = 38 ∧
      q.cost < p.cost := by
  obtain ⟨g1, g2, h0, h1⟩ := lineRun fresh_one update_long_zero fresh_zero (by decide)
    (by decide)
  rw [runIterations_succ, h0, Option.some_bind] at h1
  unfold updateParticles at h1
  simp only [Option.bind_eq_bind] at h1
  obtain ⟨smid, e1, e2⟩ := Option.bind_eq_some.1 h1
  refine ⟨_, smid, _, _, _, h0, e1, e2, replicate_head_slot _ _, replicate_tail_slot _ _,
    ?_, ?_, ?_⟩
  · simp [Particle.map]
  · simp [Particle.map, shortParticle]
  · simp [Particle.map, shortParticle]
    norm_num

/-- C11, amended (the surviving slots are in ascending cost order).  On a swarm
of `NUM_PARTICLES` particles whose positions have `NUM_CITIES` entries,
`pruneParticles` returns a swarm of `NUM_PARTICLES` particles in which, for all
slots `i < j < 450`, the cost in slot `i` is at most the cost in slot `j`; the
slots from 450 on hold the freshly seeded particles, in the order they were
seeded. -/
theorem C11_surviving_slots_ascending (sqrtF : Int → α) (cities : List City)
    (hc : cities.length = NUM_CITIES) (s : State α) (hlen : s.swarm.length = NUM_PARTICLES)
    (hpos : ∀ p ∈ s.swarm, p.position.length = NUM_CITIES) :
    ∃ s1, pruneParticles sqrtF cities s = some s1 ∧ s1.swarm.length = NUM_PARTICLES ∧
      (∀ i j p q, i < j → j < NUM_PARTICLES - NUM_PARTICLES * PRUNE_PERCENTAGE / 100 →
        s1.swarm[i]? = some p → s1.swarm[j]? = some q → p.cost ≤ q.cost) ∧
      freshTail sqrtF cities (NUM_PARTICLES * PRUNE_PERCENTAGE / 100) s.rng =
        some (s1.swarm.drop (NUM_PARTICLES - NUM_PARTICLES * PRUNE_PERCENTAGE / 100), s1.rng) := by
  obtain ⟨fl, g1, hft, hprune⟩ := pruneParticles_spec sqrtF hc s hlen hpos
  obtain ⟨fl', g1', hft', hfl, _⟩ := freshTail_spec sqrtF hc 50 s.rng
  rw [hft] at hft'
  simp only [Option.some.injEq, Prod.mk.injEq] at hft'
  obtain ⟨rfl, rfl⟩ := hft'
  have h450 : NUM_PARTICLES - NUM_PARTICLES * PRUNE_PERCENTAGE / 100 = 450 := by decide
  have hslen : (s.swarm.insertionSort costLE).length = 500 := by
    rw [List.length_insertionSort, hlen]; rfl
  have hkept : ((s.swarm.insertionSort costLE).take 450).length = 450 := by
    simp [hslen]
  have hsorted : ((s.swarm.insertionSort costLE).take 450).Pairwise costLE :=
    (List.sorted_insertionSort costLE s.swarm).sublist (List.take_sublist _ _)
  refine ⟨_, hprune, ?_, ?_, ?_⟩
  · simp [hkept, hfl, NUM_PARTICLES]
  · intro i j p q hij hj hp hq
    rw [h450] at hj
    simp only at hp hq
    rw [List.getElem?_append_left (by rw [hkept]; omega)] at hp hq
    obtain ⟨hi', rfl⟩ := List.getElem?_eq_some.1 hp
    obtain ⟨hj', rfl⟩ := List.getElem?_eq_some.1 hq
    exact List.pairwise_iff_getElem.1 hsorted i j hi' hj' hij
  · rw [h450, prune_count_eq]
    simp only
    rw [List.drop_append_of_le_length (by rw [hkept]),
      List.drop_of_length_le (by rw [hkept]), List.nil_append]
    exact hft

/-- C11 amended, at the line cities: pruning the example swarm returns a swarm
whose first two slots are in ascending cost order. -/
theorem C11_surviving_slots_ascending_witness :
    ∃ s1, pruneParticles isqrt lineCities (detourState (constRng 0)) = some s1 ∧
      ∀ p q, s1.swarm[0]? = some p → s1.swarm[1]? = some q → p.cost ≤ q.cost := by
  obtain ⟨s1, h1, _, h3, _⟩ :=
    C11_surviving_slots_ascending isqrt lineCities lineCities_length
      (detourState (constRng 0)) (by simp [detourState])
      (fun p hp => by rw [List.eq_of_mem_replicate hp]; rfl)
  exact ⟨s1, h1, fun p q hp hq => h3 0 1 p q (by decide) (by decide) hp hq⟩

/-- C15 (personal-best update rule of one particle step).  Whenever the body of
the `updateParticles` loop returns for a particle `p`, giving `q`: the new
`cost` is `calculateCost` of the new position, the new `best_cost` is the
minimum of the old `best_cost` and the new cost, `best_position` is the new
position when the new cost is strictly less than the old `best_cost` and is the
old `best_position` otherwise, and `best_cost` has not increased.  The body
does return when the city set has `NUM_CITIES` entries and the particle's
position, its personal best and the global best are tours. -/
theorem C15_personal_best_update_rule (sqrtF : Int → α) (cities : List City) :
    (∀ (p q : Particle α) (gbp gbp1 : List Nat) (gbc gbc1 : α) (g g1 : Rng),
      updateParticle sqrtF cities p gbp gbc g = some (q, gbp1, gbc1, g1) →
        calculateCost sqrtF cities q.position = some q.cost ∧
        q.best_cost = min p.best_cost q.cost ∧
        (q.cost < p.best_cost → q.best_position = q.position) ∧
        (¬ q.cost < p.best_cost → q.best_position = p.best_position) ∧
        q.best_cost ≤ p.best_cost) ∧
      (∀ (p : Particle α) (gbp : List Nat) (gbc : α) (g : Rng),
        cities.length = NUM_CITIES → IsTour p.position → IsTour p.best_position →
        IsTour gbp → ∃ r, updateParticle sqrtF cities p gbp gbc g = some r) := by
  constructor
  · intro p q gbp gbp1 gbc gbc1 g g1 h
    obtain ⟨hcost, hq, _, _⟩ := updateParticle_inv_eq sqrtF cities h
    refine ⟨hcost, ?_, ?_, ?_, ?_⟩
    · by_cases hlt : q.cost < p.best_cost
      · rw [min_eq_right (le_of_lt hlt)]
        rw [if_pos hlt] at hq
        have h2 := congrArg Particle.best_cost hq
        exact h2
      · rw [min_eq_left (not_lt.1 hlt)]
        rw [if_neg hlt] at hq
        have h2 := congrArg Particle.best_cost hq
        exact h2
    · intro hlt
      rw [if_pos hlt] at hq
      have h2 := congrArg Particle.best_position hq
      exact h2
    · intro hlt
      rw [if_neg hlt] at hq
      have h2 := congrArg Particle.best_position hq
      exact h2
    · by_cases hlt : q.cost < p.best_cost
      · rw [if_pos hlt] at hq
        rw [congrArg Particle.best_cost hq]
        exact le_of_lt hlt
      · rw [if_neg hlt] at hq
        rw [congrArg Particle.best_cost hq]
  · intro p gbp gbc g hc hp hb hg
    obtain ⟨pos, c, g1, _, _, h⟩ := updateParticle_spec sqrtF hc p gbc g hp hb hg
    exact ⟨_, h⟩

/-- C15 at the line cities: the loop body returns on a particle of the example
swarm. -/
theorem C15_personal_best_update_rule_witness :
    ∃ r, updateParticle isqrt lineCities detourParticle detourTour 40 (constRng 0) = some r :=
  (C15_personal_best_update_rule isqrt lineCities).2 detourParticle detourTour 40 (constRng 0)
    lineCities_length detourTour_isTour detourTour_isTour detourTour_isTour

/-- C16 (global-best update rule of the update phase).  One pass of the loop
body writes the global best exactly when the particle's new cost is strictly
lower than the global best at that moment, and then writes the particle's
position and cost; otherwise tour and cost are unchanged.  From every state
that satisfies the invariant the per-particle loop returns; the swarm it leaves
has the length of the swarm before, and the particle in each slot is what the
loop body returned for the particle that slot held before, its cost being
`calculateCost` of its new position.  Afterwards `global_best_cost` is the
minimum of the previous `global_best_cost` and the costs newly evaluated for
all these particles; if no new cost is strictly lower than the previous global
best, tour and cost are unchanged; and if the global best changed, it is the
position and cost of a particle whose new cost is strictly lower than the
previous global best. -/
theorem C16_global_best_update_rule (sqrtF : Int → α) (cities : List City)
    (hc : cities.length = NUM_CITIES) :
    (∀ (p q : Particle α) (gbp gbp1 : List Nat) (gbc gbc1 : α) (g g1 : Rng),
      updateParticle sqrtF cities p gbp gbc g = some (q, gbp1, gbc1, g1) →
        calculateCost sqrtF cities q.position = some q.cost ∧
        (q.cost < gbc → gbp1 = q.position ∧ gbc1 = q.cost) ∧
        (¬ q.cost < gbc → gbp1 = gbp ∧ gbc1 = gbc)) ∧
      (∀ s : State α, Inv s →
        ∃ s1, updatePhase sqrtF cities s = some s1 ∧
          updateLoop sqrtF cities s.swarm s.global_best_position s.global_best_cost s.rng =
            some (s1.swarm, s1.global_best_position, s1.global_best_cost, s1.rng) ∧
          s1.swarm.length = s.swarm.length ∧
          List.Forall₂ (fun p q => ∃ (gbp0 gbp2 : List Nat) (gbc0 gbc2 : α) (g0 g2 : Rng),
            updateParticle sqrtF cities p gbp0 gbc0 g0 = some (q, gbp2, gbc2, g2))
            s.swarm s1.swarm ∧
          (∀ q ∈ s1.swarm, calculateCost sqrtF cities q.position = some q.cost) ∧
          s1.global_best_cost =
            (s1.swarm.map fun q => q.cost).foldl min s.global_best_cost ∧
          ((∀ q ∈ s1.swarm, ¬ q.cost < s.global_best_cost) →
            s1.global_best_position = s.global_best_position ∧
              s1.global_best_cost = s.global_best_cost) ∧
          (¬ (s1.global_best_position = s.global_best_position ∧
              s1.global_best_cost = s.global_best_cost) →
            ∃ q ∈ s1.swarm, q.cost < s.global_best_cost ∧
              q.position = s1.global_best_position ∧ q.cost = s1.global_best_cost)) := by
  constructor
  · intro p q gbp gbp1 gbc gbc1 g g1 h
    obtain ⟨hcost, _, h2, h3⟩ := updateParticle_inv_eq sqrtF cities h
    refine ⟨hcost, ?_, ?_⟩
    · intro hlt
      rw [if_pos hlt] at h2 h3
      exact ⟨h2, h3⟩
    · intro hlt
      rw [if_neg hlt] at h2 h3
      exact ⟨h2, h3⟩
  · intro s hs
    obtain ⟨s1, h1, _, hstep, hbest⟩ := updatePhase_spec sqrtF hc s hs
    have hloop := updatePhase_loop sqrtF cities h1
    refine ⟨s1, h1, hloop, hstep.length_eq.symm,
      updateLoop_body sqrtF cities _ _ _ _ _ _ _ _ hloop, ?_, hbest.eq_foldl_min,
      hbest.unchanged, hbest.changed⟩
    intro q hq
    exact ((ParticleStep.costs hstep) q hq).2

/-- C16 at the line cities: the per-particle loop returns on the example swarm
a swarm of the same 500 slots, and leaves the minimum of 40 and the 500 new
costs as global best cost. -/
theorem C16_global_best_update_rule_witness :
    ∃ s1, updatePhase isqrt lineCities (detourState (constRng 1)) = some s1 ∧
      s1.swarm.length = (detourState (constRng 1)).swarm.length ∧
      s1.global_best_cost = (s1.swarm.map fun q => q.cost).foldl min 40 := by
  obtain ⟨s1, h1, _, h2, _, _, h3, _⟩ :=
    (C16_global_best_update_rule isqrt lineCities lineCities_length).2
      (detourState (constRng 1)) (detourState_inv (constRng 1))
  exact ⟨s1, h1, h2, h3⟩

/-- C12 (the global best is a consistent pair).  One pass of the loop body of
`updateParticles` leaves the global best tour and cost both unchanged, or both
taken from the particle just updated, whose stored cost is the cost of its
position.  With `NUM_CITIES` cities: from a state with a non-empty swarm whose
`global_best_cost` is above the cost of every tour (the sentinel),
`initializeParticles` returns a state whose `global_best_position` is a tour
and whose `global_best_cost` is `calculateCost` of it, both read from one
particle of the swarm; from a state that satisfies the invariant and has a
consistent global best, the per-particle loop and the whole of
`updateParticles` return states with a consistent global best, the pair after
the loop being the old pair or position and cost of one particle; hence after
`initializeParticles` from the start state and any number `j` of iterations the
global best is a consistent pair. -/
theorem C12_global_best_consistent_pair (sqrtF : Int → α) (cities : List City)
    (hc : cities.length = NUM_CITIES) :
    (∀ (p q : Particle α) (gbp gbp1 : List Nat) (gbc gbc1 : α) (g g1 : Rng),
      updateParticle sqrtF cities p gbp gbc g = some (q, gbp1, gbc1, g1) →
        calculateCost sqrtF cities q.position = some q.cost ∧
          ((gbp1 = gbp ∧ gbc1 = gbc) ∨ (gbp1 = q.position ∧ gbc1 = q.cost))) ∧
      (∀ s : State α, s.swarm ≠ [] → AboveAllCosts sqrtF cities s.global_best_cost →
        ∃ s1, initializeParticles sqrtF cities s = some s1 ∧
          IsTour s1.global_best_position ∧
          calculateCost sqrtF cities s1.global_best_position = some s1.global_best_cost ∧
          ∃ q ∈ s1.swarm, q.position = s1.global_best_position ∧
            q.cost = s1.global_best_cost) ∧
      (∀ s : State α, Inv s → GlobalConsistent sqrtF cities s →
        ∃ s1, updatePhase sqrtF cities s = some s1 ∧
          IsTour s1.global_best_position ∧
          calculateCost sqrtF cities s1.global_best_position = some s1.global_best_cost ∧
          ((s1.global_best_position = s.global_best_position ∧
              s1.global_best_cost = s.global_best_cost) ∨
            ∃ q ∈ s1.swarm, q.position = s1.global_best_position ∧
              q.cost = s1.global_best_cost)) ∧
      (∀ (iteration : Nat) (s : State α), Inv s → GlobalConsistent sqrtF cities s →
        ∃ s1, updateParticles sqrtF cities iteration s = some s1 ∧
          IsTour s1.global_best_position ∧
          calculateCost sqrtF cities s1.global_best_position = some s1.global_best_cost) ∧
      (∀ (fltMax : α) (g : Rng), AboveAllCosts sqrtF cities fltMax → ∀ j : Nat,
        ∃ sj, runIterations sqrtF cities fltMax g j = some sj ∧
          IsTour sj.global_best_position ∧
          calculateCost sqrtF cities sj.global_best_position = some sj.global_best_cost) := by
  refine ⟨?_, ?_, ?_, ?_, ?_⟩
  · intro p q gbp gbp1 gbc gbc1 g g1 h
    obtain ⟨hcost, _, h2, h3⟩ := updateParticle_inv_eq sqrtF cities h
    refine ⟨hcost, ?_⟩
    by_cases hlt : q.cost < gbc
    · rw [if_pos hlt] at h2 h3
      exact Or.inr ⟨h2, h3⟩
    · rw [if_neg hlt] at h2 h3
      exact Or.inl ⟨h2, h3⟩
  · intro s hne hmax
    obtain ⟨s1, h1, hlen1, hfresh, hg1, hsrc⟩ :=
      initializeParticles_consistent sqrtF hc s (Or.inr ⟨hne, hmax⟩)
    refine ⟨s1, h1, hg1.1, hg1.2, ?_⟩
    rcases hsrc with ⟨e1, e2⟩ | hq
    · exfalso
      have hne1 : s1.swarm ≠ [] := by
        intro h
        rw [h] at hlen1
        exact hne (List.length_eq_zero.1 hlen1.symm)
      obtain ⟨q, hq⟩ := List.exists_mem_of_ne_nil _ hne1
      have hcost := hg1.2
      rw [e2] at hcost
      exact absurd (hmax _ _ hg1.1 hcost) (lt_irrefl _)
    · exact hq
  · intro s hs hg
    obtain ⟨s1, h1, _, hg1, hsrc⟩ := updatePhase_globalConsistent sqrtF hc s hs hg
    exact ⟨s1, h1, hg1.1, hg1.2, hsrc⟩
  · intro iteration s hs hg
    obtain ⟨s1, h1, _, hg1⟩ := updateParticles_globalConsistent sqrtF hc iteration s hs hg
    exact ⟨s1, h1, hg1.1, hg1.2⟩
  · intro fltMax g hmax j
    obtain ⟨sj, hj, _, _, hgj⟩ := runIterations_consistent sqrtF hc fltMax g hmax j
    exact ⟨sj, hj, hgj.1, hgj.2⟩

/-- C12 at the line cities: `updateParticles` on the example swarm, whose
global best is the detour tour with its cost 40, returns a state whose global
best cost is the cost of its global best tour. -/
theorem C12_global_best_consistent_pair_witness :
    ∃ s1, updateParticles isqrt lineCities 3 (detourState (constRng 1)) = some s1 ∧
      IsTour s1.global_best_position ∧
      calculateCost isqrt lineCities s1.global_best_position = some s1.global_best_cost :=
  (C12_global_best_consistent_pair isqrt lineCities lineCities_length).2.2.2.1 3
    (detourState (constRng 1)) (detourState_inv (constRng 1))
    (detourState_globalConsistent (constRng 1))

/-- C20 (particle consistency invariant).  With `NUM_CITIES` cities:
`initializeParticles` returns, from every state, a swarm of the same length in
which every particle has `cost = calculateCost(position)`,
`best_cost = calculateCost(best_position)`, `best_cost ≤ cost` and a
`best_position` that is a tour; from a state that satisfies the invariant and
in which every `best_cost` is the cost of its `best_position`, `updateParticles`
(pruning included) returns a state with a swarm of `NUM_PARTICLES` particles in
which every particle satisfies the four conditions; hence they hold for each of
the `NUM_PARTICLES` particles after `initializeParticles` from the start state
and any number `j` of iterations. -/
theorem C20_particle_consistency (sqrtF : Int → α) (cities : List City)
    (hc : cities.length = NUM_CITIES) :
    (∀ s : State α, ∃ s1, initializeParticles sqrtF cities s = some s1 ∧
        s1.swarm.length = s.swarm.length ∧
        ∀ p ∈ s1.swarm,
          calculateCost sqrtF cities p.position = some p.cost ∧
          calculateCost sqrtF cities p.best_position = some p.best_cost ∧
          p.best_cost ≤ p.cost ∧ IsTour p.best_position) ∧
      (∀ (iteration : Nat) (s : State α), Inv s →
        (∀ p ∈ s.swarm, calculateCost sqrtF cities p.best_position = some p.best_cost) →
        ∃ s1, updateParticles sqrtF cities iteration s = some s1 ∧
          s1.swarm.length = NUM_PARTICLES ∧
          ∀ p ∈ s1.swarm,
            calculateCost sqrtF cities p.position = some p.cost ∧
            calculateCost sqrtF cities p.best_position = some p.best_cost ∧
            p.best_cost ≤ p.cost ∧ IsTour p.best_position) ∧
      (∀ (fltMax : α) (g : Rng), AboveAllCosts sqrtF cities fltMax → ∀ j : Nat,
        ∃ sj, runIterations sqrtF cities fltMax g j = some sj ∧
          sj.swarm.length = NUM_PARTICLES ∧
          ∀ p ∈ sj.swarm,
            calculateCost sqrtF cities p.position = some p.cost ∧
            calculateCost sqrtF cities p.best_position = some p.best_cost ∧
            p.best_cost ≤ p.cost ∧ IsTour p.best_position) := by
  refine ⟨?_, ?_, ?_⟩
  · intro s
    obtain ⟨s1, h1, hlen, hfresh, _⟩ := initializeParticles_spec sqrtF hc s
    exact ⟨s1, h1, hlen, fun p hp => (hfresh p hp).to_consistent⟩
  · intro iteration s hs hb
    obtain ⟨s1, h1, hinv, hcons, _⟩ := updateParticles_consistent sqrtF hc iteration s hs hb
    exact ⟨s1, h1, hinv.swarm_len, hcons⟩
  · intro fltMax g hmax j
    obtain ⟨sj, hj, hinv, hcons, _⟩ := runIterations_consistent sqrtF hc fltMax g hmax j
    exact ⟨sj, hj, hinv.swarm_len, hcons⟩

/-- C20 at the line cities: after `updateParticles` on the example swarm there
are `NUM_PARTICLES` particles, and every particle's best cost is the cost of
its best position and at most its cost. -/
theorem C20_particle_consistency_witness :
    ∃ s1, updateParticles isqrt lineCities 0 (detourState (constRng 1)) = some s1 ∧
      s1.swarm.length = NUM_PARTICLES ∧
      ∀ p ∈ s1.swarm,
        calculateCost isqrt lineCities p.position = some p.cost ∧
        calculateCost isqrt lineCities p.best_position = some p.best_cost ∧
        p.best_cost ≤ p.cost ∧ IsTour p.best_position :=
  (C20_particle_consistency isqrt lineCities lineCities_length).2.1 0
    (detourState (constRng 1)) (detourState_inv (constRng 1))
    (fun p hp => (detourState_consistent (constRng 1) p hp).2.1)

/-- C13 (the inertia weight is unused).  For every state (swarm, global best
and generator) and every two iteration numbers `it1` and `it2`,
`updateParticles it1` and `updateParticles it2` give the same outcome: the
same swarm, the same global best and the same generator state; the same holds
for any number of iterations of the loop of `main` started at two different
counters.  The weight itself does depend on the iteration number: it is 9/10 at
iteration 0 and differs between any two different iterations.  With
`NUM_CITIES` cities and a state that satisfies the invariant, both calls
return. -/
theorem C13_inertia_weight_unused (sqrtF : Int → α) (cities : List City) :
    (∀ (it1 it2 : Nat) (s : State α),
      updateParticles sqrtF cities it1 s = updateParticles sqrtF cities it2 s) ∧
      (∀ (k it1 it2 : Nat) (s : State α),
        mainLoop sqrtF cities k it1 s = mainLoop sqrtF cities k it2 s) ∧
      inertiaWeight 0 = 9 / 10 ∧
      (∀ it1 it2 : Nat, it1 ≠ it2 → inertiaWeight it1 ≠ inertiaWeight it2) ∧
      (cities.length = NUM_CITIES → ∀ (it1 it2 : Nat) (s : State α), Inv s →
        ∃ s1, updateParticles sqrtF cities it1 s = some s1 ∧
          updateParticles sqrtF cities it2 s = some s1) := by
  have h1 : ∀ (it1 it2 : Nat) (s : State α),
      updateParticles sqrtF cities it1 s = updateParticles sqrtF cities it2 s :=
    fun _ _ _ => rfl
  refine ⟨h1, ?_, ?_, ?_, ?_⟩
  · intro k
    induction k with
    | zero => intro _ _ _; rfl
    | succ k ih =>
      intro it1 it2 s
      simp only [mainLoop, Option.bind_eq_bind]
      rw [h1 it1 it2 s]
      cases updateParticles sqrtF cities it2 s with
      | none => rfl
      | some s1 => exact ih (it1 + 1) (it2 + 1) s1
  · norm_num [inertiaWeight, INITIAL_INERTIA_WEIGHT]
  · intro it1 it2 hne h
    exact hne (inertiaWeight_injective h)
  · intro hc it1 it2 s hs
    obtain ⟨s1, hs1, _⟩ := updateParticles_inv sqrtF hc it1 s hs
    exact ⟨s1, hs1, by rw [← h1 it1 it2 s]; exact hs1⟩

/-- C13 at the line cities: on the example swarm the calls at iterations 0 and
1999 return the same state, though the weights differ. -/
theorem C13_inertia_weight_unused_witness :
    inertiaWeight 0 ≠ inertiaWeight 1999 ∧
      ∃ s1, updateParticles isqrt lineCities 0 (detourState (constRng 1)) = some s1 ∧
        updateParticles isqrt lineCities 1999 (detourState (constRng 1)) = some s1 :=
  ⟨(C13_inertia_weight_unused isqrt lineCities).2.2.2.1 0 1999 (by decide),
    (C13_inertia_weight_unused isqrt lineCities).2.2.2.2 lineCities_length 0 1999
      (detourState (constRng 1)) (detourState_inv (constRng 1))⟩

/-- C14 (determinism under a fixed random source).  The generator is an explicit
input of the program.  Two runs on the same cities whose generators yield the
same raw values from where they stand behave alike: if one run returns a state
after `initializeParticles` and `j` iterations, the other returns a state with
the same swarm (every particle's tours and costs), the same
`global_best_position` and the same `global_best_cost`, and generators that
still agree; this holds for every `j`, so after every iteration and, at
`j = MAX_ITERATIONS`, for the final global best.  With `NUM_CITIES` cities and a
sentinel above the cost of every tour both runs do return.  The same holds for
`main`, which also draws the cities: both runs return the same cities and final
states that agree. -/
theorem C14_determinism_fixed_random_source (sqrtF : Int → α) (fltMax : α) :
    (∀ (cities : List City) (g h : Rng) (j : Nat), g.Agree h →
      ∀ sj, runIterations sqrtF cities fltMax g j = some sj →
        ∃ tj, runIterations sqrtF cities fltMax h j = some tj ∧
          sj.swarm = tj.swarm ∧ sj.global_best_position = tj.global_best_position ∧
          sj.global_best_cost = tj.global_best_cost ∧ sj.rng.Agree tj.rng) ∧
      (∀ (cities : List City) (g h : Rng) (j : Nat), cities.length = NUM_CITIES →
        AboveAllCosts sqrtF cities fltMax → g.Agree h →
        ∃ sj tj, runIterations sqrtF cities fltMax g j = some sj ∧
          runIterations sqrtF cities fltMax h j = some tj ∧
          sj.swarm = tj.swarm ∧ sj.global_best_position = tj.global_best_position ∧
          sj.global_best_cost = tj.global_best_cost) ∧
      (∀ g h : Rng, g.Agree h →
        (∀ cities : List City, cities.length = NUM_CITIES → (∀ c ∈ cities, InGrid c) →
          AboveAllCosts sqrtF cities fltMax) →
        ∃ cities s t, main sqrtF fltMax g = some (cities, s) ∧
          main sqrtF fltMax h = some (cities, t) ∧
          s.swarm = t.swarm ∧ s.global_best_position = t.global_best_position ∧
          s.global_best_cost = t.global_best_cost) := by
  refine ⟨?_, ?_, ?_⟩
  · intro cities g h j a sj hsj
    exact runIterations_agree sqrtF cities fltMax a j hsj
  · intro cities g h j hc hmax a
    obtain ⟨sj, hsj, _⟩ := runIterations_inv sqrtF hc fltMax g hmax j
    obtain ⟨tj, htj, b1, b2, b3, _⟩ := runIterations_agree sqrtF cities fltMax a j hsj
    exact ⟨sj, tj, hsj, htj, b1, b2, b3⟩
  · intro g h a hmax
    obtain ⟨cities, s, hs, _⟩ := main_returns sqrtF fltMax hmax g
    obtain ⟨t, ht, b1, b2, b3, _⟩ := main_agree sqrtF fltMax a hs
    exact ⟨cities, s, t, hs, ht, b1, b2, b3⟩

/-- C14 over the reals: two runs of `main` from the same generator state,
reached once after no draw and once after five earlier draws, return the same
cities, the same final swarm and the same final global best. -/
theorem C14_determinism_fixed_random_source_witness :
    ∃ cities s t,
      main (fun z : ℤ => Real.sqrt (z : ℝ)) (FLT_MAX : ℝ) (constRng 7) = some (cities, s) ∧
      main (fun z : ℤ => Real.sqrt (z : ℝ)) (FLT_MAX : ℝ)
        { stream := fun n => if n < 5 then n else 7, pos := 5 } = some (cities, t) ∧
      s.swarm = t.swarm ∧ s.global_best_position = t.global_best_position ∧
      s.global_best_cost = t.global_best_cost :=
  (C14_determinism_fixed_random_source (fun z : ℤ => Real.sqrt (z : ℝ)) (FLT_MAX : ℝ)).2.2
    (constRng 7) { stream := fun n => if n < 5 then n else 7, pos := 5 }
    (fun k => by simp [constRng])
    (fun _ hc hgrid => aboveAllCosts_real hc hgrid)

/-- C17 (saturating swap probabilities).  The two constants are equal and
greater than 1, and every uniform variate lies in `[0, 1)`, so both guards of
the swap pass hold at every draw.  Hence each pass of the swap loop performs the
swap with the slot named by the personal best and then the swap with the slot
named by the global best, and goes on two draws later; over the `NUM_CITIES`
indices the loop yields the position computed by `swapPass`, which reads the
position, the personal best and the global best and no draw, with the generator
`2 * NUM_CITIES` draws on; so two generators give the same position.  On tours
the pass returns, and its result is a tour. -/
theorem C17_saturating_swap_probabilities :
    (1 < COGNITIVE_COMPONENT ∧ COGNITIVE_COMPONENT = SOCIAL_COMPONENT) ∧
      (∀ g : Rng, 0 ≤ g.uniform01.1 ∧ g.uniform01.1 < 1 ∧
        g.uniform01.1 < COGNITIVE_COMPONENT ∧ g.uniform01.1 < SOCIAL_COMPONENT) ∧
      (∀ (bp gbp : List Nat) (k i : Nat) (v : List Nat) (g : Rng),
        swapLoop bp gbp (k + 1) i v g =
          ((bp[i]?).bind fun b => swapAt v i b).bind fun p1 =>
            ((gbp[i]?).bind fun b => swapAt p1 i b).bind fun p2 =>
              swapLoop bp gbp k (i + 1) p2 g.advance.advance) ∧
      (∀ (bp gbp v : List Nat) (g : Rng),
        swapLoop bp gbp NUM_CITIES 0 v g =
          (swapPass bp gbp NUM_CITIES 0 v).map
            (fun y => (y, Rng.mk g.stream (g.pos + 2 * NUM_CITIES)))) ∧
      (∀ (bp gbp v : List Nat) (g h : Rng),
        (swapLoop bp gbp NUM_CITIES 0 v g).map Prod.fst =
          (swapLoop bp gbp NUM_CITIES 0 v h).map Prod.fst) ∧
      (∀ (bp gbp v : List Nat) (g : Rng), IsTour bp → IsTour gbp → IsTour v →
        ∃ v1, swapPass bp gbp NUM_CITIES 0 v = some v1 ∧
          swapLoop bp gbp NUM_CITIES 0 v g =
            some (v1, Rng.mk g.stream (g.pos + 2 * NUM_CITIES)) ∧
          IsTour v1) := by
  refine ⟨⟨by norm_num [COGNITIVE_COMPONENT], rfl⟩, ?_, swapLoop_succ, ?_, ?_, ?_⟩
  · intro g
    exact ⟨uniform01_nonneg g, uniform01_lt_one g, uniform01_lt_cognitive g,
      uniform01_lt_social g⟩
  · intro bp gbp v g
    exact swapLoop_eq_swapPass bp gbp NUM_CITIES 0 v g
  · intro bp gbp v g h
    rw [swapLoop_eq_swapPass, swapLoop_eq_swapPass]
    cases swapPass bp gbp NUM_CITIES 0 v <;> rfl
  · intro bp gbp v g hb hg hv
    obtain ⟨v1, g1, h1, hperm⟩ :=
      swapLoop_spec hb hg NUM_CITIES 0 v g hv.length_eq (by omega)
    have h2 := swapLoop_eq_swapPass bp gbp NUM_CITIES 0 v g
    rw [h1] at h2
    cases hpass : swapPass bp gbp NUM_CITIES 0 v with
    | none =>
      rw [hpass] at h2
      exact absurd h2 (by simp)
    | some w =>
      rw [hpass] at h2
      simp only [Option.map_some', Option.some.injEq, Prod.mk.injEq] at h2
      refine ⟨w, rfl, ?_, ?_⟩
      · rw [h1, h2.1, h2.2]
      · rw [← h2.1]
        exact hv.of_perm hperm

/-- C17 at the detour tour: the swap pass returns the same tour under the
generator of all-zero draws and under the generator of all-maximal draws. -/
theorem C17_saturating_swap_probabilities_witness :
    (swapLoop detourTour detourTour NUM_CITIES 0 detourTour (constRng 0)).map Prod.fst =
        (swapLoop detourTour detourTour NUM_CITIES 0 detourTour
          (constRng (2 ^ 32 - 1))).map Prod.fst ∧
      ∃ v1, swapPass detourTour detourTour NUM_CITIES 0 detourTour = some v1 ∧ IsTour v1 := by
  have h := C17_saturating_swap_probabilities
  obtain ⟨v1, h1, _, h3⟩ := h.2.2.2.2.2 detourTour detourTour detourTour (constRng 0)
    detourTour_isTour detourTour_isTour detourTour_isTour
  exact ⟨h.2.2.2.2.1 detourTour detourTour detourTour (constRng 0) (constRng (2 ^ 32 - 1)),
    v1, h1, h3⟩

/-- C18 (index safety under the permutation invariant).  A vector access of
the program is embedded as a lookup that fails outside the vector: `swapAt`
returns exactly when both indices are inside, and the edge cost exactly when
both city indices are.  With `NUM_CITIES` cities and a state in which the swarm
has `NUM_PARTICLES` particles and every position, every personal best and the
global best are tours, for every generator: `updateParticles`,
`pruneParticles`, `applyMutationAndGaussian` and `calculateCost` return, so no
access of theirs falls outside; in particular `best_position[i]` and
`global_best_position[i]` exist and are below the length of `position` for
`i < NUM_CITIES`, `rng() % NUM_CITIES` is below it, every entry of a tour is
below the number of cities, and `NUM_PARTICLES - 1 - i` is below the swarm size
for `i` below the prune count.  From the start state, with a sentinel above the
cost of every tour, the whole run returns at every iteration. -/
theorem C18_index_safety (sqrtF : Int → α) (cities : List City)
    (hc : cities.length = NUM_CITIES) :
    ((∀ (v : List Nat) (i j : Nat),
        (∃ v1, swapAt v i j = some v1) ↔ (i < v.length ∧ j < v.length)) ∧
      (∀ a b : Nat,
        (∃ d, edgeCost sqrtF cities a b = some d) ↔ (a < cities.length ∧ b < cities.length))) ∧
      (∀ (iteration : Nat) (s : State α), Inv s →
        ∃ s1, updateParticles sqrtF cities iteration s = some s1 ∧ Inv s1) ∧
      (∀ s : State α, Inv s → ∃ s1, pruneParticles sqrtF cities s = some s1 ∧ Inv s1) ∧
      (∀ (v : List Nat) (g : Rng), IsTour v →
        ∃ v1 g1, applyMutationAndGaussian v g = some (v1, g1) ∧ IsTour v1) ∧
      (∀ route : List Nat, IsTour route → ∃ c, calculateCost sqrtF cities route = some c) ∧
      (∀ (bp v : List Nat) (i : Nat), IsTour bp → IsTour v → i < NUM_CITIES →
        ∃ b, bp[i]? = some b ∧ i < v.length ∧ b < v.length) ∧
      (∀ (v : List Nat) (g : Rng), IsTour v → g.draw.1 % NUM_CITIES < v.length) ∧
      (∀ route : List Nat, IsTour route → ∀ x ∈ route, x < cities.length) ∧
      (∀ s : State α, Inv s → ∀ i, i < NUM_PARTICLES * PRUNE_PERCENTAGE / 100 →
        NUM_PARTICLES - 1 - i < s.swarm.length) ∧
      (∀ (fltMax : α) (g : Rng), AboveAllCosts sqrtF cities fltMax → ∀ j : Nat,
        ∃ sj, runIterations sqrtF cities fltMax g j = some sj ∧ Inv sj) := by
  refine ⟨⟨?_, ?_⟩, ?_, ?_, ?_, ?_, ?_, ?_, ?_, ?_, ?_⟩
  · intro v i j
    constructor
    · rintro ⟨v1, h⟩
      exact swapAt_bounds h
    · rintro ⟨hi, hj⟩
      exact ⟨_, swapAt_eq hi hj⟩
  · intro a b
    constructor
    · rintro ⟨d, h⟩
      exact edgeCost_bounds h
    · rintro ⟨ha, hb⟩
      exact ⟨_, edgeCost_eq sqrtF ha hb⟩
  · intro iteration s hs
    exact updateParticles_inv sqrtF hc iteration s hs
  · intro s hs
    obtain ⟨fl, g1, _, h2, hinv⟩ := pruneParticles_inv sqrtF hc s hs
    exact ⟨_, h2, hinv⟩
  · intro v g hv
    obtain ⟨v1, g1, h1, hperm⟩ := applyMutationAndGaussian_spec v g hv.length_eq
    exact ⟨v1, g1, h1, hv.of_perm hperm⟩
  · intro route hr
    exact calculateCost_isSome_of_isTour sqrtF hc hr
  · intro bp v i hb hv hi
    obtain ⟨b, h1, h2⟩ := hb.getElem?_lt hi
    exact ⟨b, h1, by rw [hv.length_eq]; exact hi, by rw [hv.length_eq]; exact h2⟩
  · intro v g hv
    rw [hv.length_eq]
    exact Nat.mod_lt _ (by decide)
  · intro route hr x hx
    rw [hc]
    exact hr.lt_of_mem hx
  · intro s hs i hi
    rw [hs.swarm_len]
    have h50 := prune_count_eq
    rw [h50] at hi
    simp only [NUM_PARTICLES]
    omega
  · intro fltMax g hmax j
    exact runIterations_inv sqrtF hc fltMax g hmax j

/-- C18 at the line cities: `updateParticles` on the example swarm returns, and
the cost of a route that names a city outside the city vector does not. -/
theorem C18_index_safety_witness :
    (∃ s1, updateParticles isqrt lineCities 0 (detourState (constRng 1)) = some s1 ∧ Inv s1) ∧
      ¬ ∃ d, edgeCost isqrt lineCities 0 20 = some d := by
  have h := C18_index_safety isqrt lineCities lineCities_length
  refine ⟨h.2.1 0 (detourState (constRng 1)) (detourState_inv (constRng 1)), ?_⟩
  rw [h.1.2 0 20]
  decide

/-- C19 (the cost is invariant under rotation and reversal).  Over the reals,
for every route of at least two entries that all name a city, `calculateCost`
returns a value `c`, the length of the closed tour; it returns the same `c` for
the route rotated by any number `k` of places and for the reversed route. -/
theorem C19_cost_rotation_reversal (cities : List City) (route : List Nat)
    (hlen : 2 ≤ route.length) (hvalid : ∀ x ∈ route, x < cities.length) :
    ∃ c : ℝ, calculateCost (fun z : ℤ => Real.sqrt (z : ℝ)) cities route = some c ∧
      c = tourLength (fun z : ℤ => Real.sqrt (z : ℝ)) cities route ∧
      (∀ k : Nat,
        calculateCost (fun z : ℤ => Real.sqrt (z : ℝ)) cities (route.rotate k) = some c) ∧
      calculateCost (fun z : ℤ => Real.sqrt (z : ℝ)) cities route.reverse = some c := by
  have hne : route ≠ [] := by
    intro h
    rw [h] at hlen
    exact absurd hlen (by decide)
  refine ⟨_, calculateCost_eq_tourLength _ cities route hne hvalid, rfl, ?_, ?_⟩
  · intro k
    rw [calculateCost_rotate _ cities route hvalid k]
    exact calculateCost_eq_tourLength _ cities route hne hvalid
  · rw [calculateCost_reverse _ cities route hvalid]
    exact calculateCost_eq_tourLength _ cities route hne hvalid

/-- C19 at the line cities: the detour tour, the same tour started seven places
later and the tour run backwards all cost the same. -/
theorem C19_cost_rotation_reversal_witness :
    ∃ c : ℝ, calculateCost (fun z : ℤ => Real.sqrt (z : ℝ)) lineCities detourTour = some c ∧
      calculateCost (fun z : ℤ => Real.sqrt (z : ℝ)) lineCities (detourTour.rotate 7) = some c ∧
      calculateCost (fun z : ℤ => Real.sqrt (z : ℝ)) lineCities detourTour.reverse = some c := by
  obtain ⟨c, h1, _, h3, h4⟩ :=
    C19_cost_rotation_reversal lineCities detourTour (by decide) (by decide)
  exact ⟨c, h1, h3 7, h4⟩

end Claims

end TSPSwarm
